import Mathlib

/-!
# Iterator cache and fork-aware ingestion session

A shallow embedding of `src/chaindb_callbacks.hpp` (class `iterator_cache`) and of
`src/fill_rocksdb_plugin.cpp` (struct `fill_rdb_session`), followed by the properties
established about them.

Conventions of the embedding.

* `int32_t`/`int` values are `Int`, `size_t`/`uint64_t`/`uint32_t` values are `Nat`;
  every C++ conversion or operation that can wrap is written with an explicit modulus.
* A member function that mutates the object returns the final object next to its
  result, also when it throws: `Except cache_error α × iterator_cache`.
* A C++ reference into a `std::vector` (`auto& it = iterators[itr]`) is embedded as the
  index it denotes for as long as the vector is not reallocated. When `emplace_back`
  reallocates the vector the reference dangles: a store through it does not reach the
  vector, and a read through it gives the value last stored through it. The vector
  reallocates when it is full, with the capacity given by `vector_capacity`. A subscript
  outside the vector, undefined in C++, is the error `cache_error.subscript_out_of_range`.
* `std::map` is an association list searched front to back; `find`, `operator[]` and
  `size` are `map_find`, `map_assign` and `List.length`.
-/

namespace history_tools

/-! ## Machine integers -/

/-- The constant `std::numeric_limits<int32_t>::max()`. -/
def INT32_MAX : Int := 2147483647

/-- The constant `std::numeric_limits<int32_t>::min()`. -/
def INT32_MIN : Int := -2147483648

/-- Narrowing conversion to `int32_t`: the low 32 bits read in two's complement. -/
def to_int32 (n : Int) : Int := (n + 2147483648) % 4294967296 - 2147483648

/-- Conversion of a signed integer to the 64-bit `size_t`. -/
def to_size_t (i : Int) : Nat := (i % 18446744073709551616).toNat

/-- Source `iterator_cache::index_to_end_iterator`: `-(indx + 2)` computed in `size_t`
and narrowed to `int32_t`.
Documented precondition: `indx < tables.size() <= INT32_MAX`. -/
def index_to_end_iterator (indx : Nat) : Int :=
  to_int32 ((-(((indx : Int) + 2) % 18446744073709551616)) % 18446744073709551616)

/-- Source `iterator_cache::end_iterator_to_index`: `(-ei - 2)` computed in `int`
(each step wrapped to 32 bits) and widened to `size_t`.
Documented precondition: `INT32_MIN < ei < -1`. -/
def end_iterator_to_index (ei : Int) : Nat :=
  to_size_t (to_int32 (to_int32 (-ei) - 2))

/-! ## Data model -/

/-- Source `iterator_cache::table_key`. -/
structure table_key where
  code : Nat := 0
  table : Nat := 0
  scope : Nat := 0
deriving DecidableEq, Repr

/-- Source `iterator_cache::row_key`. -/
structure row_key where
  table_index : Int := 0
  key : Nat := 0
deriving DecidableEq, Repr

/-- The decoded `state_history::contract_row` (declared outside `src/`); the cache reads
its `primary_key` and its payload `value`. -/
structure contract_row where
  code : Nat := 0
  scope : Nat := 0
  table : Nat := 0
  primary_key : Nat := 0
  payer : Nat := 0
  value : List Nat := []
deriving DecidableEq, Repr

/-- The `(code, table, scope)` part of the key under which a contract row is stored. -/
def contract_row.tkey (r : contract_row) : table_key := ⟨r.code, r.table, r.scope⟩

/-- Modelled from the spec: the ordered KV view (`chain_kv::view`, declared outside
`src/`), restricted to what the cache reads. `tabs` holds the table-descriptor keys
`(contract.tab, primary, code, table, scope)` that are present; `rows` holds the
`contract.row` entries, each stored under the key
`(contract.row, primary, code, table, scope, primary_key)` built from its own fields.
When two list entries have the same key the earlier one is the stored row. -/
structure view where
  tabs : List table_key := []
  rows : List contract_row := []
deriving DecidableEq, Repr

/-- Point lookup `view.get` of the table-descriptor key of `key`. -/
def view.has_table (v : view) (key : table_key) : Bool := decide (key ∈ v.tabs)

/-- First entry in key order, among the rows of table `tk`, whose primary key is at
least `key`. -/
def seek_rows : List contract_row → table_key → Nat → Option contract_row
  | [], _, _ => none
  | r :: rs, tk, key =>
    if r.tkey = tk ∧ key ≤ r.primary_key then
      match seek_rows rs tk key with
      | some b => if b.primary_key < r.primary_key then some b else some r
      | none => some r
    else seek_rows rs tk key

/-- Modelled from the spec: the range iterator `chain_kv::view::iterator` (declared
outside `src/`) over the rows of one table: `.lower_bound(key)`, `.increment()`,
`.is_end()`, `.current()`. `kv = none` is `is_end()`. -/
structure view_iterator where
  tkey : table_key := {}
  kv : Option contract_row := none
deriving DecidableEq, Repr

/-- The range seek `view::iterator::lower_bound`. -/
def view_iterator.lower_bound (vi : view_iterator) (v : view) (key : Nat) : view_iterator :=
  { vi with kv := seek_rows v.rows vi.tkey key }

/-- The step `view::iterator::operator++`: moves to the next key of the range. An
iterator that is already at the end moves to the first entry of the range. -/
def view_iterator.increment (vi : view_iterator) (v : view) : view_iterator :=
  match vi.kv with
  | some r => { vi with kv := seek_rows v.rows vi.tkey (r.primary_key + 1) }
  | none => { vi with kv := seek_rows v.rows vi.tkey 0 }

/-- Source `iterator_cache::iterator`. -/
structure iterator where
  table_index : Int := 0
  primary : Nat := 0
  value : List Nat := []
  next : Int := -1
  view_it : Option view_iterator := none
deriving DecidableEq, Repr

/-- Source `iterator_cache`: its data members. The reference member `view` is passed to
the member functions that read it. -/
structure iterator_cache where
  tables : List table_key := []
  table_to_index : List (table_key × Int) := []
  iterators : List iterator := []
  end_iterators : List iterator := []
  key_to_iterator_index : List (row_key × Int) := []
deriving DecidableEq, Repr

/-- The `std::runtime_error`s thrown by the cache, by message. -/
inductive cache_error where
  | tables_size_mismatch
  | too_many_open_tables
  | too_many_iterators
  | dereference_invalid_iterator
  | dereference_end_iterator
  | dereference_non_existing_iterator
  | increment_invalid_iterator
  | increment_non_existing_iterator
  | subscript_out_of_range
deriving DecidableEq, Repr

deriving instance DecidableEq for Except

/-- The lookup `std::map::find`. -/
def map_find {κ β : Type} [DecidableEq κ] : List (κ × β) → κ → Option β
  | [], _ => none
  | (k, x) :: m, key => if k = key then some x else map_find m key

/-- The subscript `std::map::operator[]` followed by assignment. -/
def map_assign {κ β : Type} [DecidableEq κ] : List (κ × β) → κ → β → List (κ × β)
  | [], key, x => [(key, x)]
  | (k, y) :: m, key, x => if k = key then (k, x) :: m else (k, y) :: map_assign m key x

/-- The subscript `std::vector::operator[]` with a signed index. -/
def vec_at {α : Type} (l : List α) (i : Int) : Option α :=
  if i < 0 then none else l[i.toNat]?

/-- Assignment through a reference to element `i` of a vector. -/
def vec_update {α : Type} (l : List α) (i : Int) (f : α → α) : List α :=
  match vec_at l i with
  | some x => l.set i.toNat (f x)
  | none => l

/-- The capacity of a default-constructed `std::vector` after `n` calls of
`emplace_back` and no other change of its size, with the growth policy of the standard
libraries the program is built with (libstdc++, libc++): a full vector doubles its
capacity, an empty one gets capacity 1. `emplace_back` on a vector of size `n`
reallocates exactly when `n = vector_capacity n`. -/
def vector_capacity : Nat → Nat
  | 0 => 0
  | n + 1 => if n = vector_capacity n then max 1 (2 * n) else vector_capacity n

/-! ## Member functions of `iterator_cache` -/

/-- Source `iterator_cache::get_table_index`. -/
def get_table_index (v : view) (c : iterator_cache) (key : table_key) :
    Except cache_error Int × iterator_cache :=
  match map_find c.table_to_index key with
  | some i => (.ok i, c)
  | none =>
    if !v.has_table key then (.ok (-1), c)
    else if c.tables.length ≠ c.table_to_index.length ∨
        c.tables.length ≠ c.end_iterators.length then
      (.error .tables_size_mismatch, c)
    else if (c.tables.length : Int) > INT32_MAX then (.error .too_many_open_tables, c)
    else
      let result : Int := c.tables.length
      (.ok result,
        { c with
          tables := c.tables ++ [key]
          table_to_index := map_assign c.table_to_index key result
          end_iterators := c.end_iterators ++ [{ table_index := result }] })

/-- The tail of `get_iterator`: `if (!it->view_it) it->view_it = std::move(view_it)`. -/
def keep_view_it (view_it : view_iterator) (it : iterator) : iterator :=
  match it.view_it with
  | some _ => it
  | none => { it with view_it := some view_it }

/-- Source `iterator_cache::get_iterator`. -/
def get_iterator (c : iterator_cache) (rk : row_key) (view_it : view_iterator) :
    Except cache_error Int × iterator_cache :=
  match view_it.kv with
  | none =>
    match vec_at c.end_iterators rk.table_index with
    | none => (.error .subscript_out_of_range, c)
    | some _ =>
      (.ok (index_to_end_iterator (to_size_t rk.table_index)),
        { c with end_iterators := vec_update c.end_iterators rk.table_index (keep_view_it view_it) })
  | some row =>
    match map_find c.key_to_iterator_index rk with
    | some i =>
      match vec_at c.iterators i with
      | none => (.error .subscript_out_of_range, c)
      | some _ => (.ok i, { c with iterators := vec_update c.iterators i (keep_view_it view_it) })
    | none =>
      if (c.iterators.length : Int) > INT32_MAX then (.error .too_many_iterators, c)
      else
        (.ok (c.iterators.length : Int),
          { c with
            iterators := c.iterators ++
              [{ table_index := rk.table_index, primary := row.primary_key,
                 value := row.value, next := -1, view_it := some view_it }] })

/-- Source `iterator_cache::db_get_i64`. The result is the cursor's cached value, the
bytes the source hands to `copy_to_wasm` for the caller's buffer. -/
def db_get_i64 (c : iterator_cache) (itr : Int) : Except cache_error (List Nat) × iterator_cache :=
  if itr = -1 then (.error .dereference_invalid_iterator, c)
  else if itr < 0 then (.error .dereference_end_iterator, c)
  else if itr ≥ (c.iterators.length : Int) then (.error .dereference_non_existing_iterator, c)
  else
    match vec_at c.iterators itr with
    | none => (.error .subscript_out_of_range, c)
    | some it => (.ok it.value, c)

/-- Source `iterator_cache::db_next_i64`. The middle component is the value stored
through the reference parameter `primary`, `none` when the call does not write it. The
reference `it` is bound to element `itr` before `get_iterator` is called. When
`get_iterator` registers a new cursor in a full vector, `emplace_back` reallocates
`iterators` and `it` dangles: the store `it.next = ...` does not reach the vector (the
link is not memoized), and `return it.next` gives the handle just stored. Otherwise the
store reaches element `itr`. -/
def db_next_i64 (v : view) (c : iterator_cache) (itr : Int) :
    Except cache_error Int × Option Nat × iterator_cache :=
  if itr = -1 then (.error .increment_invalid_iterator, none, c)
  else if itr < 0 then (.ok (-1), none, c)
  else if itr ≥ (c.iterators.length : Int) then (.error .increment_non_existing_iterator, none, c)
  else
    match vec_at c.iterators itr with
    | none => (.error .subscript_out_of_range, none, c)
    | some it =>
      if it.next ≥ 0 then
        match vec_at c.iterators it.next with
        | none => (.error .subscript_out_of_range, none, c)
        | some n => (.ok it.next, some n.primary, c)
      else if it.next < -1 then (.ok it.next, none, c)
      else
        let c1 : iterator_cache :=
          { c with iterators := vec_update c.iterators itr (fun x => { x with view_it := none }) }
        let opened : Option view_iterator :=
          match it.view_it with
          | some vi => some vi
          | none =>
            match vec_at c.tables it.table_index with
            | none => none
            | some table_key =>
              some ((view_iterator.mk table_key none).lower_bound v it.primary)
        match opened with
        | none => (.error .subscript_out_of_range, none, c1)
        | some vi =>
          let vi := vi.increment v
          match vi.kv with
          | none =>
            let nxt := index_to_end_iterator (to_size_t itr)
            (.ok nxt, none,
              { c1 with iterators := vec_update c1.iterators itr (fun x => { x with next := nxt }) })
          | some row =>
            let primary := row.primary_key
            match get_iterator c1 ⟨it.table_index, primary⟩ vi with
            | (.error e, c2) => (.error e, some primary, c2)
            | (.ok nxt, c2) =>
              if c1.iterators.length < c2.iterators.length ∧
                  c1.iterators.length = vector_capacity c1.iterators.length then
                (.ok nxt, some primary, c2)
              else
                (.ok nxt, some primary,
                  { c2 with
                    iterators := vec_update c2.iterators itr (fun x => { x with next := nxt }) })

/-- Source `iterator_cache::lower_bound`. -/
def lower_bound (v : view) (c : iterator_cache) (code scope table key : Nat) :
    Except cache_error Int × iterator_cache :=
  match get_table_index v c ⟨code, table, scope⟩ with
  | (.error e, c1) => (.error e, c1)
  | (.ok table_index, c1) =>
    if table_index < 0 then (.ok (-1), c1)
    else
      let rk : row_key := ⟨table_index, key⟩
      match map_find c1.key_to_iterator_index rk with
      | some i => (.ok i, c1)
      | none => get_iterator c1 rk ((view_iterator.mk ⟨code, table, scope⟩ none).lower_bound v key)

/-! ## Call sequences on a cache -/

/-- One call of the public interface of `iterator_cache`. -/
inductive cache_call where
  | lower_bound (code scope table key : Nat)
  | db_next_i64 (itr : Int)
  | db_get_i64 (itr : Int)
deriving DecidableEq, Repr

/-- The cache after one call, whether the call returned or threw. -/
def cache_call.run (v : view) (c : iterator_cache) : cache_call → iterator_cache
  | .lower_bound code scope table key =>
    (history_tools.lower_bound v c code scope table key).2
  | .db_next_i64 itr => (history_tools.db_next_i64 v c itr).2.2
  | .db_get_i64 itr => (history_tools.db_get_i64 c itr).2

/-- The cache after a sequence of calls over the unchanged view `v`. -/
def run_calls (v : view) (c : iterator_cache) (calls : List cache_call) : iterator_cache :=
  calls.foldl (cache_call.run v) c

/-- A cache state that a freshly constructed cache reaches by calls of its public
interface over the view `v`. -/
def reachable (v : view) (c : iterator_cache) : Prop :=
  ∃ calls : List cache_call, run_calls v {} calls = c

/-- The row stored in the view under the key `(tk, pk)`. -/
def view.row_at (v : view) (tk : table_key) (pk : Nat) : Option contract_row :=
  v.rows.find? (fun r => decide (r.tkey = tk ∧ r.primary_key = pk))

/-- The row `r` is the stored row of table `tk` with the smallest primary key that is
at least `key`. -/
def view.is_lower_bound (v : view) (tk : table_key) (key : Nat) (r : contract_row) : Prop :=
  v.row_at tk r.primary_key = some r ∧ key ≤ r.primary_key ∧
    ∀ r' ∈ v.rows, r'.tkey = tk → key ≤ r'.primary_key → r.primary_key ≤ r'.primary_key

/-- What holds of every cache state reached from a fresh cache: nothing is ever entered
into `key_to_iterator_index`, the three table registries have one size, every registered
table index is in range, and at most `INT32_MAX + 1` cursors are registered. -/
structure cache_inv (c : iterator_cache) : Prop where
  index_empty : c.key_to_iterator_index = []
  sizes_index : c.tables.length = c.table_to_index.length
  sizes_end : c.tables.length = c.end_iterators.length
  index_lt : ∀ k i, map_find c.table_to_index k = some i → 0 ≤ i ∧ i < (c.tables.length : Int)
  cursors_le : c.iterators.length ≤ 2147483648

/-- The cursor `it'` holds the table index, primary key and value of `it`, and the
memoized next link of `it` when `it` has one. -/
def iterator.kept (it it' : iterator) : Prop :=
  it'.table_index = it.table_index ∧ it'.primary = it.primary ∧ it'.value = it.value ∧
    (it.next ≠ -1 → it'.next = it.next)

/-- The cursor `it'` differs from `it` at most in its borrowed view iterator. -/
def iterator.same_row (it it' : iterator) : Prop :=
  it'.table_index = it.table_index ∧ it'.primary = it.primary ∧ it'.value = it.value ∧
    it'.next = it.next

/-- Every cursor of the vector `l` is in `l'` under the same handle, related by `R`. -/
def cursors_rel (R : iterator → iterator → Prop) (l l' : List iterator) : Prop :=
  ∀ i it, vec_at l i = some it → ∃ it', vec_at l' i = some it' ∧ R it it'

/-- Every cursor registered in `c` is registered in `c'` under the same handle and is
kept there. -/
def cursors_kept (c c' : iterator_cache) : Prop :=
  cursors_rel iterator.kept c.iterators c'.iterators

/-- Cursor `h` of `c` has the memoized next link `h'`, and `w` is what a call returning
through that link stores in `primary`. -/
def memoized (c : iterator_cache) (h h' : Int) (w : Option Nat) : Prop :=
  ∃ it, vec_at c.iterators h = some it ∧ it.next = h' ∧ h' ≠ -1 ∧
    (0 ≤ h' → ∃ n, vec_at c.iterators h' = some n ∧ w = some n.primary) ∧
    (h' < 0 → w = none)

/-! ## Example stores -/

/-- A store with one table `(code 1, table 2, scope 0)` holding the rows 5 and 7. -/
def two_row_view : view :=
  { tabs := [⟨1, 2, 0⟩]
    rows := [{ code := 1, table := 2, scope := 0, primary_key := 5, value := [97] },
             { code := 1, table := 2, scope := 0, primary_key := 7, value := [98] }] }

/-- A store with one table `(code 1, table 2, scope 0)` holding the single row 5. -/
def one_row_view : view :=
  { tabs := [⟨1, 2, 0⟩]
    rows := [{ code := 1, table := 2, scope := 0, primary_key := 5, value := [97] }] }

/-- The cursor that `lower_bound(1, 0, 2, 0)` registers over `one_row_view`. -/
def one_row_cursor : iterator :=
  { table_index := 0, primary := 5, value := [97], next := -1,
    view_it := some { tkey := ⟨1, 2, 0⟩,
                      kv := some { code := 1, table := 2, scope := 0, primary_key := 5,
                                   value := [97] } } }

/-- The cache over `one_row_view` after `n` calls `lower_bound(1, 0, 2, 0)`, for `n ≥ 1`. -/
def crowded_cache (n : Nat) : iterator_cache :=
  { tables := [⟨1, 2, 0⟩]
    table_to_index := [(⟨1, 2, 0⟩, 0)]
    iterators := List.replicate n one_row_cursor
    end_iterators := [{ table_index := 0 }]
    key_to_iterator_index := [] }

/-! ## Invariants of the registries -/

/-- The table registry of `c` is consistent: `tables`, `table_to_index` and
`end_iterators` have one size, `table_to_index[tables[i]] = i`, every key of
`table_to_index` is the element of `tables` at its index, and
`end_iterators[i].table_index = i`. -/
structure table_registry_inv (c : iterator_cache) : Prop where
  sizes_index : c.tables.length = c.table_to_index.length
  sizes_end : c.tables.length = c.end_iterators.length
  index_of_table : ∀ i tk, vec_at c.tables i = some tk → map_find c.table_to_index tk = some i
  table_of_index : ∀ tk i, map_find c.table_to_index tk = some i → vec_at c.tables i = some tk
  end_index : ∀ i e, vec_at c.end_iterators i = some e → e.table_index = i

/-- The cursor that `lower_bound(1, 0, 2, 0)` registers over `two_row_view`. -/
def two_row_cursor : iterator :=
  { table_index := 0, primary := 5, value := [97], next := -1,
    view_it := some { tkey := ⟨1, 2, 0⟩,
                      kv := some { code := 1, table := 2, scope := 0, primary_key := 5,
                                   value := [97] } } }

/-- Every table registered in `c` is registered in `c'` under the same index, with its
End sentinel. -/
def registry_kept (c c' : iterator_cache) : Prop :=
  (∀ i tk, vec_at c.tables i = some tk → vec_at c'.tables i = some tk) ∧
  (∀ tk i, map_find c.table_to_index tk = some i → map_find c'.table_to_index tk = some i) ∧
  (∀ i e, vec_at c.end_iterators i = some e →
    ∃ e', vec_at c'.end_iterators i = some e' ∧ e'.table_index = e.table_index)

end history_tools

/-! ## The ingestion session: collaborators -/

namespace state_history

/-- The type `block_position` of the state-history protocol; `block_id` 0 is the
all-zero `checksum256{}`. -/
structure block_position where
  block_num : Nat := 0
  block_id : Nat := 0
deriving DecidableEq, Repr

/-- The record `fill_status_v0`. -/
structure fill_status_v0 where
  chain_id : Nat := 0
  head : Nat := 0
  head_id : Nat := 0
  irreversible : Nat := 0
  irreversible_id : Nat := 0
  first : Nat := 0
deriving DecidableEq, Repr

/-- The decoded `signed_block`, as far as `receive_block` copies it. -/
structure signed_block where
  timestamp : Nat := 0
  producer : Nat := 0
  confirmed : Nat := 0
  previous : Nat := 0
  transaction_mroot : Nat := 0
  action_mroot : Nat := 0
  schedule_version : Nat := 0
  new_producers : Option (List Nat) := none
  producer_signature : Nat := 0
deriving DecidableEq, Repr

/-- The record `block_info_v0`. -/
structure block_info_v0 where
  num : Nat := 0
  id : Nat := 0
  timestamp : Nat := 0
  producer : Nat := 0
  confirmed : Nat := 0
  previous : Nat := 0
  transaction_mroot : Nat := 0
  action_mroot : Nat := 0
  schedule_version : Nat := 0
  new_producers : Option (List Nat) := none
  producer_signature : Nat := 0
deriving DecidableEq, Repr

/-- One row of a decoded table delta: the key it is stored under and its bytes. -/
structure delta_row where
  present : Bool := true
  key : List Nat := []
  data : List Nat := []
deriving DecidableEq, Repr

/-- The decoded `table_delta_v0`. -/
structure table_delta_v0 where
  name : Nat := 0
  rows : List delta_row := []
deriving DecidableEq, Repr

/-- The message `get_blocks_result_v0`, its `block` and `deltas` already decoded. -/
structure get_blocks_result_v0 where
  head : block_position := {}
  last_irreversible : block_position := {}
  this_block : Option block_position := none
  prev_block : Option block_position := none
  block : Option signed_block := none
  deltas : Option (List table_delta_v0) := none
deriving DecidableEq, Repr

end state_history

namespace chain_kv

open state_history

/-- Modelled from the spec: the contents of the ordered KV engine that the session
reads and writes (the engine itself is declared outside `src/`): the single persisted
Fill-Status record, the `block.info` rows by block number and the table rows by
`(table name, key)`. In the two lists the earlier entry of a key is the stored one. -/
structure kv_state where
  fill_status : Option fill_status_v0 := none
  block_info : List (Nat × block_info_v0) := []
  rows : List ((Nat × List Nat) × List Nat) := []
deriving DecidableEq, Repr

/-- Modelled from the spec: one batched keyed mutation of a write session (`put`,
`insert` or erase of one key). -/
inductive kv_change where
  | put_fill_status (status : fill_status_v0)
  | put_block_info (info : block_info_v0)
  | put_row (name : Nat) (key : List Nat) (data : List Nat)
  | erase_row (name : Nat) (key : List Nat)
deriving DecidableEq, Repr

/-- The store after one keyed mutation. -/
def kv_state.apply (st : kv_state) : kv_change → kv_state
  | .put_fill_status status => { st with fill_status := some status }
  | .put_block_info info =>
    { st with block_info := (info.num, info) :: st.block_info.filter (fun e => e.1 ≠ info.num) }
  | .put_row name key data =>
    { st with rows := ((name, key), data) :: st.rows.filter (fun e => e.1 ≠ (name, key)) }
  | .erase_row name key => { st with rows := st.rows.filter (fun e => e.1 ≠ (name, key)) }

/-- The `block.info` row stored under block number `i`. -/
def kv_state.block_info_at (st : kv_state) (i : Nat) : Option block_info_v0 :=
  match st.block_info.find? (fun e => decide (e.1 = i)) with
  | some e => some e.2
  | none => none

/-- Modelled from the spec: the write session (`chain_kv::write_session`, declared
outside `src/`), which batches mutations (oldest first) until they are discarded by
`wipe_cache()` or committed by `write_changes(undo_stack)`. -/
structure write_session where
  cache : List kv_change := []
deriving DecidableEq, Repr

/-- What a view over the store and the write session reads: the store with the batched
mutations applied. -/
def write_session.view (ws : write_session) (db : kv_state) : kv_state :=
  ws.cache.foldl kv_state.apply db

/-- Modelled from the spec: the undo/revision stack (`chain_kv::undo_stack`, declared
outside `src/`): a stack of revisions over the KV engine with `push`, `commit(upto)`,
`undo()`, `set_revision`, `first_revision()` and `revision()`. A frame records the store
as it stood when the frame was opened, most recent frame first;
`first_revision ≤ revision` always. -/
structure undo_stack where
  revision : Int := 0
  frames : List kv_state := []
deriving DecidableEq, Repr

/-- The accessor `undo_stack::first_revision()`. -/
def undo_stack.first_revision (u : undo_stack) : Int := u.revision - u.frames.length

/-- The call `undo_stack::push`: opens a new revision on top of the store `db`. The
source calls it as `push(false)`: no revision or block number is passed, the new
revision is the one after the current revision. -/
def undo_stack.push (u : undo_stack) (db : kv_state) : undo_stack :=
  { revision := u.revision + 1, frames := db :: u.frames }

/-- The call `undo_stack::commit(upto)`: the revisions up to `upto` become
irreversible, their frames are dropped. -/
def undo_stack.commit (u : undo_stack) (upto : Int) : undo_stack :=
  { u with frames := u.frames.take (u.revision - min upto u.revision).toNat }

/-- The call `undo_stack::set_revision(n, false)`: pins the revision, opens no frame. -/
def undo_stack.set_revision (u : undo_stack) (n : Int) : undo_stack :=
  { u with revision := n }

/-- The call `undo_stack::undo()`: reverts the top revision, giving back the store as
it stood when that revision was opened; `none` when there is no revision to revert. -/
def undo_stack.undo (u : undo_stack) : Option (kv_state × undo_stack) :=
  match u.frames with
  | [] => none
  | db :: frames => some (db, { revision := u.revision - 1, frames := frames })

end chain_kv

/-! ## The ingestion session: `fill_rdb_session` -/

open state_history chain_kv

/-- Source `fill_rocksdb_config`, without the inherited connection settings. -/
structure fill_rocksdb_config where
  skip_to : Nat := 0
  stop_before : Nat := 0
deriving DecidableEq, Repr

/-- What a session does to its collaborators, in the order it does it. -/
inductive session_event where
  | wipe_cache
  | undo
  | write_fill_status
  | write_changes
  | flush
  | commit (upto : Int)
  | set_revision (n : Int)
  | push
deriving DecidableEq, Repr

/-- The `std::runtime_error`s thrown by `received(get_blocks_result_v0&)` and by
`get_positions`, by message. -/
inductive session_error where
  | missing_block (num : Nat)
  | cannot_switch_forks (num : Nat)
  | prev_block_does_not_match
  | nothing_to_undo
  | missing_block_info (num : Nat)
deriving DecidableEq, Repr

/-- Source `fill_rdb_session`: its data members, except the connection and the plugin
pointer. `db` is the content of the shared database; `events` records the calls made on
the collaborators, oldest first. -/
structure fill_rdb_session where
  config : fill_rocksdb_config := {}
  db : kv_state := {}
  undo_stack : undo_stack := {}
  write_session : write_session := {}
  chain_id : Nat := 0
  head : Nat := 0
  head_id : Nat := 0
  irreversible : Nat := 0
  irreversible_id : Nat := 0
  first : Nat := 0
  reported_block : Bool := false
  events : List session_event := []
deriving DecidableEq, Repr

namespace fill_rdb_session

/-- The call `write_session.wipe_cache()`. -/
def wipe_cache (s : fill_rdb_session) : fill_rdb_session :=
  { s with write_session := { cache := [] }, events := s.events ++ [.wipe_cache] }

/-- The call `write_session.write_changes(undo_stack)`: the batched mutations reach the
store, under the revision that is open, and the batch is emptied. -/
def write_changes (s : fill_rdb_session) : fill_rdb_session :=
  { s with
    db := s.write_session.view s.db
    write_session := { cache := [] }
    events := s.events ++ [.write_changes] }

/-- The call `db->flush(...)`: the durable flush of the store. -/
def flush (s : fill_rdb_session) : fill_rdb_session :=
  { s with events := s.events ++ [.flush] }

/-- Source `fill_rdb_session::load_fill_status`. -/
def load_fill_status (s : fill_rdb_session) : fill_rdb_session :=
  let s := s.wipe_cache
  match (s.write_session.view s.db).fill_status with
  | some status =>
    { s with
      chain_id := status.chain_id
      head := status.head
      head_id := status.head_id
      irreversible := status.irreversible
      irreversible_id := status.irreversible_id
      first := status.first }
  | none => s

/-- Source `fill_rdb_session::write_fill_status`. -/
def write_fill_status (s : fill_rdb_session) : fill_rdb_session :=
  let status : fill_status_v0 :=
    if s.irreversible < s.head then
      { chain_id := s.chain_id, head := s.head, head_id := s.head_id,
        irreversible := s.irreversible, irreversible_id := s.irreversible_id, first := s.first }
    else
      { chain_id := s.chain_id, head := s.head, head_id := s.head_id,
        irreversible := s.head, irreversible_id := s.head_id, first := s.first }
  { s with
    write_session := { cache := s.write_session.cache ++ [.put_fill_status status] }
    events := s.events ++ [.write_fill_status] }

/-- Source `fill_rdb_session::end_write`. -/
def end_write (s : fill_rdb_session) (write_fill : Bool) : fill_rdb_session :=
  let s := if write_fill then s.write_fill_status else s
  s.write_changes

/-- Source `fill_rdb_session::receive_block`. -/
def receive_block (s : fill_rdb_session) (block_num block_id : Nat) (block : signed_block) :
    fill_rdb_session :=
  let info : block_info_v0 :=
    { num := block_num, id := block_id, timestamp := block.timestamp,
      producer := block.producer, confirmed := block.confirmed, previous := block.previous,
      transaction_mroot := block.transaction_mroot, action_mroot := block.action_mroot,
      schedule_version := block.schedule_version, new_producers := block.new_producers,
      producer_signature := block.producer_signature }
  { s with write_session := { cache := s.write_session.cache ++ [.put_block_info info] } }

/-- The rows of one delta in `receive_deltas`: `store_delta` (declared outside `src/`)
upserts or erases each row and calls the progress callback before it; the callback
runs `end_write(false)` every 10000 rows of a delta of more than 10000 rows while
`head == 0`. -/
def store_delta (s : fill_rdb_session) (name : Nat) (total : Nat) :
    List delta_row → Nat → fill_rdb_session
  | [], _ => s
  | row :: rows, num_processed =>
    let s1 := if total > 10000 ∧ num_processed % 10000 = 0 ∧ s.head = 0 then s.end_write false else s
    let change : kv_change :=
      if row.present then .put_row name row.key row.data else .erase_row name row.key
    store_delta { s1 with write_session := { cache := s1.write_session.cache ++ [change] } }
      name total rows (num_processed + 1)

/-- Source `fill_rdb_session::receive_deltas`. -/
def receive_deltas (s : fill_rdb_session) : List table_delta_v0 → fill_rdb_session
  | [] => s
  | delta :: deltas =>
    receive_deltas (store_delta s delta.name delta.rows.length delta.rows 0) deltas

/-- The loop `while (undo_stack.revision() >= block_num) undo_stack.undo(true);` of
`received`. Every round lowers the revision by one, so `fuel` rounds suffice when
`fuel > revision - block_num`. -/
def undo_loop (s : fill_rdb_session) (block_num : Nat) :
    Nat → Except session_error Unit × fill_rdb_session
  | 0 => (.ok (), s)
  | fuel + 1 =>
    if s.undo_stack.revision ≥ (block_num : Int) then
      match s.undo_stack.undo with
      | none => (.error .nothing_to_undo, s)
      | some (db, u) =>
        undo_loop { s with db := db, undo_stack := u, events := s.events ++ [.undo] } block_num fuel
    else (.ok (), s)

/-- The fork-switch block of `received`, entered when `block_num <= head`. -/
def switch_forks (s : fill_rdb_session) (block_num : Nat) :
    Except session_error Unit × fill_rdb_session :=
  if s.undo_stack.first_revision ≥ (block_num : Int) then
    (.error (.cannot_switch_forks ((block_num + 4294967295) % 4294967296)), s)
  else
    let s1 := s.wipe_cache
    match undo_loop s1 block_num (s1.undo_stack.revision - block_num + 1).toNat with
    | (.error e, s2) => (.error e, s2)
    | (.ok _, s2) => (.ok (), { s2.load_fill_status with reported_block := false })

/-- The revision bookkeeping of `received`. -/
def bookkeeping (s : fill_rdb_session) (result : get_blocks_result_v0)
    (this_block : block_position) : fill_rdb_session :=
  let upto : Int := (min result.last_irreversible.block_num s.head : Nat)
  if this_block.block_num ≤ result.last_irreversible.block_num then
    { s with
      undo_stack := (s.undo_stack.commit upto).set_revision this_block.block_num
      events := s.events ++ [.commit upto, .set_revision this_block.block_num] }
  else
    let s1 := s.end_write false
    { s1 with
      undo_stack := (s1.undo_stack.commit upto).push s1.db
      events := s1.events ++ [.commit upto, .push] }

/-- Source `fill_rdb_session::received(get_blocks_result_v0&, ...)`. All block numbers
are `uint32_t`; `head + 1` and `block_num + 4` wrap. -/
def received (s : fill_rdb_session) (result : get_blocks_result_v0) :
    Except session_error Bool × fill_rdb_session :=
  match result.this_block with
  | none => (.ok true, s)
  | some this_block =>
    if s.config.stop_before ≠ 0 ∧ this_block.block_num ≥ s.config.stop_before then
      (.ok false, (s.end_write true).flush)
    else if s.head ≠ 0 ∧ this_block.block_num > (s.head + 1) % 4294967296 then
      (.error (.missing_block ((s.head + 1) % 4294967296)), s)
    else
      let switched : Except session_error Unit × fill_rdb_session :=
        if this_block.block_num ≤ s.head then switch_forks s this_block.block_num
        else (.ok (), s)
      match switched with
      | (.error e, s1) => (.error e, s1)
      | (.ok _, s1) =>
        let near : Bool :=
          decide ((this_block.block_num + 4) % 4294967296 ≥ result.last_irreversible.block_num)
        let write_now : Bool := decide (this_block.block_num % 200 = 0) || near
        let s2 : fill_rdb_session := { s1 with reported_block := true }
        let mismatch : Bool :=
          match result.prev_block with
          | none => true
          | some prev_block => decide (prev_block.block_id ≠ s2.head_id)
        if s2.head_id ≠ 0 ∧ mismatch then
          (.error .prev_block_does_not_match, s2)
        else
          let s3 := bookkeeping s2 result this_block
          let s4 :=
            match result.block with
            | some block => s3.receive_block this_block.block_num this_block.block_id block
            | none => s3
          let s5 :=
            match result.deltas with
            | some deltas => s4.receive_deltas deltas
            | none => s4
          let s6 :=
            { s5 with
              head := this_block.block_num
              head_id := this_block.block_id
              irreversible := result.last_irreversible.block_num
              irreversible_id := result.last_irreversible.block_id }
          let s7 := if s6.first = 0 ∨ s6.head < s6.first then { s6 with first := s6.head } else s6
          let s8 := if write_now then s7.end_write write_now else s7
          let s9 := if near then s8.flush else s8
          (.ok true, s9)

/-- What the session reads from the store: the committed content with the batched
mutations of the write session applied. -/
def store (s : fill_rdb_session) : kv_state := s.write_session.view s.db

/-- Source `fill_rdb_session::connect`, up to the creation of the connection. -/
def connect (s : fill_rdb_session) : fill_rdb_session :=
  ((s.load_fill_status).end_write true).flush

/-- The loop `for (uint32_t i = irreversible; i <= head; ++i)` of `get_positions`, with
`i` wrapping at 2^32; `none` when `fuel` rounds do not end it. -/
def get_positions_loop (st : kv_state) (head : Nat) :
    Nat → Nat → List block_position → Option (Except session_error (List block_position))
  | 0, _, _ => none
  | fuel + 1, i, result =>
    if i ≤ head then
      match st.block_info_at i with
      | none => some (.error (.missing_block_info i))
      | some info0 =>
        get_positions_loop st head fuel ((i + 1) % 4294967296)
          (result ++ [{ block_num := info0.num, block_id := info0.id }])
    else some (.ok result)

/-- Source `fill_rdb_session::get_positions`; `none` when the loop does not end within
`fuel` rounds. -/
def get_positions (s : fill_rdb_session) (fuel : Nat) :
    Option (Except session_error (List block_position)) :=
  if s.head ≠ 0 then get_positions_loop s.store s.head fuel s.irreversible []
  else some (.ok [])

/-- The part of `received` after the continuity check: revision bookkeeping, the block
header and the deltas, the new head, the checkpoint and the flush. -/
def finish_block (s2 : fill_rdb_session) (result : get_blocks_result_v0)
    (this_block : block_position) : fill_rdb_session :=
  let near : Bool :=
    decide ((this_block.block_num + 4) % 4294967296 ≥ result.last_irreversible.block_num)
  let write_now : Bool := decide (this_block.block_num % 200 = 0) || near
  let s3 := bookkeeping s2 result this_block
  let s4 :=
    match result.block with
    | some block => s3.receive_block this_block.block_num this_block.block_id block
    | none => s3
  let s5 :=
    match result.deltas with
    | some deltas => s4.receive_deltas deltas
    | none => s4
  let s6 :=
    { s5 with
      head := this_block.block_num
      head_id := this_block.block_id
      irreversible := result.last_irreversible.block_num
      irreversible_id := result.last_irreversible.block_id }
  let s7 := if s6.first = 0 ∨ s6.head < s6.first then { s6 with first := s6.head } else s6
  let s8 := if write_now then s7.end_write write_now else s7
  if near then s8.flush else s8

/-- The part of `finish_block` before the checkpoint: the session once the block is
applied and the new head is set. -/
def block_applied (s2 : fill_rdb_session) (result : get_blocks_result_v0)
    (this_block : block_position) : fill_rdb_session :=
  let s3 := bookkeeping s2 result this_block
  let s4 :=
    match result.block with
    | some block => s3.receive_block this_block.block_num this_block.block_id block
    | none => s3
  let s5 :=
    match result.deltas with
    | some deltas => s4.receive_deltas deltas
    | none => s4
  let s6 :=
    { s5 with
      head := this_block.block_num
      head_id := this_block.block_id
      irreversible := result.last_irreversible.block_num
      irreversible_id := result.last_irreversible.block_id }
  if s6.first = 0 ∨ s6.head < s6.first then { s6 with first := s6.head } else s6

/-- The session `s'` has the events of `s` followed by events that are no flush. -/
def adds_no_flush (s s' : fill_rdb_session) : Prop :=
  ∃ ev, s'.events = s.events ++ ev ∧ session_event.flush ∉ ev

/-- The store and every frame of the undo stack hold a Fill-Status record. -/
def has_status (s : fill_rdb_session) : Prop :=
  s.db.fill_status ≠ none ∧ ∀ f ∈ s.undo_stack.frames, f.fill_status ≠ none

/-- The session after the block-results `rs`, received in this order, whatever
`received` returns for them. -/
def receive_all (s : fill_rdb_session) (rs : List get_blocks_result_v0) : fill_rdb_session :=
  rs.foldl (fun s r => (received s r).2) s

/-- The session after the block-results `rs`, received in this order, when every one of
them is applied (`received` returns `true`); `none` when one of them throws or stops
the session. -/
def apply_blocks (s : fill_rdb_session) : List get_blocks_result_v0 → Option fill_rdb_session
  | [] => some s
  | r :: rs =>
    match received s r with
    | (.ok true, s1) => apply_blocks s1 rs
    | _ => none

/-- The block-results `rs` carry the block numbers `first`, `first + 1`, ... in order. -/
def numbered_from : Nat → List get_blocks_result_v0 → Prop
  | _, [] => True
  | first, r :: rs =>
    (∃ tb, r.this_block = some tb ∧ tb.block_num = first) ∧ numbered_from (first + 1) rs

/-- The events that the handling of `result` in state `s` adds to the session. -/
def handling_events (s : fill_rdb_session) (result : get_blocks_result_v0) :
    List session_event :=
  (received s result).2.events.drop s.events.length

/-- The block-result for block `num` with id `id` on top of the block with id `prev`,
above the last irreversible block 0, carrying an empty block. -/
def reversible_block (num id prev : Nat) : get_blocks_result_v0 :=
  { this_block := some ⟨num, id⟩, prev_block := some ⟨num - 1, prev⟩, block := some {} }

/-- The session that applied the blocks 1, 2 and 3, each above the last irreversible
block, from an empty store. -/
def three_block_session : fill_rdb_session :=
  (received (received (received (connect {}) (reversible_block 1 11 0)).2
    (reversible_block 2 12 11)).2 (reversible_block 3 13 12)).2

end fill_rdb_session

/-! # Theorems -/

namespace history_tools

/-! ## Vectors, maps and the handle encoding -/

theorem vec_at_eq_some {α : Type} {l : List α} {i : Int} {x : α} :
    vec_at l i = some x ↔ 0 ≤ i ∧ l[i.toNat]? = some x := by
  unfold vec_at
  split_ifs with h
  · simp; omega
  · simp; intro _; omega

theorem vec_at_lt {α : Type} {l : List α} {i : Int} {x : α} (h : vec_at l i = some x) :
    0 ≤ i ∧ i < (l.length : Int) := by
  rw [vec_at_eq_some] at h
  obtain ⟨h0, h1⟩ := h
  have := (List.getElem?_eq_some_iff.mp h1).1
  omega

theorem vec_at_of_lt {α : Type} {l : List α} {i : Int} (h0 : 0 ≤ i) (h1 : i < (l.length : Int)) :
    ∃ x, vec_at l i = some x := by
  have h2 : i.toNat < l.length := by omega
  exact ⟨l[i.toNat], vec_at_eq_some.mpr ⟨h0, List.getElem?_eq_getElem h2⟩⟩

theorem db_get_i64_split (c : iterator_cache) (h : Int) :
    ((db_get_i64 c h).1 = .error .dereference_invalid_iterator ↔ h = -1) ∧
    ((db_get_i64 c h).1 = .error .dereference_end_iterator ↔ h < -1) ∧
    ((db_get_i64 c h).1 = .error .dereference_non_existing_iterator ↔
      (c.iterators.length : Int) ≤ h) ∧
    (0 ≤ h ∧ h < (c.iterators.length : Int) →
      ∃ it, c.iterators[h.toNat]? = some it ∧ (db_get_i64 c h).1 = .ok it.value) ∧
    (db_get_i64 c h).2 = c := by
  unfold db_get_i64
  by_cases h1 : h = -1
  · subst h1; simp; omega
  by_cases h2 : h < 0
  · simp [h1, h2]; omega
  by_cases h3 : h ≥ (c.iterators.length : Int)
  · simp [h1, h2, h3]; omega
  · obtain ⟨x, hx⟩ := vec_at_of_lt (l := c.iterators) (i := h) (by omega) (by omega)
    have hx' := (vec_at_eq_some.mp hx).2
    simp [h1, h2, h3, hx, hx']
    omega

theorem end_handle_round_trip (i : Nat) (hi : i + 2 < 2147483648) :
    index_to_end_iterator i = -(i : Int) - 2 ∧
    INT32_MIN < index_to_end_iterator i ∧ index_to_end_iterator i < -1 ∧
    end_iterator_to_index (index_to_end_iterator i) = i := by
  have h1 : index_to_end_iterator i = -(i : Int) - 2 := by
    unfold index_to_end_iterator to_int32; omega
  rw [h1]
  refine ⟨rfl, ?_, ?_, ?_⟩
  · unfold INT32_MIN; omega
  · omega
  · unfold end_iterator_to_index to_int32 to_size_t; omega

theorem end_index_round_trip (h : Int) (h1 : INT32_MIN < h) (h2 : h < -1) :
    index_to_end_iterator (end_iterator_to_index h) = h := by
  unfold INT32_MIN at h1
  unfold index_to_end_iterator end_iterator_to_index to_int32 to_size_t; omega

theorem vec_update_length {α : Type} (l : List α) (i : Int) (f : α → α) :
    (vec_update l i f).length = l.length := by
  unfold vec_update
  split <;> simp

theorem vec_at_vec_update_same {α : Type} {l : List α} {i : Int} {x : α} (f : α → α)
    (h : vec_at l i = some x) : vec_at (vec_update l i f) i = some (f x) := by
  have hb := vec_at_lt h
  obtain ⟨h0, h1⟩ := vec_at_eq_some.mp h
  rw [vec_at_eq_some]
  refine ⟨h0, ?_⟩
  unfold vec_update
  rw [h]
  simp only []
  rw [List.getElem?_set_self]
  omega

theorem vec_at_vec_update_ne {α : Type} (l : List α) {i j : Int} (f : α → α) (hij : i ≠ j) :
    vec_at (vec_update l i f) j = vec_at l j := by
  unfold vec_update
  cases h : vec_at l i with
  | none => rfl
  | some x =>
    have h0 := (vec_at_lt h).1
    simp only []
    unfold vec_at
    split_ifs with hj
    · rfl
    · rw [List.getElem?_set_ne]
      omega

theorem vec_at_append_left {α : Type} {l : List α} (l' : List α) {i : Int} {x : α}
    (h : vec_at l i = some x) : vec_at (l ++ l') i = some x := by
  obtain ⟨h0, h1⟩ := vec_at_eq_some.mp h
  have h2 := (vec_at_lt h).2
  rw [vec_at_eq_some]
  refine ⟨h0, ?_⟩
  rw [List.getElem?_append_left (by omega)]
  exact h1

theorem vec_at_append_length {α : Type} (l : List α) (x : α) :
    vec_at (l ++ [x]) (l.length : Int) = some x := by
  rw [vec_at_eq_some]
  refine ⟨by omega, ?_⟩
  simp

theorem map_find_map_assign_same {κ β : Type} [DecidableEq κ] (m : List (κ × β)) (k : κ) (x : β) :
    map_find (map_assign m k x) k = some x := by
  induction m with
  | nil => simp [map_assign, map_find]
  | cons e m ih =>
    obtain ⟨k', y⟩ := e
    by_cases hk : k' = k
    · simp [map_assign, map_find, hk]
    · simp [map_assign, map_find, hk, ih]

theorem map_find_map_assign_ne {κ β : Type} [DecidableEq κ] (m : List (κ × β)) {k k' : κ} (x : β)
    (hk : k ≠ k') : map_find (map_assign m k x) k' = map_find m k' := by
  induction m with
  | nil => simp [map_assign, map_find, hk]
  | cons e m ih =>
    obtain ⟨k0, y⟩ := e
    by_cases hk0 : k0 = k
    · subst hk0; simp [map_assign, map_find, hk]
    · simp [map_assign, map_find, hk0, ih]

theorem map_assign_length {κ β : Type} [DecidableEq κ] (m : List (κ × β)) (k : κ) (x : β)
    (h : map_find m k = none) : (map_assign m k x).length = m.length + 1 := by
  induction m with
  | nil => simp [map_assign]
  | cons e m ih =>
    obtain ⟨k0, y⟩ := e
    by_cases hk0 : k0 = k
    · simp [map_find, hk0] at h
    · simp [map_find, hk0] at h
      simp [map_assign, hk0, ih h]

/-! ## The range seek -/

theorem seek_rows_none {rows : List contract_row} {tk : table_key} {key : Nat} :
    seek_rows rows tk key = none ↔ ∀ r' ∈ rows, r'.tkey = tk → r'.primary_key < key := by
  induction rows with
  | nil => simp [seek_rows]
  | cons r0 rs ih =>
    unfold seek_rows
    by_cases h0 : r0.tkey = tk ∧ key ≤ r0.primary_key
    · rw [if_pos h0]
      constructor
      · intro h
        cases hs : seek_rows rs tk key with
        | none => rw [hs] at h; simp at h
        | some b => rw [hs] at h; simp only [] at h; split_ifs at h
      · intro h
        have := h r0 (List.mem_cons_self _ _) h0.1
        omega
    · rw [if_neg h0, ih]
      constructor
      · intro h r' hr'
        rcases List.mem_cons.mp hr' with rfl | hm
        · intro ht
          by_contra hlt
          exact h0 ⟨ht, by omega⟩
        · exact h r' hm
      · intro h r' hr'
        exact h r' (List.mem_cons_of_mem _ hr')

theorem seek_rows_some {rows : List contract_row} {tk : table_key} {key : Nat} {r : contract_row}
    (h : seek_rows rows tk key = some r) :
    r.tkey = tk ∧ key ≤ r.primary_key ∧
    (∀ r' ∈ rows, r'.tkey = tk → key ≤ r'.primary_key → r.primary_key ≤ r'.primary_key) ∧
    rows.find? (fun x => decide (x.tkey = tk ∧ x.primary_key = r.primary_key)) = some r := by
  induction rows generalizing r with
  | nil => simp [seek_rows] at h
  | cons r0 rs ih =>
    unfold seek_rows at h
    by_cases h0 : r0.tkey = tk ∧ key ≤ r0.primary_key
    · rw [if_pos h0] at h
      cases hs : seek_rows rs tk key with
      | none =>
        rw [hs] at h
        simp only [Option.some.injEq] at h
        subst h
        have hn := seek_rows_none.mp hs
        refine ⟨h0.1, h0.2, ?_, ?_⟩
        · intro r' hr' ht hk
          rcases List.mem_cons.mp hr' with rfl | hm
          · exact le_refl _
          · have := hn r' hm ht
            omega
        · simp [List.find?, h0.1]
      | some b =>
        rw [hs] at h
        obtain ⟨hb1, hb2, hb3, hb4⟩ := ih hs
        simp only [] at h
        by_cases hlt : b.primary_key < r0.primary_key
        · rw [if_pos hlt] at h
          simp only [Option.some.injEq] at h
          subst h
          refine ⟨hb1, hb2, ?_, ?_⟩
          · intro r' hr' ht hk
            rcases List.mem_cons.mp hr' with rfl | hm
            · omega
            · exact hb3 r' hm ht hk
          · have hne : ¬ (r0.tkey = tk ∧ r0.primary_key = b.primary_key) := by
              intro hc; omega
            simp only [List.find?, hne, decide_False]
            exact hb4
        · rw [if_neg hlt] at h
          simp only [Option.some.injEq] at h
          subst h
          refine ⟨h0.1, h0.2, ?_, ?_⟩
          · intro r' hr' ht hk
            rcases List.mem_cons.mp hr' with rfl | hm
            · exact le_refl _
            · have := hb3 r' hm ht hk
              omega
          · simp [List.find?, h0.1]
    · rw [if_neg h0] at h
      obtain ⟨h1, h2, h3, h4⟩ := ih h
      refine ⟨h1, h2, ?_, ?_⟩
      · intro r' hr' ht hk
        rcases List.mem_cons.mp hr' with rfl | hm
        · exact absurd ⟨ht, hk⟩ h0
        · exact h3 r' hm ht hk
      · have hne : ¬ (r0.tkey = tk ∧ r0.primary_key = r.primary_key) := by
          intro hc
          exact h0 ⟨hc.1, by omega⟩
        simp only [List.find?, hne, decide_False]
        exact h4

theorem seek_rows_is_lower_bound {v : view} {tk : table_key} {key : Nat} {r : contract_row}
    (h : seek_rows v.rows tk key = some r) : v.is_lower_bound tk key r := by
  obtain ⟨_, h2, h3, h4⟩ := seek_rows_some h
  exact ⟨h4, h2, h3⟩

theorem cache_inv_init : cache_inv {} :=
  ⟨rfl, rfl, rfl, by intro k i h; simp [map_find] at h, by simp⟩

theorem get_table_index_inv (v : view) {c : iterator_cache} (key : table_key)
    (hc : cache_inv c) : cache_inv (get_table_index v c key).2 := by
  unfold get_table_index
  split
  · exact hc
  · rename_i hfind
    split_ifs with h1 h2 h3
    · exact hc
    · exact hc
    · exact hc
    · refine ⟨hc.index_empty, ?_, ?_, ?_, hc.cursors_le⟩
      · simp [map_assign_length _ _ _ hfind, hc.sizes_index]
      · simp [hc.sizes_end]
      · intro k i hk
        by_cases hkk : key = k
        · subst hkk
          rw [map_find_map_assign_same] at hk
          simp only [Option.some.injEq] at hk
          subst hk
          simp
        · rw [map_find_map_assign_ne _ _ hkk] at hk
          have := hc.index_lt k i hk
          simp only [List.length_append, List.length_singleton]
          omega

theorem get_table_index_cursors (v : view) (c : iterator_cache) (key : table_key) :
    (get_table_index v c key).2.iterators = c.iterators := by
  unfold get_table_index
  split
  · rfl
  · split_ifs <;> rfl

theorem get_iterator_inv {c : iterator_cache} {rk : row_key} {vi : view_iterator}
    (hc : cache_inv c) : cache_inv (get_iterator c rk vi).2 := by
  unfold get_iterator
  split
  · split
    · exact hc
    · exact ⟨hc.index_empty, hc.sizes_index, by simp [vec_update_length, hc.sizes_end],
        hc.index_lt, hc.cursors_le⟩
  · split
    · rename_i hf
      rw [hc.index_empty] at hf
      simp [map_find] at hf
    · split_ifs with h
      · exact hc
      · refine ⟨hc.index_empty, hc.sizes_index, hc.sizes_end, hc.index_lt, ?_⟩
        unfold INT32_MAX at h
        simp only [List.length_append, List.length_singleton]
        omega

theorem lower_bound_inv {v : view} {c : iterator_cache} {code scope table key : Nat}
    (hc : cache_inv c) : cache_inv (lower_bound v c code scope table key).2 := by
  unfold lower_bound
  have h1 := get_table_index_inv v ⟨code, table, scope⟩ hc
  rcases hg : get_table_index v c ⟨code, table, scope⟩ with ⟨r, c1⟩
  rw [hg] at h1
  cases r with
  | error e => exact h1
  | ok ti =>
    simp only []
    split_ifs
    · exact h1
    · split
      · exact h1
      · exact get_iterator_inv h1

theorem cache_inv_of_same {c c' : iterator_cache} (hc : cache_inv c)
    (h1 : c'.key_to_iterator_index = c.key_to_iterator_index) (h2 : c'.tables = c.tables)
    (h3 : c'.table_to_index = c.table_to_index) (h4 : c'.end_iterators = c.end_iterators)
    (h5 : c'.iterators.length = c.iterators.length) : cache_inv c' :=
  ⟨by rw [h1]; exact hc.index_empty, by rw [h2, h3]; exact hc.sizes_index,
    by rw [h2, h4]; exact hc.sizes_end, by rw [h2, h3]; exact hc.index_lt,
    by rw [h5]; exact hc.cursors_le⟩

theorem db_next_i64_inv {v : view} {c : iterator_cache} {itr : Int}
    (hc : cache_inv c) : cache_inv (db_next_i64 v c itr).2.2 := by
  unfold db_next_i64
  split_ifs
  · exact hc
  · exact hc
  · exact hc
  · split
    · exact hc
    · split_ifs
      · split <;> exact hc
      · exact hc
      · have hc1 : cache_inv { c with
            iterators := (vec_update c.iterators itr (fun x => { x with view_it := none })) } :=
          cache_inv_of_same hc rfl rfl rfl rfl (vec_update_length _ _ _)
        simp only []
        split
        · exact hc1
        · split
          · exact cache_inv_of_same hc1 rfl rfl rfl rfl (vec_update_length _ _ _)
          · split
            · rename_i x e c2 hg
              have e2 := congrArg Prod.snd hg
              simp only [] at e2
              rw [← e2]
              exact get_iterator_inv hc1
            · rename_i x nxt c2 hg
              have e2 := congrArg Prod.snd hg
              simp only [] at e2
              have hc2 : cache_inv c2 := by rw [← e2]; exact get_iterator_inv hc1
              split_ifs
              · exact hc2
              · exact cache_inv_of_same hc2 rfl rfl rfl rfl (vec_update_length _ _ _)

theorem cache_call_run_inv {v : view} {c : iterator_cache} (call : cache_call)
    (hc : cache_inv c) : cache_inv (call.run v c) := by
  cases call with
  | lower_bound code scope table key => exact lower_bound_inv hc
  | db_next_i64 itr => exact db_next_i64_inv hc
  | db_get_i64 itr =>
    have := (db_get_i64_split c itr).2.2.2.2
    show cache_inv (db_get_i64 c itr).2
    rw [this]; exact hc

theorem run_calls_inv {v : view} (calls : List cache_call) {c : iterator_cache}
    (hc : cache_inv c) : cache_inv (run_calls v c calls) := by
  induction calls generalizing c with
  | nil => exact hc
  | cons call calls ih => exact ih (cache_call_run_inv call hc)

theorem reachable_inv {v : view} {c : iterator_cache} (h : reachable v c) : cache_inv c := by
  obtain ⟨calls, rfl⟩ := h
  exact run_calls_inv calls cache_inv_init

/-! ## `lower_bound` in a reachable state -/

theorem get_table_index_present {v : view} {c : iterator_cache} {key : table_key}
    (hc : cache_inv c) (htab : key ∈ v.tabs) (hlen : c.tables.length < 2147483647) :
    ∃ ti c1, get_table_index v c key = (.ok ti, c1) ∧ 0 ≤ ti ∧ ti < 2147483647 ∧
      ti < (c1.end_iterators.length : Int) ∧ c1.iterators = c.iterators ∧
      c1.key_to_iterator_index = [] := by
  unfold get_table_index
  cases hf : map_find c.table_to_index key with
  | some i =>
    have := hc.index_lt key i hf
    have h2 := hc.sizes_end
    exact ⟨i, c, rfl, this.1, by omega, by omega, rfl, hc.index_empty⟩
  | none =>
    have h1 : v.has_table key = true := by simp [view.has_table, htab]
    have h2 : ¬ (c.tables.length ≠ c.table_to_index.length ∨
        c.tables.length ≠ c.end_iterators.length) := by
      simp [hc.sizes_index.symm, hc.sizes_end.symm]
    have h3 : ¬ ((c.tables.length : Int) > INT32_MAX) := by unfold INT32_MAX; omega
    simp only [h1, h2, h3, Bool.not_true, if_false]
    refine ⟨_, _, rfl, by omega, by omega, ?_, rfl, hc.index_empty⟩
    have := hc.sizes_end
    simp only [List.length_append, List.length_singleton]
    omega

theorem index_to_end_iterator_small {ti : Int} (h0 : 0 ≤ ti) (h1 : ti < 2147483647) :
    index_to_end_iterator (to_size_t ti) = -ti - 2 := by
  unfold index_to_end_iterator to_int32 to_size_t
  omega

theorem seek_then_get (v : view) (c : iterator_cache) (code scope table key : Nat)
    (hc : cache_inv c) (htab : (⟨code, table, scope⟩ : table_key) ∈ v.tabs)
    (hcur : c.iterators.length < 2147483648) (htbl : c.tables.length < 2147483647) :
    match seek_rows v.rows ⟨code, table, scope⟩ key with
    | some r => ∃ h, 0 ≤ h ∧ (lower_bound v c code scope table key).1 = .ok h ∧
        db_get_i64 (lower_bound v c code scope table key).2 h =
          (.ok r.value, (lower_bound v c code scope table key).2)
    | none => ∃ h, h < -1 ∧ (lower_bound v c code scope table key).1 = .ok h ∧
        db_get_i64 (lower_bound v c code scope table key).2 h =
          (.error .dereference_end_iterator, (lower_bound v c code scope table key).2) := by
  obtain ⟨ti, c1, hg, h0, h1, h2, h3, h4⟩ := get_table_index_present hc htab htbl
  have hlb : lower_bound v c code scope table key =
      get_iterator c1 ⟨ti, key⟩ ((view_iterator.mk ⟨code, table, scope⟩ none).lower_bound v key) := by
    unfold lower_bound
    rw [hg]
    simp only [h4, map_find]
    rw [if_neg (by omega)]
  rw [hlb]
  unfold get_iterator
  simp only [view_iterator.lower_bound]
  cases hs : seek_rows v.rows ⟨code, table, scope⟩ key with
  | none =>
    obtain ⟨e, he⟩ := vec_at_of_lt (l := c1.end_iterators) (i := ti) h0 h2
    simp only [he]
    refine ⟨_, ?_, rfl, ?_⟩
    · rw [index_to_end_iterator_small h0 h1]; omega
    · unfold db_get_i64
      rw [index_to_end_iterator_small h0 h1]
      rw [if_neg (by omega), if_pos (by omega)]
  | some r =>
    have h5 : ¬ ((c1.iterators.length : Int) > INT32_MAX) := by
      rw [h3]; unfold INT32_MAX; omega
    simp only [h4, map_find, h5, if_false]
    refine ⟨_, by omega, rfl, ?_⟩
    unfold db_get_i64
    rw [if_neg (by omega), if_neg (by omega), if_neg (by simp)]
    simp only [vec_at_append_length]

/-! ## A cache with a full cursor registry -/

theorem seek_one_row_view :
    seek_rows one_row_view.rows ⟨1, 2, 0⟩ 0 =
      some { code := 1, table := 2, scope := 0, primary_key := 5, value := [97] } := by
  decide

theorem lower_bound_crowded (n : Nat) (hn : n < 2147483648) :
    lower_bound one_row_view (crowded_cache n) 1 0 2 0 = (.ok (n : Int), crowded_cache (n + 1)) := by
  have h5 : ¬ (((List.replicate n one_row_cursor).length : Int) > INT32_MAX) := by
    rw [List.length_replicate]; unfold INT32_MAX; omega
  unfold lower_bound get_table_index get_iterator
  simp only [crowded_cache, map_find, view_iterator.lower_bound, seek_one_row_view, if_true,
    h5, if_false]
  rw [if_neg (by omega)]
  simp only [List.length_replicate, List.replicate_succ']
  rfl

theorem lower_bound_overcrowded (n : Nat) (hn : 2147483648 ≤ n) :
    lower_bound one_row_view (crowded_cache n) 1 0 2 0 =
      (.error .too_many_iterators, crowded_cache n) := by
  have h5 : ((List.replicate n one_row_cursor).length : Int) > INT32_MAX := by
    rw [List.length_replicate]; unfold INT32_MAX; omega
  unfold lower_bound get_table_index get_iterator
  simp only [crowded_cache, map_find, view_iterator.lower_bound, seek_one_row_view, if_true, h5]
  rw [if_neg (by omega)]

theorem run_calls_crowded (n : Nat) (hn : n < 2147483648) :
    run_calls one_row_view {} (List.replicate (n + 1) (cache_call.lower_bound 1 0 2 0)) =
      crowded_cache (n + 1) := by
  induction n with
  | zero => decide
  | succ n ih =>
    rw [List.replicate_succ', run_calls, List.foldl_append]
    have := ih (by omega)
    rw [run_calls] at this
    rw [this]
    simp only [List.foldl, cache_call.run]
    rw [lower_bound_crowded (n + 1) (by omega)]

theorem reachable_crowded (n : Nat) (hn : n < 2147483648) :
    reachable one_row_view (crowded_cache (n + 1)) :=
  ⟨_, run_calls_crowded n hn⟩

/-! ## Registered cursors are kept -/

theorem same_row_refl (it : iterator) : it.same_row it := ⟨rfl, rfl, rfl, rfl⟩

theorem same_row_trans {a b c : iterator} (h1 : a.same_row b) (h2 : b.same_row c) :
    a.same_row c :=
  ⟨h2.1.trans h1.1, h2.2.1.trans h1.2.1, h2.2.2.1.trans h1.2.2.1, h2.2.2.2.trans h1.2.2.2⟩

theorem kept_refl (it : iterator) : it.kept it := ⟨rfl, rfl, rfl, fun _ => rfl⟩

theorem kept_of_same_row {a b : iterator} (h : a.same_row b) : a.kept b :=
  ⟨h.1, h.2.1, h.2.2.1, fun _ => h.2.2.2⟩

theorem kept_trans {a b c : iterator} (h1 : a.kept b) (h2 : b.kept c) : a.kept c := by
  refine ⟨h2.1.trans h1.1, h2.2.1.trans h1.2.1, h2.2.2.1.trans h1.2.2.1, ?_⟩
  intro hn
  have e1 := h1.2.2.2 hn
  have e2 := h2.2.2.2 (by rw [e1]; exact hn)
  rw [e2, e1]

theorem cursors_rel_refl {R : iterator → iterator → Prop} (hR : ∀ x, R x x) (l : List iterator) :
    cursors_rel R l l :=
  fun _ it h => ⟨it, h, hR it⟩

theorem cursors_rel_trans {R : iterator → iterator → Prop}
    (hR : ∀ a b c, R a b → R b c → R a c) {l1 l2 l3 : List iterator}
    (h1 : cursors_rel R l1 l2) (h2 : cursors_rel R l2 l3) : cursors_rel R l1 l3 := by
  intro i it h
  obtain ⟨it2, e2, r2⟩ := h1 i it h
  obtain ⟨it3, e3, r3⟩ := h2 i it2 e2
  exact ⟨it3, e3, hR _ _ _ r2 r3⟩

theorem cursors_rel_mono {R S : iterator → iterator → Prop} (hRS : ∀ a b, R a b → S a b)
    {l l' : List iterator} (h : cursors_rel R l l') : cursors_rel S l l' := by
  intro i it hi
  obtain ⟨it', e, r⟩ := h i it hi
  exact ⟨it', e, hRS _ _ r⟩

theorem cursors_rel_update {R : iterator → iterator → Prop} (hR : ∀ x, R x x)
    (l : List iterator) (j : Int) (f : iterator → iterator)
    (hf : ∀ x, vec_at l j = some x → R x (f x)) : cursors_rel R l (vec_update l j f) := by
  intro i it h
  by_cases hij : j = i
  · subst hij
    exact ⟨f it, vec_at_vec_update_same f h, hf it h⟩
  · exact ⟨it, by rw [vec_at_vec_update_ne l f hij]; exact h, hR it⟩

theorem cursors_rel_append {R : iterator → iterator → Prop} (hR : ∀ x, R x x)
    (l l' : List iterator) : cursors_rel R l (l ++ l') :=
  fun _ it h => ⟨it, vec_at_append_left l' h, hR it⟩

theorem same_row_keep_view_it (vi : view_iterator) (x : iterator) :
    x.same_row (keep_view_it vi x) := by
  unfold keep_view_it
  split
  · exact same_row_refl x
  · exact ⟨rfl, rfl, rfl, rfl⟩

theorem get_iterator_same (c : iterator_cache) (rk : row_key) (vi : view_iterator) :
    cursors_rel iterator.same_row c.iterators (get_iterator c rk vi).2.iterators := by
  unfold get_iterator
  split
  · split <;> exact cursors_rel_refl same_row_refl _
  · split
    · split
      · exact cursors_rel_refl same_row_refl _
      · exact cursors_rel_update same_row_refl _ _ _ (fun x _ => same_row_keep_view_it vi x)
    · split_ifs
      · exact cursors_rel_refl same_row_refl _
      · exact cursors_rel_append same_row_refl _ _

theorem get_iterator_same_of_eq {c c2 : iterator_cache} {rk : row_key} {vi : view_iterator}
    {r : Except cache_error Int} (hg : get_iterator c rk vi = (r, c2)) :
    cursors_rel iterator.same_row c.iterators c2.iterators := by
  have := get_iterator_same c rk vi
  rw [hg] at this
  exact this

theorem lower_bound_same (v : view) (c : iterator_cache) (code scope table key : Nat) :
    cursors_rel iterator.same_row c.iterators
      (lower_bound v c code scope table key).2.iterators := by
  unfold lower_bound
  have h1 := get_table_index_cursors v c ⟨code, table, scope⟩
  rcases hg : get_table_index v c ⟨code, table, scope⟩ with ⟨r, c1⟩
  rw [hg] at h1
  simp only [] at h1
  cases r with
  | error e => simp only []; rw [h1]; exact cursors_rel_refl same_row_refl _
  | ok ti =>
    simp only []
    split_ifs
    · simp only []; rw [h1]; exact cursors_rel_refl same_row_refl _
    · split
      · simp only []; rw [h1]; exact cursors_rel_refl same_row_refl _
      · rw [← h1]; exact get_iterator_same _ _ _

theorem kept_after_set_next {l l2 : List iterator} {itr : Int} {it : iterator}
    (h12 : cursors_rel iterator.same_row l l2) (hit : vec_at l itr = some it)
    (hnext : it.next = -1) (nxt : Int) :
    cursors_rel iterator.kept l (vec_update l2 itr (fun x => { x with next := nxt })) := by
  intro i it0 h0
  obtain ⟨it2, e2, r2⟩ := h12 i it0 h0
  by_cases hij : itr = i
  · subst hij
    rw [hit] at h0
    have e0 : it = it0 := Option.some.inj h0
    subst e0
    refine ⟨_, vec_at_vec_update_same _ e2, r2.1, r2.2.1, r2.2.2.1, ?_⟩
    intro hn
    exact absurd hnext hn
  · exact ⟨it2, by rw [vec_at_vec_update_ne l2 _ hij]; exact e2, kept_of_same_row r2⟩

theorem db_next_i64_kept (v : view) (c : iterator_cache) (itr : Int) :
    cursors_kept c (db_next_i64 v c itr).2.2 := by
  have hrefl : cursors_rel iterator.kept c.iterators c.iterators := cursors_rel_refl kept_refl _
  unfold cursors_kept db_next_i64
  split_ifs
  · exact hrefl
  · exact hrefl
  · exact hrefl
  · split
    · exact hrefl
    · rename_i it hit
      split_ifs with hn1 hn2
      · split <;> exact hrefl
      · exact hrefl
      · have hnext : it.next = -1 := by omega
        have h1 : cursors_rel iterator.same_row c.iterators
            (vec_update c.iterators itr (fun x => { x with view_it := none })) :=
          cursors_rel_update same_row_refl _ _ _ (fun x _ => ⟨rfl, rfl, rfl, rfl⟩)
        simp only []
        split
        · exact cursors_rel_mono (fun _ _ => kept_of_same_row) h1
        · split
          · exact kept_after_set_next h1 hit hnext _
          · split
            · rename_i x e c2 hg
              exact cursors_rel_mono (fun _ _ => kept_of_same_row)
                (cursors_rel_trans (R := iterator.same_row) (fun _ _ _ => same_row_trans) h1
                  (get_iterator_same_of_eq hg))
            · rename_i x nxt c2 hg
              have h2 : cursors_rel iterator.same_row c.iterators c2.iterators :=
                cursors_rel_trans (R := iterator.same_row) (fun _ _ _ => same_row_trans) h1
                  (get_iterator_same_of_eq hg)
              split_ifs
              · exact cursors_rel_mono (fun _ _ => kept_of_same_row) h2
              · exact kept_after_set_next h2 hit hnext _

theorem cache_call_run_kept (v : view) (c : iterator_cache) (call : cache_call) :
    cursors_kept c (call.run v c) := by
  cases call with
  | lower_bound code scope table key =>
    exact cursors_rel_mono (fun _ _ => kept_of_same_row) (lower_bound_same v c code scope table key)
  | db_next_i64 itr => exact db_next_i64_kept v c itr
  | db_get_i64 itr =>
    have := (db_get_i64_split c itr).2.2.2.2
    show cursors_kept c (db_get_i64 c itr).2
    rw [this]; exact cursors_rel_refl kept_refl _

theorem run_calls_kept (v : view) (calls : List cache_call) (c : iterator_cache) :
    cursors_kept c (run_calls v c calls) := by
  induction calls generalizing c with
  | nil => exact cursors_rel_refl kept_refl _
  | cons call calls ih =>
    exact cursors_rel_trans (R := iterator.kept) (fun _ _ _ => kept_trans) (cache_call_run_kept v c call)
      (ih (call.run v c))

/-! ## Memoized next links -/

theorem get_iterator_new {c : iterator_cache} {rk : row_key} {vi : view_iterator}
    {row : contract_row} (hk : c.key_to_iterator_index = []) (hrow : vi.kv = some row) :
    get_iterator c rk vi =
      if (c.iterators.length : Int) > INT32_MAX then (.error .too_many_iterators, c)
      else
        (.ok (c.iterators.length : Int),
          { c with
            iterators := c.iterators ++
              [{ table_index := rk.table_index, primary := row.primary_key,
                 value := row.value, next := -1, view_it := some vi }] }) := by
  unfold get_iterator
  simp only [hrow, hk, map_find]

theorem memoized_returns {c : iterator_cache} {h h' : Int} {w : Option Nat}
    (hm : memoized c h h' w) (v : view) : db_next_i64 v c h = (.ok h', w, c) := by
  obtain ⟨it, hit, hnext, hne, hpos, hneg⟩ := hm
  have hb := vec_at_lt hit
  unfold db_next_i64
  rw [if_neg (by omega), if_neg (by omega), if_neg (by omega)]
  simp only [hit]
  by_cases hp : 0 ≤ h'
  · obtain ⟨n, hn, hw⟩ := hpos hp
    rw [if_pos (by omega), hnext]
    simp only [hn, hw]
  · rw [if_neg (by omega), if_pos (by omega), hnext, hneg (by omega)]

theorem memoized_kept {c c' : iterator_cache} {h h' : Int} {w : Option Nat}
    (hm : memoized c h h' w) (hk : cursors_kept c c') : memoized c' h h' w := by
  obtain ⟨it, hit, hnext, hne, hpos, hneg⟩ := hm
  obtain ⟨it', hit', hkept⟩ := hk h it hit
  refine ⟨it', hit', ?_, hne, ?_, hneg⟩
  · rw [hkept.2.2.2 (by rw [hnext]; exact hne), hnext]
  · intro hp
    obtain ⟨n, hn, hw⟩ := hpos hp
    obtain ⟨n', hn', hkept'⟩ := hk h' n hn
    exact ⟨n', hn', by rw [hw, hkept'.2.1]⟩

theorem index_to_end_iterator_cases {h : Int} (h0 : 0 ≤ h) (h1 : h < 2147483648) :
    (h < 2147483647 ∧ index_to_end_iterator (to_size_t h) = -h - 2) ∨
    (h = 2147483647 ∧ index_to_end_iterator (to_size_t h) = h) := by
  unfold index_to_end_iterator to_int32 to_size_t
  omega

theorem memoized_after_first {v : view} {c c1 : iterator_cache} {h h' : Int} {w0 : Option Nat}
    (hc : cache_inv c) (h0 : 0 ≤ h) (hfirst : db_next_i64 v c h = (.ok h', w0, c1))
    (hcap : c.iterators.length ≠ vector_capacity c.iterators.length ∨ h' < 0) :
    ∃ w, memoized c1 h h' w ∧ (w = w0 ∨ (w0 = none ∧ h = 2147483647)) := by
  unfold db_next_i64 at hfirst
  rw [if_neg (by omega), if_neg (by omega)] at hfirst
  by_cases hlen : h ≥ (c.iterators.length : Int)
  · rw [if_pos hlen] at hfirst
    simp at hfirst
  rw [if_neg hlen] at hfirst
  obtain ⟨it, hit⟩ := vec_at_of_lt (l := c.iterators) (i := h) h0 (by omega)
  simp only [hit] at hfirst
  by_cases hn1 : it.next ≥ 0
  · rw [if_pos hn1] at hfirst
    cases hn : vec_at c.iterators it.next with
    | none => rw [hn] at hfirst; simp at hfirst
    | some n =>
      rw [hn] at hfirst
      simp only [Prod.mk.injEq, Except.ok.injEq] at hfirst
      obtain ⟨e1, e2, e3⟩ := hfirst
      subst e1 e2 e3
      exact ⟨_, ⟨it, hit, rfl, by omega, fun _ => ⟨n, hn, rfl⟩, fun hneg => by omega⟩, Or.inl rfl⟩
  rw [if_neg hn1] at hfirst
  by_cases hn2 : it.next < -1
  · rw [if_pos hn2] at hfirst
    simp only [Prod.mk.injEq, Except.ok.injEq] at hfirst
    obtain ⟨e1, e2, e3⟩ := hfirst
    subst e1 e2 e3
    exact ⟨none, ⟨it, hit, rfl, by omega, fun hp => by omega, fun _ => rfl⟩, Or.inl rfl⟩
  rw [if_neg hn2] at hfirst
  have hit1 := vec_at_vec_update_same (fun x : iterator => { x with view_it := none }) hit
  generalize hopened : (match it.view_it with
    | some vi => some vi
    | none =>
      match vec_at c.tables it.table_index with
      | none => none
      | some table_key => some ((view_iterator.mk table_key none).lower_bound v it.primary)) = opened
    at hfirst
  cases opened with
  | none => simp at hfirst
  | some vi =>
    simp only [] at hfirst
    cases hkv : (vi.increment v).kv with
    | none =>
      rw [hkv] at hfirst
      simp only [Prod.mk.injEq, Except.ok.injEq] at hfirst
      obtain ⟨e1, e2, e3⟩ := hfirst
      subst e1 e2 e3
      have hfin := vec_at_vec_update_same
        (fun x : iterator => { x with next := index_to_end_iterator (to_size_t h) }) hit1
      have hcl := hc.cursors_le
      rcases index_to_end_iterator_cases h0 (by omega) with ⟨hs, he⟩ | ⟨hs, he⟩
      · refine ⟨none, ⟨_, hfin, rfl, by omega, fun hp => by omega, fun _ => rfl⟩, Or.inl rfl⟩
      · exact ⟨some it.primary, ⟨_, hfin, rfl, by omega,
          fun _ => ⟨_, (congrArg (vec_at _) he).trans hfin, rfl⟩, fun hneg => by omega⟩,
          Or.inr ⟨rfl, hs⟩⟩
    | some row =>
      rw [hkv] at hfirst
      simp only [] at hfirst
      have hk1 : ({ c with iterators :=
          (vec_update c.iterators h (fun x : iterator => { x with view_it := none })) } :
          iterator_cache).key_to_iterator_index = [] := hc.index_empty
      rw [get_iterator_new hk1 hkv] at hfirst
      simp only [vec_update_length] at hfirst
      by_cases hbig : (c.iterators.length : Int) > INT32_MAX
      · rw [if_pos hbig] at hfirst
        simp at hfirst
      · rw [if_neg hbig] at hfirst
        simp only [] at hfirst
        have hno : ¬ (c.iterators.length <
            (vec_update c.iterators h (fun x : iterator => { x with view_it := none }) ++
              [({ table_index := it.table_index, primary := row.primary_key,
                  value := row.value, next := -1,
                  view_it := some (vi.increment v) } : iterator)]).length ∧
            c.iterators.length = vector_capacity c.iterators.length) := by
          rintro ⟨_, hfull⟩
          rcases hcap with hcap | hcap
          · exact hcap hfull
          · rw [if_pos ⟨by simp [vec_update_length], hfull⟩] at hfirst
            simp only [Prod.mk.injEq, Except.ok.injEq] at hfirst
            omega
        rw [if_neg hno] at hfirst
        simp only [Prod.mk.injEq, Except.ok.injEq] at hfirst
        obtain ⟨e1, e2, e3⟩ := hfirst
        subst e1 e2 e3
        generalize hnw : ({ table_index := it.table_index, primary := row.primary_key, value := row.value, next := -1, view_it := some (vi.increment v) } : iterator) = nw
        have hp : nw.primary = row.primary_key := by rw [← hnw]
        have hfin := vec_at_vec_update_same
          (fun x : iterator => { x with next := (c.iterators.length : Int) })
          (vec_at_append_left [nw] hit1)
        refine ⟨some row.primary_key, ⟨_, hfin, rfl, by omega, fun _ => ⟨nw, ?_, by rw [hp]⟩,
          fun hneg => by omega⟩, Or.inl rfl⟩
        rw [vec_at_vec_update_ne _ _ (by omega)]
        have := vec_at_append_length
          (vec_update c.iterators h (fun x : iterator => { x with view_it := none })) nw
        rw [vec_update_length] at this
        exact this

/-! ## Properties of the iterator cache -/

/-- Supporting fact for C1, C2 and C9: nothing is ever entered into `key_to_iterator_index`,
so in every reachable cache state the map is empty and no lookup in it finds a cursor. -/
theorem reachable_index_empty {v : view} {c : iterator_cache} (h : reachable v c) :
    c.key_to_iterator_index = [] :=
  (reachable_inv h).index_empty

/-- C1, the claim as stated fails: over a store whose table `(1, 2, 0)` exists and holds
the row 5, the cache state with 2147483648 registered cursors is reachable (by as many
calls `lower_bound(1, 0, 2, 0)`), and there `lower_bound(1, 0, 2, 0)` returns no handle:
it throws "too many iterators". -/
theorem lower_bound_fails_when_cursor_registry_full :
    reachable one_row_view (crowded_cache 2147483648) ∧
    (⟨1, 2, 0⟩ : table_key) ∈ one_row_view.tabs ∧
    one_row_view.is_lower_bound ⟨1, 2, 0⟩ 0
      { code := 1, table := 2, scope := 0, primary_key := 5, value := [97] } ∧
    (lower_bound one_row_view (crowded_cache 2147483648) 1 0 2 0).1 =
      .error .too_many_iterators :=
  ⟨reachable_crowded 2147483647 (by omega), by decide,
    seek_rows_is_lower_bound seek_one_row_view,
    by rw [lower_bound_overcrowded 2147483648 (le_refl _)]⟩

/-- C1 (amended): for every reachable cache state with fewer than 2^31 registered cursors
and fewer than 2^31 - 1 registered tables, and every `(code, scope, table, key)` whose
table-descriptor key is present in the store, `lower_bound` returns a handle `h` such
that: if the table has a row with primary key `>= key`, then `h >= 0` and `db_get_i64(h)`
yields the payload of the stored row with the smallest primary key `>= key`; if the
table has no such row, `h < -1` and `db_get_i64(h)` fails with the end-iterator error. -/
theorem lower_bound_then_get (v : view) (c : iterator_cache) (code scope table key : Nat)
    (hr : reachable v c) (htab : (⟨code, table, scope⟩ : table_key) ∈ v.tabs)
    (hcur : c.iterators.length < 2147483648) (htbl : c.tables.length < 2147483647) :
    ((∃ r' ∈ v.rows, r'.tkey = ⟨code, table, scope⟩ ∧ key ≤ r'.primary_key) →
      ∃ r h, v.is_lower_bound ⟨code, table, scope⟩ key r ∧ 0 ≤ h ∧
        (lower_bound v c code scope table key).1 = .ok h ∧
        db_get_i64 (lower_bound v c code scope table key).2 h =
          (.ok r.value, (lower_bound v c code scope table key).2)) ∧
    ((∀ r' ∈ v.rows, r'.tkey = ⟨code, table, scope⟩ → r'.primary_key < key) →
      ∃ h, h < -1 ∧ (lower_bound v c code scope table key).1 = .ok h ∧
        db_get_i64 (lower_bound v c code scope table key).2 h =
          (.error .dereference_end_iterator, (lower_bound v c code scope table key).2)) := by
  have haux := seek_then_get v c code scope table key (reachable_inv hr) htab hcur htbl
  constructor
  · rintro ⟨r', hr', ht, hk⟩
    cases hs : seek_rows v.rows ⟨code, table, scope⟩ key with
    | none =>
      have := seek_rows_none.mp hs r' hr' ht
      omega
    | some r =>
      rw [hs] at haux
      obtain ⟨h, h0, e1, e2⟩ := haux
      exact ⟨r, h, seek_rows_is_lower_bound hs, h0, e1, e2⟩
  · intro hnone
    rw [seek_rows_none.mpr hnone] at haux
    exact haux

/-- Witness of C1 (amended): a fresh cache over the one-row store, seeking key 0. -/
theorem lower_bound_then_get_witness :
    reachable one_row_view {} ∧ (⟨1, 2, 0⟩ : table_key) ∈ one_row_view.tabs ∧
    ((∃ r' ∈ one_row_view.rows, r'.tkey = ⟨1, 2, 0⟩ ∧ 0 ≤ r'.primary_key) →
      ∃ r h, one_row_view.is_lower_bound ⟨1, 2, 0⟩ 0 r ∧ 0 ≤ h ∧
        (lower_bound one_row_view {} 1 0 2 0).1 = .ok h ∧
        db_get_i64 (lower_bound one_row_view {} 1 0 2 0).2 h =
          (.ok r.value, (lower_bound one_row_view {} 1 0 2 0).2)) :=
  ⟨⟨[], rfl⟩, by decide,
    (lower_bound_then_get one_row_view {} 1 0 2 0 ⟨[], rfl⟩ (by decide) (by decide)
      (by decide)).1⟩

/-- C2, evaluated at the failing input: over the one-row store, two calls
`lower_bound(1, 0, 2, 5)` with identical arguments land on the same row 5, yet the first
returns handle 0 and the second returns handle 1 and registers a second cursor. -/
theorem repeated_lower_bound_registers_new_cursor :
    (lower_bound one_row_view {} 1 0 2 5).1 = .ok 0 ∧
    (lower_bound one_row_view (lower_bound one_row_view {} 1 0 2 5).2 1 0 2 5).1 = .ok 1 ∧
    (lower_bound one_row_view {} 1 0 2 5).2.iterators.length = 1 ∧
    (lower_bound one_row_view (lower_bound one_row_view {} 1 0 2 5).2 1 0 2 5).2.iterators.length
      = 2 := by
  decide

/-- C3, the claim as stated fails: `db_next_i64(-2)` returns `-1`, not the End sentinel
`-2` it was given. -/
theorem end_handle_next_is_invalid_handle :
    (db_next_i64 one_row_view {} (-2)).1 = .ok (-1) ∧
    (db_next_i64 one_row_view {} (-2)).1 ≠ .ok (-2) := by
  decide

/-- C3 (amended): for every handle `h < -1`, `db_next_i64(h)` raises no error, writes no
primary key and leaves the cache unchanged, and it returns `-1`, the invalid handle, not
`h`; applied to that result it fails with the invalid-iterator error. -/
theorem db_next_i64_end_handle (v : view) (c : iterator_cache) (h : Int) (hh : h < -1) :
    db_next_i64 v c h = (.ok (-1), none, c) ∧
    db_next_i64 v c (-1) = (.error .increment_invalid_iterator, none, c) := by
  unfold db_next_i64
  constructor
  · rw [if_neg (by omega), if_pos (by omega)]
  · rw [if_pos rfl]

/-- Witness of C3 (amended): the handle `-2`. -/
theorem db_next_i64_end_handle_witness :
    (-2 : Int) < -1 ∧
    db_next_i64 one_row_view {} (-2) = (.ok (-1), none, {}) ∧
    db_next_i64 one_row_view {} (-1) = (.error .increment_invalid_iterator, none, {}) :=
  ⟨by decide, db_next_i64_end_handle one_row_view {} (-2) (by decide)⟩

/-- C4, evaluated at the failing input: over the two-row store, after `lower_bound` at
key 0 (handle 0, row 5) and `db_next_i64(0)` (handle 1, row 7), cursor 1 is on the last
row of table index 0, whose End sentinel is `-2` (what `lower_bound` past the end
returns); `db_next_i64(1)` returns `-3`, the encoding of the handle 1. -/
theorem db_next_i64_last_row_encodes_handle :
    (run_calls two_row_view {} [.lower_bound 1 0 2 0, .db_next_i64 0]).iterators.map
      (fun it => (it.table_index, it.primary)) = [(0, 5), (0, 7)] ∧
    (db_next_i64 two_row_view
      (run_calls two_row_view {} [.lower_bound 1 0 2 0, .db_next_i64 0]) 1).1 = .ok (-3) ∧
    index_to_end_iterator 0 = -2 ∧
    (lower_bound two_row_view
      (run_calls two_row_view {} [.lower_bound 1 0 2 0, .db_next_i64 0]) 1 0 2 8).1 = .ok (-2) := by
  decide

/-- C5, evaluated at the failing input: over the two-row store (N = 2, table index 0),
`lower_bound` at the minimum key 5 returns handle 0 on row 5, the first `db_next_i64`
returns handle 1 and primary key 7, and the second returns `-3`, which is not the End
sentinel `-2` of the table. -/
theorem two_row_traversal_misses_end_sentinel :
    (lower_bound two_row_view {} 1 0 2 5).1 = .ok 0 ∧
    (db_next_i64 two_row_view (run_calls two_row_view {} [.lower_bound 1 0 2 5]) 0).1 = .ok 1 ∧
    (db_next_i64 two_row_view (run_calls two_row_view {} [.lower_bound 1 0 2 5]) 0).2.1 = some 7 ∧
    (db_next_i64 two_row_view
      (run_calls two_row_view {} [.lower_bound 1 0 2 5, .db_next_i64 0]) 1).1 = .ok (-3) ∧
    (-3 : Int) ≠ index_to_end_iterator 0 := by
  decide

/-- C6: for every cache state and every handle `h`, `db_get_i64(h)` fails with the
invalid-iterator error iff `h = -1`, with the end-iterator error iff `h < -1`, with the
non-existing-iterator error iff `h` is at least the number of registered cursors, and
otherwise returns the cached value of cursor `h`; the cache is unchanged in every case. -/
theorem db_get_i64_cases (c : iterator_cache) (h : Int) :
    ((db_get_i64 c h).1 = .error .dereference_invalid_iterator ↔ h = -1) ∧
    ((db_get_i64 c h).1 = .error .dereference_end_iterator ↔ h < -1) ∧
    ((db_get_i64 c h).1 = .error .dereference_non_existing_iterator ↔
      (c.iterators.length : Int) ≤ h) ∧
    (0 ≤ h ∧ h < (c.iterators.length : Int) →
      ∃ it, c.iterators[h.toNat]? = some it ∧ (db_get_i64 c h).1 = .ok it.value) ∧
    (db_get_i64 c h).2 = c :=
  db_get_i64_split c h

/-- C7: when `(code, table, scope)` is not registered in the cache and its
table-descriptor key is absent from the store, `lower_bound` returns `-1` for every key
and leaves the cache unchanged; `db_get_i64(-1)` and `db_next_i64(-1)` then fail with
the invalid-iterator error. -/
theorem lower_bound_absent_table (v : view) (c : iterator_cache) (code scope table key : Nat)
    (hreg : map_find c.table_to_index ⟨code, table, scope⟩ = none)
    (habs : (⟨code, table, scope⟩ : table_key) ∉ v.tabs) :
    lower_bound v c code scope table key = (.ok (-1), c) ∧
    db_get_i64 c (-1) = (.error .dereference_invalid_iterator, c) ∧
    db_next_i64 v c (-1) = (.error .increment_invalid_iterator, none, c) := by
  refine ⟨?_, ?_, ?_⟩
  · have h1 : v.has_table ⟨code, table, scope⟩ = false := by simp [view.has_table, habs]
    unfold lower_bound get_table_index
    simp [hreg, h1]
  · unfold db_get_i64; rw [if_pos rfl]
  · unfold db_next_i64; rw [if_pos rfl]

/-- Witness of C7: a table that was never written, sought in a cache that has another
table registered. -/
theorem lower_bound_absent_table_witness :
    map_find (crowded_cache 1).table_to_index ⟨1, 3, 0⟩ = none ∧
    (⟨1, 3, 0⟩ : table_key) ∉ one_row_view.tabs ∧
    lower_bound one_row_view (crowded_cache 1) 1 0 3 9 = (.ok (-1), crowded_cache 1) ∧
    db_get_i64 (crowded_cache 1) (-1) = (.error .dereference_invalid_iterator, crowded_cache 1) ∧
    db_next_i64 one_row_view (crowded_cache 1) (-1) =
      (.error .increment_invalid_iterator, none, crowded_cache 1) :=
  ⟨by decide, by decide,
    lower_bound_absent_table one_row_view (crowded_cache 1) 1 0 3 9 (by decide) (by decide)⟩

/-- C8, evaluated at the failing input: the table index 2147483646 satisfies the
documented precondition of `index_to_end_iterator` (`indx < tables.size() <= INT32_MAX`
with `tables.size() = 2147483647`), and its end handle is `INT32_MIN`, which violates the
documented precondition `INT32_MIN < ei` of `end_iterator_to_index`. -/
theorem index_to_end_iterator_at_documented_bound :
    (2147483646 : Int) < 2147483647 ∧ (2147483647 : Int) ≤ INT32_MAX ∧
    index_to_end_iterator 2147483646 = INT32_MIN ∧
    ¬ (INT32_MIN < index_to_end_iterator 2147483646) := by
  decide

/-- Supporting fact for C8: `get_table_index` hands out the index 2147483646 (and, one
table later, 2147483647): a table that is present in the store and not yet registered
gets the index `tables.size()` as long as `tables.size() <= INT32_MAX`. -/
theorem get_table_index_fresh (v : view) (c : iterator_cache) (key : table_key)
    (hc : cache_inv c) (hreg : map_find c.table_to_index key = none) (htab : key ∈ v.tabs)
    (hlen : (c.tables.length : Int) ≤ INT32_MAX) :
    (get_table_index v c key).1 = .ok (c.tables.length : Int) := by
  have h1 : v.has_table key = true := by simp [view.has_table, htab]
  have h2 : ¬ (c.tables.length ≠ c.table_to_index.length ∨
      c.tables.length ≠ c.end_iterators.length) := by
    simp [hc.sizes_index.symm, hc.sizes_end.symm]
  have h3 : ¬ ((c.tables.length : Int) > INT32_MAX) := by omega
  unfold get_table_index
  simp only [hreg, h1, h2, Bool.not_true, if_false]
  rw [if_neg h3]
  simp

/-- Supporting fact for C9: in every reachable cache state, when `db_next_i64(h)` on a
positioned handle `h` has returned a handle `h'` (and stored a primary key `p'`) without
reallocating the vector of cursors (the vector was not full, or the call ran off the end
of the table), the link is stored: every later `db_next_i64(h)`, after any sequence of
further cache calls and whatever the KV view holds, returns the same `h'` (and stores the
same `p'`) and leaves the cache unchanged. -/
theorem stored_link_is_stable (v : view) (c c1 : iterator_cache) (h h' : Int)
    (w : Option Nat) (hr : reachable v c) (h0 : 0 ≤ h)
    (hfirst : db_next_i64 v c h = (.ok h', w, c1))
    (hcap : c.iterators.length ≠ vector_capacity c.iterators.length ∨ h' < 0)
    (calls : List cache_call) (v' : view) :
    ∃ w', db_next_i64 v' (run_calls v c1 calls) h = (.ok h', w', run_calls v c1 calls) ∧
      (∀ p', w = some p' → w' = some p') ∧
      (h < 2147483647 → w' = w ∧ (0 ≤ h' ↔ ∃ p', w = some p')) := by
  obtain ⟨w', hm, hw⟩ := memoized_after_first (reachable_inv hr) h0 hfirst hcap
  refine ⟨w', memoized_returns (memoized_kept hm (run_calls_kept v calls c1)) v', ?_, ?_⟩
  · intro p' hp
    rcases hw with e | ⟨e, _⟩
    · rw [e]; exact hp
    · rw [e] at hp; cases hp
  · intro hlt
    have e : w' = w := by
      rcases hw with e | ⟨_, e⟩
      · exact e
      · omega
    obtain ⟨it, _, _, _, hpos, hneg⟩ := hm
    refine ⟨e, ?_, ?_⟩
    · intro hp
      obtain ⟨n, _, hn⟩ := hpos hp
      exact ⟨n.primary, by rw [← e]; exact hn⟩
    · rintro ⟨p', hp'⟩
      by_contra hlt0
      have := hneg (by omega)
      rw [e, hp'] at this
      cases this

/-- C9, evaluated at the failing input: over the two-row store, after `lower_bound` at
key 0 (handle 0 on row 5, in a vector of size 1 and capacity 1), `db_next_i64(0)` succeeds
and returns handle 1 with primary key 7. Registering cursor 1 reallocated the vector, so
the store `it.next = 1` did not reach cursor 0: both cursors have `next = -1`. The next
`db_next_i64(0)` consults the view again (over an emptied view it returns `-2`), returns
handle 2, not 1, and registers a third cursor; after the calls `db_next_i64(1)` and
`lower_bound(1, 0, 2, 6)` it returns handle 3. -/
theorem memoized_link_lost_on_reallocation :
    (run_calls two_row_view {} [.lower_bound 1 0 2 0]).iterators.length = 1 ∧
    vector_capacity 1 = 1 ∧
    db_next_i64 two_row_view (run_calls two_row_view {} [.lower_bound 1 0 2 0]) 0 =
      (.ok 1, some 7, run_calls two_row_view {} [.lower_bound 1 0 2 0, .db_next_i64 0]) ∧
    (run_calls two_row_view {} [.lower_bound 1 0 2 0, .db_next_i64 0]).iterators.map
      (fun it => it.next) = [-1, -1] ∧
    (db_next_i64 two_row_view
      (run_calls two_row_view {} [.lower_bound 1 0 2 0, .db_next_i64 0]) 0).1 = .ok 2 ∧
    (db_next_i64 two_row_view
      (run_calls two_row_view {} [.lower_bound 1 0 2 0, .db_next_i64 0]) 0).2.1 = some 7 ∧
    (db_next_i64 two_row_view
      (run_calls two_row_view {} [.lower_bound 1 0 2 0, .db_next_i64 0])
      0).2.2.iterators.length = 3 ∧
    (db_next_i64 {}
      (run_calls two_row_view {} [.lower_bound 1 0 2 0, .db_next_i64 0]) 0).1 = .ok (-2) ∧
    (db_next_i64 two_row_view
      (run_calls two_row_view {}
        [.lower_bound 1 0 2 0, .db_next_i64 0, .db_next_i64 1, .lower_bound 1 0 2 6]) 0).1 =
        .ok 3 := by
  decide

end history_tools

/-! ## Properties of the ingestion session -/

namespace fill_rdb_session

/-- C10, the claim as stated fails: a session whose head is 0 that receives block 5
(`5 > head + 1`, no stop configured) raises no missing-block error; it applies the block
and its head becomes 5. -/
theorem received_gap_accepted_at_head_zero :
    (5 : Nat) > ({} : fill_rdb_session).head + 1 ∧
    (received {} { this_block := some ⟨5, 1⟩ }).1 = .ok true ∧
    (received {} { this_block := some ⟨5, 1⟩ }).2.head = 5 := by
  decide

/-! ## The ingestion session: the steps of `received` -/

theorem received_steps (s : fill_rdb_session) (result : get_blocks_result_v0) :
    received s result =
      match result.this_block with
      | none => (.ok true, s)
      | some this_block =>
        if s.config.stop_before ≠ 0 ∧ this_block.block_num ≥ s.config.stop_before then
          (.ok false, (s.end_write true).flush)
        else if s.head ≠ 0 ∧ this_block.block_num > (s.head + 1) % 4294967296 then
          (.error (.missing_block ((s.head + 1) % 4294967296)), s)
        else
          match (if this_block.block_num ≤ s.head then switch_forks s this_block.block_num
            else (.ok (), s)) with
          | (.error e, s1) => (.error e, s1)
          | (.ok _, s1) =>
            if s1.head_id ≠ 0 ∧
                (match result.prev_block with
                  | none => true
                  | some prev_block => decide (prev_block.block_id ≠ s1.head_id)) = true then
              (.error .prev_block_does_not_match, { s1 with reported_block := true })
            else (.ok true, finish_block { s1 with reported_block := true } result this_block) := by
  unfold received finish_block
  rfl

/-! ## Fill-Status: checkpoint and reload -/

theorem view_snoc (cache : List kv_change) (c : kv_change) (db : kv_state) :
    write_session.view { cache := cache ++ [c] } db =
      (write_session.view { cache := cache } db).apply c := by
  simp [write_session.view, List.foldl_append]

theorem apply_fill_status (st : kv_state) (c : kv_change) :
    (st.apply c).fill_status =
      match c with
      | .put_fill_status status => some status
      | _ => st.fill_status := by
  cases c <;> rfl

theorem apply_keeps_status {st : kv_state} (c : kv_change) (h : st.fill_status ≠ none) :
    (st.apply c).fill_status ≠ none := by
  rw [apply_fill_status]
  cases c <;> simp [h]

/-- Supporting fact for C15: the record that a checkpoint flush leaves in the
store. -/
theorem end_write_status (s : fill_rdb_session) :
    (s.end_write true).db.fill_status =
      some (if s.irreversible < s.head then
          { chain_id := s.chain_id, head := s.head, head_id := s.head_id,
            irreversible := s.irreversible, irreversible_id := s.irreversible_id,
            first := s.first }
        else
          { chain_id := s.chain_id, head := s.head, head_id := s.head_id,
            irreversible := s.head, irreversible_id := s.head_id, first := s.first }) ∧
    (s.end_write true).write_session.cache = [] := by
  constructor
  · simp only [end_write, write_fill_status, write_changes, if_true]
    rw [view_snoc, apply_fill_status]
  · simp only [end_write, write_fill_status, write_changes, if_true]

theorem load_fill_status_some {s : fill_rdb_session} {st : fill_status_v0}
    (h : s.db.fill_status = some st) :
    s.load_fill_status =
      { s.wipe_cache with
        chain_id := st.chain_id, head := st.head, head_id := st.head_id,
        irreversible := st.irreversible, irreversible_id := st.irreversible_id,
        first := st.first } := by
  have hv : (write_session.view s.wipe_cache.write_session s.wipe_cache.db).fill_status =
      some st := by
    simp [wipe_cache, write_session.view, h]
  unfold load_fill_status
  simp only [hv]

theorem load_fill_status_none {s : fill_rdb_session} (h : s.db.fill_status = none) :
    s.load_fill_status = s.wipe_cache := by
  have hv : (write_session.view s.wipe_cache.write_session s.wipe_cache.db).fill_status =
      none := by
    simp [wipe_cache, write_session.view, h]
  unfold load_fill_status
  simp only [hv]

/-- C15, the claim as stated fails: a session with head 10 and irreversible 12 (the
reported last-irreversible block ahead of the head) reads back irreversible 10 and the
head's id after a checkpoint flush: the write-then-load pair changes two of its fields. -/
theorem checkpoint_reload_clamps_irreversible :
    (({ head := 10, head_id := 1, irreversible := 12, irreversible_id := 2 } :
      fill_rdb_session).end_write true).load_fill_status.irreversible = 10 ∧
    (({ head := 10, head_id := 1, irreversible := 12, irreversible_id := 2 } :
      fill_rdb_session).end_write true).load_fill_status.irreversible_id = 1 := by
  decide

/-- C15 (amended): for every session state, a checkpoint flush (`end_write(true)`)
followed at once by `load_fill_status` yields the `chain_id`, `head`, `head_id` and
`first` that the session held, and the `irreversible` and `irreversible_id` that it held
when `irreversible < head`, otherwise `head` and `head_id`: the values that the flush
persisted. -/
theorem checkpoint_then_load (s : fill_rdb_session) :
    ((s.end_write true).load_fill_status).chain_id = s.chain_id ∧
    ((s.end_write true).load_fill_status).head = s.head ∧
    ((s.end_write true).load_fill_status).head_id = s.head_id ∧
    ((s.end_write true).load_fill_status).first = s.first ∧
    ((s.end_write true).load_fill_status).irreversible =
      (if s.irreversible < s.head then s.irreversible else s.head) ∧
    ((s.end_write true).load_fill_status).irreversible_id =
      (if s.irreversible < s.head then s.irreversible_id else s.head_id) ∧
    (s.end_write true).db.fill_status =
      some
        { chain_id := ((s.end_write true).load_fill_status).chain_id,
          head := ((s.end_write true).load_fill_status).head,
          head_id := ((s.end_write true).load_fill_status).head_id,
          irreversible := ((s.end_write true).load_fill_status).irreversible,
          irreversible_id := ((s.end_write true).load_fill_status).irreversible_id,
          first := ((s.end_write true).load_fill_status).first } := by
  obtain ⟨h1, _⟩ := end_write_status s
  rw [load_fill_status_some h1, h1]
  by_cases h : s.irreversible < s.head
  · simp [h]
  · simp [h]

/-- Supporting fact for C16: `load_fill_status` assigns the fields only when a record is
present. In a state with head 7 over a store without a Fill-Status record, which no
session is in when it calls `load_fill_status`, the head is still 7 afterwards. -/
theorem load_fill_status_keeps_fields_without_record :
    ({ head := 7, head_id := 3 } : fill_rdb_session).db.fill_status = none ∧
    ({ head := 7, head_id := 3 } : fill_rdb_session).load_fill_status.head = 7 ∧
    ({ head := 7, head_id := 3 } : fill_rdb_session).load_fill_status.head_id = 3 := by
  decide

/-- Supporting fact for C16: after `load_fill_status`, the session's `chain_id`, `head`,
`head_id`, `irreversible`, `irreversible_id` and `first` equal the fields of the
persisted Fill-Status record when one is present in the store, for every prior session
state; when none is present the six fields are left as they were, which is all zero for
a freshly constructed session. -/
theorem load_fill_status_fields (s : fill_rdb_session) :
    (∀ st, s.db.fill_status = some st →
      s.load_fill_status.chain_id = st.chain_id ∧ s.load_fill_status.head = st.head ∧
      s.load_fill_status.head_id = st.head_id ∧
      s.load_fill_status.irreversible = st.irreversible ∧
      s.load_fill_status.irreversible_id = st.irreversible_id ∧
      s.load_fill_status.first = st.first) ∧
    (s.db.fill_status = none →
      s.load_fill_status.chain_id = s.chain_id ∧ s.load_fill_status.head = s.head ∧
      s.load_fill_status.head_id = s.head_id ∧
      s.load_fill_status.irreversible = s.irreversible ∧
      s.load_fill_status.irreversible_id = s.irreversible_id ∧
      s.load_fill_status.first = s.first) ∧
    (({} : fill_rdb_session).load_fill_status.chain_id = 0 ∧
      ({} : fill_rdb_session).load_fill_status.head = 0 ∧
      ({} : fill_rdb_session).load_fill_status.head_id = 0 ∧
      ({} : fill_rdb_session).load_fill_status.irreversible = 0 ∧
      ({} : fill_rdb_session).load_fill_status.irreversible_id = 0 ∧
      ({} : fill_rdb_session).load_fill_status.first = 0) := by
  refine ⟨?_, ?_, by decide⟩
  · intro st h
    rw [load_fill_status_some h]
    exact ⟨rfl, rfl, rfl, rfl, rfl, rfl⟩
  · intro h
    rw [load_fill_status_none h]
    exact ⟨rfl, rfl, rfl, rfl, rfl, rfl⟩

/-- C18: when `stop_before` is configured and a block-result has
`block_num >= stop_before`, `received` persists Fill-Status, commits the write session,
flushes the store and returns `false` without an error, whatever the relation between
`block_num` and `head`; the block is not applied: `head`, `head_id`, `irreversible`,
`irreversible_id`, `first` and the undo stack are unchanged and no `undo()` is made. -/
theorem received_stop (s : fill_rdb_session) (result : get_blocks_result_v0)
    (this_block : block_position) (hthis : result.this_block = some this_block)
    (hconf : s.config.stop_before ≠ 0) (hnum : this_block.block_num ≥ s.config.stop_before) :
    (received s result).1 = .ok false ∧
    (received s result).2.events =
      s.events ++ [.write_fill_status, .write_changes, .flush] ∧
    (received s result).2.db.fill_status ≠ none ∧
    (received s result).2.write_session.cache = [] ∧
    (received s result).2.head = s.head ∧ (received s result).2.head_id = s.head_id ∧
    (received s result).2.irreversible = s.irreversible ∧
    (received s result).2.irreversible_id = s.irreversible_id ∧
    (received s result).2.first = s.first ∧
    (received s result).2.undo_stack = s.undo_stack := by
  have h : received s result = (.ok false, (s.end_write true).flush) := by
    rw [received_steps, hthis]
    simp only []
    rw [if_pos ⟨hconf, hnum⟩]
  obtain ⟨h1, h2⟩ := end_write_status s
  rw [h]
  refine ⟨rfl, ?_, ?_, h2, rfl, rfl, rfl, rfl, rfl, rfl⟩
  · simp [flush, end_write, write_changes, write_fill_status]
  · show (s.end_write true).db.fill_status ≠ none
    rw [h1]; simp

/-- Witness of C18: stop before block 4, head 9, block 7 arrives. -/
theorem received_stop_witness :
    (received { config := { stop_before := 4 }, head := 9 } { this_block := some ⟨7, 1⟩ }).1 =
      .ok false ∧
    (received { config := { stop_before := 4 }, head := 9 } { this_block := some ⟨7, 1⟩ }).2.head
      = 9 :=
  ⟨(received_stop { config := { stop_before := 4 }, head := 9 } { this_block := some ⟨7, 1⟩ }
      ⟨7, 1⟩ rfl (by decide) (by decide)).1,
    (received_stop { config := { stop_before := 4 }, head := 9 } { this_block := some ⟨7, 1⟩ }
      ⟨7, 1⟩ rfl (by decide) (by decide)).2.2.2.2.1⟩

/-! ## The fork-switch and continuity checks -/

theorem undo_loop_error (s : fill_rdb_session) (block_num fuel : Nat) (e : session_error)
    (h : (undo_loop s block_num fuel).1 = .error e) : e = .nothing_to_undo := by
  induction fuel generalizing s with
  | zero => simp [undo_loop] at h
  | succ fuel ih =>
    unfold undo_loop at h
    split_ifs at h with hrev
    · cases hu : s.undo_stack.undo with
      | none =>
        rw [hu] at h
        simp only [Except.error.injEq] at h
        exact h.symm
      | some p =>
        obtain ⟨db, u⟩ := p
        rw [hu] at h
        exact ih _ h

theorem switch_forks_error (s : fill_rdb_session) (block_num : Nat) (e : session_error)
    (hfirst : ¬ s.undo_stack.first_revision ≥ (block_num : Int))
    (h : (switch_forks s block_num).1 = .error e) : e = .nothing_to_undo := by
  unfold switch_forks at h
  rw [if_neg hfirst] at h
  simp only [] at h
  rcases hl : undo_loop s.wipe_cache block_num
      (s.wipe_cache.undo_stack.revision - block_num + 1).toNat with ⟨r, s2⟩
  rw [hl] at h
  cases r with
  | error e' =>
    simp only [Except.error.injEq] at h
    subst h
    exact undo_loop_error _ _ _ _ (by rw [hl])
  | ok u => simp at h

/-- Supporting fact for C12: while `head + 1` does not wrap, a block-result with
`block_num <= head` that is not caught by the stop condition makes `received` fail with
the unrecoverable-fork error iff `first_revision() >= block_num`, and then the session
is unchanged: no `undo()`, no wiped cache, nothing written. -/
theorem received_unrecoverable_fork_iff (s : fill_rdb_session) (result : get_blocks_result_v0)
    (this_block : block_position) (hthis : result.this_block = some this_block)
    (hstop : ¬ (s.config.stop_before ≠ 0 ∧ this_block.block_num ≥ s.config.stop_before))
    (hle : this_block.block_num ≤ s.head) (hhead : s.head + 1 < 4294967296) :
    ((∃ n, (received s result).1 = .error (.cannot_switch_forks n)) ↔
      s.undo_stack.first_revision ≥ (this_block.block_num : Int)) ∧
    (s.undo_stack.first_revision ≥ (this_block.block_num : Int) →
      received s result =
        (.error (.cannot_switch_forks ((this_block.block_num + 4294967295) % 4294967296)), s)) := by
  have hmod : (s.head + 1) % 4294967296 = s.head + 1 := Nat.mod_eq_of_lt hhead
  have hgap : ¬ (s.head ≠ 0 ∧ this_block.block_num > (s.head + 1) % 4294967296) := by
    rw [hmod]; omega
  have hrec := received_steps s result
  rw [hthis] at hrec
  simp only [] at hrec
  rw [if_neg hstop, if_neg hgap, if_pos hle] at hrec
  have hyes : s.undo_stack.first_revision ≥ (this_block.block_num : Int) →
      received s result =
        (.error (.cannot_switch_forks ((this_block.block_num + 4294967295) % 4294967296)), s) := by
    intro hfirst
    rw [hrec]
    unfold switch_forks
    rw [if_pos hfirst]
  refine ⟨⟨?_, fun hfirst => ⟨_, by rw [hyes hfirst]⟩⟩, hyes⟩
  rintro ⟨n, hn⟩
  by_contra hfirst
  rw [hrec] at hn
  rcases hs : switch_forks s this_block.block_num with ⟨r, s1⟩
  rw [hs] at hn
  cases r with
  | error e =>
    simp only [Except.error.injEq] at hn
    have := switch_forks_error s this_block.block_num e hfirst (by rw [hs])
    rw [this] at hn
    cases hn
  | ok u =>
    simp only [] at hn
    split_ifs at hn
    simp at hn

/-- C12, evaluated at the failing input: a session that applied block 4294967295 (as an
irreversible block) has head 4294967295 and retains no revision below it; the
block-result for block 5 is a fork switch that the undo stack cannot serve
(`first_revision() >= 5`), and `received` does not raise the unrecoverable-fork error:
it raises the missing-block error for block 0, because `head + 1` wraps. -/
theorem received_fork_at_last_block_number :
    (received (connect {})
      { this_block := some ⟨4294967295, 1⟩, last_irreversible := ⟨4294967295, 1⟩ }).1 = .ok true ∧
    (received (connect {})
      { this_block := some ⟨4294967295, 1⟩, last_irreversible := ⟨4294967295, 1⟩ }).2.head
        = 4294967295 ∧
    (received (connect {})
      { this_block := some ⟨4294967295, 1⟩,
        last_irreversible := ⟨4294967295, 1⟩ }).2.undo_stack.first_revision ≥ 5 ∧
    (received
      (received (connect {})
        { this_block := some ⟨4294967295, 1⟩, last_irreversible := ⟨4294967295, 1⟩ }).2
      { this_block := some ⟨5, 2⟩ }).1 = .error (.missing_block 0) := by
  decide

/-- C13: for every block-result that passes the stop, gap and fork-switch steps, leaving
the session `s1`, `received` fails with the prev-block-mismatch error iff `s1.head_id` is
set and the result carries no `prev_block` or one whose id differs from it; with an
unset `head_id` the block is applied; and when the check fails the session is `s1`
(with `reported_block` set): nothing is committed, pushed or written for the block. -/
theorem received_continuity_check (s s1 : fill_rdb_session) (result : get_blocks_result_v0)
    (this_block : block_position) (hthis : result.this_block = some this_block)
    (hstop : ¬ (s.config.stop_before ≠ 0 ∧ this_block.block_num ≥ s.config.stop_before))
    (hgap : ¬ (s.head ≠ 0 ∧ this_block.block_num > (s.head + 1) % 4294967296))
    (hswitch : (if this_block.block_num ≤ s.head then switch_forks s this_block.block_num
      else (.ok (), s)) = (.ok (), s1)) :
    ((received s result).1 = .error .prev_block_does_not_match ↔
      s1.head_id ≠ 0 ∧
        (result.prev_block = none ∨
          ∃ prev_block, result.prev_block = some prev_block ∧
            prev_block.block_id ≠ s1.head_id)) ∧
    (s1.head_id = 0 → (received s result).1 = .ok true) ∧
    ((received s result).1 = .error .prev_block_does_not_match →
      (received s result).2 = { s1 with reported_block := true }) ∧
    ((received s result).1 ≠ .error .prev_block_does_not_match →
      received s result = (.ok true, finish_block { s1 with reported_block := true } result
        this_block)) := by
  have hrec := received_steps s result
  rw [hthis] at hrec
  simp only [] at hrec
  rw [if_neg hstop, if_neg hgap, hswitch] at hrec
  simp only [] at hrec
  have hm : ((match result.prev_block with
      | none => true
      | some prev_block => decide (prev_block.block_id ≠ s1.head_id)) = true) ↔
      (result.prev_block = none ∨
        ∃ prev_block, result.prev_block = some prev_block ∧
          prev_block.block_id ≠ s1.head_id) := by
    cases result.prev_block with
    | none => simp
    | some pb => simp
  rw [hrec]
  by_cases hc : s1.head_id ≠ 0 ∧
      (match result.prev_block with
        | none => true
        | some prev_block => decide (prev_block.block_id ≠ s1.head_id)) = true
  · rw [if_pos hc]
    refine ⟨⟨fun _ => ⟨hc.1, hm.mp hc.2⟩, fun _ => rfl⟩, fun h0 => absurd h0 hc.1,
      fun _ => rfl, fun h => absurd rfl h⟩
  · rw [if_neg hc]
    refine ⟨⟨fun h => by simp at h, fun h => absurd ⟨h.1, hm.mpr h.2⟩ hc⟩, fun _ => rfl,
      fun h => by simp at h, fun _ => rfl⟩

/-- Witness of C13: head 3 with id 13 and three revisions; block 4 arrives on top of a
block with id 99. -/
theorem received_continuity_check_witness :
    (received { head := 3, head_id := 13, undo_stack := { revision := 3 } }
      { this_block := some ⟨4, 14⟩, prev_block := some ⟨3, 99⟩ }).1 =
        .error .prev_block_does_not_match ↔
      (13 : Nat) ≠ 0 ∧
        ((some ⟨3, 99⟩ : Option block_position) = none ∨
          ∃ prev_block, (some ⟨3, 99⟩ : Option block_position) = some prev_block ∧
            prev_block.block_id ≠ 13) :=
  (received_continuity_check { head := 3, head_id := 13, undo_stack := { revision := 3 } }
    { head := 3, head_id := 13, undo_stack := { revision := 3 } }
    { this_block := some ⟨4, 14⟩, prev_block := some ⟨3, 99⟩ } ⟨4, 14⟩ rfl (by decide)
    (by decide) (by decide)).1

/-! ## The rollback loop -/

theorem undo_loop_pops (pre post : List kv_state) (s : fill_rdb_session) (block_num fuel : Nat)
    (hframes : s.undo_stack.frames = pre ++ post)
    (hle : (pre.length : Int) ≤ s.undo_stack.revision - block_num + 1)
    (hfuel : pre.length ≤ fuel)
    (hend : fuel = pre.length ∨ (pre.length : Int) = s.undo_stack.revision - block_num + 1) :
    undo_loop s block_num fuel =
      (.ok (),
        { s with
          db := pre.getLast?.getD s.db
          undo_stack := { revision := s.undo_stack.revision - pre.length, frames := post }
          events := s.events ++ List.replicate pre.length .undo }) := by
  induction pre generalizing s fuel with
  | nil =>
    have hs : s = { s with
        db := s.db
        undo_stack := { revision := s.undo_stack.revision, frames := post }
        events := s.events ++ [] } := by
      obtain ⟨cfg, db, u, ws, a, b, c, d, e, f, g, ev⟩ := s
      obtain ⟨rev, fr⟩ := u
      simp only [List.nil_append] at hframes
      subst hframes
      simp
    simp only [List.length_nil, Nat.cast_zero] at hend
    simp only [List.length_nil, List.getLast?_nil, Option.getD_none, List.replicate_zero,
      Nat.cast_zero, sub_zero]
    cases fuel with
    | zero => rw [undo_loop]; rw [← hs]
    | succ fuel =>
      have hrev : ¬ s.undo_stack.revision ≥ (block_num : Int) := by
        rcases hend with h | h
        · omega
        · omega
      rw [undo_loop, if_neg hrev, ← hs]
  | cons d pre ih =>
    simp only [List.length_cons, Nat.cast_add, Nat.cast_one] at hle hfuel hend
    cases fuel with
    | zero => omega
    | succ fuel =>
      have hrev : s.undo_stack.revision ≥ (block_num : Int) := by omega
      have hu : s.undo_stack.undo =
          some (d, { revision := s.undo_stack.revision - 1, frames := pre ++ post }) := by
        unfold undo_stack.undo
        rw [hframes]
        rfl
      rw [undo_loop, if_pos hrev, hu]
      simp only []
      rw [ih _ fuel rfl (by simp only []; omega) (by omega)
        (by rcases hend with h | h
            · left; omega
            · right; simp only []; omega)]
      have hl : (d :: pre).getLast?.getD s.db = pre.getLast?.getD d := by
        cases pre with
        | nil => rfl
        | cons x xs =>
          obtain ⟨y, hy⟩ : ∃ y, (x :: xs).getLast? = some y :=
            ⟨_, List.getLast?_eq_getLast _ (by simp)⟩
          rw [List.getLast?_cons_cons, hy]
          rfl
      simp only [hl, List.length_cons, List.replicate_succ, List.append_assoc,
        List.singleton_append, Nat.cast_add, Nat.cast_one]
      congr 2
      congr 1
      omega

theorem load_fill_status_keeps (s : fill_rdb_session) :
    s.load_fill_status.events = s.events ++ [.wipe_cache] ∧
    s.load_fill_status.db = s.db ∧ s.load_fill_status.undo_stack = s.undo_stack ∧
    s.load_fill_status.write_session.cache = [] ∧ s.load_fill_status.config = s.config := by
  cases h : s.db.fill_status with
  | none => rw [load_fill_status_none h]; exact ⟨rfl, rfl, rfl, rfl, rfl⟩
  | some st => rw [load_fill_status_some h]; exact ⟨rfl, rfl, rfl, rfl, rfl⟩

theorem switch_forks_rolls_back (s : fill_rdb_session) (block_num : Nat)
    (hfirst : s.undo_stack.first_revision < (block_num : Int))
    (hrev : (block_num : Int) ≤ s.undo_stack.revision) :
    switch_forks s block_num =
      (.ok (),
        { ({ s.wipe_cache with
              db := (s.undo_stack.frames.take
                (s.undo_stack.revision - block_num + 1).toNat).getLast?.getD s.db
              undo_stack :=
                { revision := s.undo_stack.revision -
                    ((s.undo_stack.frames.take
                      (s.undo_stack.revision - block_num + 1).toNat).length : Nat)
                  frames := s.undo_stack.frames.drop
                    (s.undo_stack.revision - block_num + 1).toNat }
              events := s.wipe_cache.events ++
                List.replicate (s.undo_stack.frames.take
                  (s.undo_stack.revision - block_num + 1).toNat).length .undo } :
            fill_rdb_session).load_fill_status with reported_block := false }) := by
  have hf : (s.undo_stack.revision - block_num + 1).toNat ≤ s.undo_stack.frames.length := by
    unfold undo_stack.first_revision at hfirst
    omega
  have hlen : (s.undo_stack.frames.take (s.undo_stack.revision - block_num + 1).toNat).length =
      (s.undo_stack.revision - block_num + 1).toNat := by
    rw [List.length_take]; omega
  have hloop := undo_loop_pops
    (s.undo_stack.frames.take (s.undo_stack.revision - block_num + 1).toNat)
    (s.undo_stack.frames.drop (s.undo_stack.revision - block_num + 1).toNat)
    s.wipe_cache block_num (s.wipe_cache.undo_stack.revision - block_num + 1).toNat
    (List.take_append_drop _ _).symm
    (by rw [hlen]; show _ ≤ s.undo_stack.revision - block_num + 1; omega)
    (by rw [hlen]; exact le_refl _)
    (Or.inl (by rw [hlen]; rfl))
  unfold switch_forks
  rw [if_neg (by omega)]
  simp only []
  rw [hloop]
  rfl

/-- C20: on a fork switch with `first_revision() < block_num <= revision()` the rollback
loop ends, for every sufficient fuel, after exactly `revision() - block_num + 1` calls of
`undo()` and leaves `revision() = block_num - 1`; each call is made in a state with
`revision() > first_revision()` and a non-empty undo stack; within `received` the
fork-switch step makes exactly these calls, between its two `wipe_cache()`. -/
theorem rollback_loop (s : fill_rdb_session) (block_num : Nat)
    (hfirst : s.undo_stack.first_revision < (block_num : Int))
    (hrev : (block_num : Int) ≤ s.undo_stack.revision) :
    (∀ fuel, (s.undo_stack.revision - block_num + 1).toNat ≤ fuel →
      ∃ s', undo_loop s block_num fuel = (.ok (), s') ∧
        s'.events = s.events ++
          List.replicate (s.undo_stack.revision - block_num + 1).toNat .undo ∧
        s'.undo_stack.revision = block_num - 1 ∧
        s'.undo_stack.first_revision = s.undo_stack.first_revision) ∧
    (∀ t, t < (s.undo_stack.revision - block_num + 1).toNat →
      ∃ st, undo_loop s block_num t = (.ok (), st) ∧
        st.events = s.events ++ List.replicate t .undo ∧
        st.undo_stack.first_revision < st.undo_stack.revision ∧
        st.undo_stack.frames ≠ []) ∧
    (switch_forks s block_num).1 = .ok () ∧
    (switch_forks s block_num).2.events =
      s.events ++ [.wipe_cache] ++
        List.replicate (s.undo_stack.revision - block_num + 1).toNat .undo ++ [.wipe_cache] ∧
    (switch_forks s block_num).2.undo_stack.revision = block_num - 1 := by
  have hf : (s.undo_stack.revision - block_num + 1).toNat ≤ s.undo_stack.frames.length := by
    unfold undo_stack.first_revision at hfirst
    omega
  have hlen : ∀ t, t ≤ (s.undo_stack.revision - block_num + 1).toNat →
      (s.undo_stack.frames.take t).length = t := by
    intro t ht
    rw [List.length_take]; omega
  refine ⟨?_, ?_, ?_, ?_, ?_⟩
  · intro fuel hfuel
    have hl := hlen _ (le_refl _)
    have hloop := undo_loop_pops
      (s.undo_stack.frames.take (s.undo_stack.revision - block_num + 1).toNat)
      (s.undo_stack.frames.drop (s.undo_stack.revision - block_num + 1).toNat)
      s block_num fuel (List.take_append_drop _ _).symm
      (by rw [hl]; omega) (by rw [hl]; exact hfuel) (Or.inr (by rw [hl]; omega))
    refine ⟨_, hloop, ?_, ?_, ?_⟩
    · simp only [hl]
    · simp only [hl]; omega
    · simp only [undo_stack.first_revision, hl, List.length_drop]; omega
  · intro t ht
    have hl := hlen t (le_of_lt ht)
    have hloop := undo_loop_pops (s.undo_stack.frames.take t) (s.undo_stack.frames.drop t)
      s block_num t (List.take_append_drop _ _).symm
      (by rw [hl]; omega) (by rw [hl]) (Or.inl hl.symm)
    refine ⟨_, hloop, ?_, ?_, ?_⟩
    · simp only [hl]
    · simp only [undo_stack.first_revision, hl, List.length_drop]; omega
    · simp only []
      intro hnil
      have := congrArg List.length hnil
      simp only [List.length_drop, List.length_nil] at this
      omega
  · rw [switch_forks_rolls_back s block_num hfirst hrev]
  · rw [switch_forks_rolls_back s block_num hfirst hrev]
    simp only [(load_fill_status_keeps _).1, hlen _ (le_refl _), wipe_cache]
  · rw [switch_forks_rolls_back s block_num hfirst hrev]
    simp only [(load_fill_status_keeps _).2.2.1, hlen _ (le_refl _)]
    omega

/-- Witness of C20: after the blocks 1, 2 and 3, each opening a revision, the
block-result for block 2 makes exactly two `undo()` calls. -/
theorem rollback_loop_witness :
    three_block_session.undo_stack.first_revision < 2 ∧
    (2 : Int) ≤ three_block_session.undo_stack.revision ∧
    (switch_forks three_block_session 2).2.events =
      three_block_session.events ++ [.wipe_cache] ++
        List.replicate (three_block_session.undo_stack.revision - (2 : Nat) + 1).toNat .undo ++
        [.wipe_cache] ∧
    (three_block_session.undo_stack.revision - (2 : Nat) + 1).toNat = 2 ∧
    (handling_events three_block_session (reversible_block 2 22 11)).count .undo = 2 :=
  ⟨by decide, by decide,
    (rollback_loop three_block_session 2 (by decide) (by decide)).2.2.2.1, by decide, by decide⟩

/-! ## Events of a handling -/

theorem finish_block_eq (s2 : fill_rdb_session) (result : get_blocks_result_v0)
    (this_block : block_position) :
    finish_block s2 result this_block =
      if (this_block.block_num + 4) % 4294967296 ≥ result.last_irreversible.block_num then
        ((block_applied s2 result this_block).end_write true).flush
      else if this_block.block_num % 200 = 0 then
        (block_applied s2 result this_block).end_write true
      else block_applied s2 result this_block := by
  unfold finish_block block_applied
  by_cases hn : (this_block.block_num + 4) % 4294967296 ≥ result.last_irreversible.block_num
  · simp [hn]
  · by_cases hm : this_block.block_num % 200 = 0
    · simp [hn, hm]
    · simp [hn, hm]

theorem adds_no_flush_refl (s : fill_rdb_session) : adds_no_flush s s :=
  ⟨[], by simp, by simp⟩

theorem adds_no_flush_trans {a b c : fill_rdb_session} (h1 : adds_no_flush a b)
    (h2 : adds_no_flush b c) : adds_no_flush a c := by
  obtain ⟨e1, h1, n1⟩ := h1
  obtain ⟨e2, h2, n2⟩ := h2
  refine ⟨e1 ++ e2, by rw [h2, h1, List.append_assoc], ?_⟩
  simp only [List.mem_append, not_or]
  exact ⟨n1, n2⟩

theorem adds_no_flush_of_events {s s' : fill_rdb_session} (h : s'.events = s.events) :
    adds_no_flush s s' :=
  ⟨[], by simp [h], by simp⟩

theorem adds_no_flush_write_changes (s : fill_rdb_session) : adds_no_flush s s.write_changes :=
  ⟨[.write_changes], rfl, by simp⟩

theorem adds_no_flush_end_write (s : fill_rdb_session) (b : Bool) :
    adds_no_flush s (s.end_write b) := by
  cases b with
  | false => exact ⟨[.write_changes], rfl, by simp⟩
  | true =>
    exact ⟨[.write_fill_status, .write_changes], by simp [end_write, write_changes,
      write_fill_status], by simp⟩

theorem adds_no_flush_store_delta (name total : Nat) (rows : List delta_row)
    (s : fill_rdb_session) (n : Nat) : adds_no_flush s (store_delta s name total rows n) := by
  induction rows generalizing s n with
  | nil => exact adds_no_flush_refl s
  | cons row rows ih =>
    have h1 : adds_no_flush s
        (if total > 10000 ∧ n % 10000 = 0 ∧ s.head = 0 then s.end_write false else s) := by
      split_ifs
      · exact adds_no_flush_end_write s false
      · exact adds_no_flush_refl s
    unfold store_delta
    simp only []
    exact adds_no_flush_trans (adds_no_flush_trans h1 (adds_no_flush_of_events rfl)) (ih _ _)

theorem adds_no_flush_receive_deltas (deltas : List table_delta_v0) (s : fill_rdb_session) :
    adds_no_flush s (s.receive_deltas deltas) := by
  induction deltas generalizing s with
  | nil => exact adds_no_flush_refl s
  | cons delta deltas ih =>
    unfold receive_deltas
    exact adds_no_flush_trans (adds_no_flush_store_delta _ _ _ _ _) (ih _)

theorem adds_no_flush_bookkeeping (s : fill_rdb_session) (result : get_blocks_result_v0)
    (this_block : block_position) : adds_no_flush s (bookkeeping s result this_block) := by
  unfold bookkeeping
  simp only []
  split_ifs
  · exact ⟨_, rfl, by simp⟩
  · exact adds_no_flush_trans (adds_no_flush_end_write s false) ⟨_, rfl, by simp⟩

theorem adds_no_flush_block_applied (s : fill_rdb_session) (result : get_blocks_result_v0)
    (this_block : block_position) : adds_no_flush s (block_applied s result this_block) := by
  have h3 := adds_no_flush_bookkeeping s result this_block
  have h4 : adds_no_flush s
      (match result.block with
        | some block =>
          (bookkeeping s result this_block).receive_block this_block.block_num
            this_block.block_id block
        | none => bookkeeping s result this_block) := by
    cases result.block with
    | none => exact h3
    | some block => exact adds_no_flush_trans h3 (adds_no_flush_of_events rfl)
  have h5 : adds_no_flush s
      (match result.deltas with
        | some deltas =>
          (match result.block with
            | some block =>
              (bookkeeping s result this_block).receive_block this_block.block_num
                this_block.block_id block
            | none => bookkeeping s result this_block).receive_deltas deltas
        | none =>
          match result.block with
          | some block =>
            (bookkeeping s result this_block).receive_block this_block.block_num
              this_block.block_id block
          | none => bookkeeping s result this_block) := by
    cases result.deltas with
    | none => exact h4
    | some deltas => exact adds_no_flush_trans h4 (adds_no_flush_receive_deltas _ _)
  unfold block_applied
  simp only []
  split_ifs
  · exact adds_no_flush_trans h5 (adds_no_flush_of_events rfl)
  · exact adds_no_flush_trans h5 (adds_no_flush_of_events rfl)

theorem adds_no_flush_undo_loop (block_num fuel : Nat) (s : fill_rdb_session) :
    adds_no_flush s (undo_loop s block_num fuel).2 := by
  induction fuel generalizing s with
  | zero => exact adds_no_flush_refl s
  | succ fuel ih =>
    unfold undo_loop
    split_ifs
    · split
      · exact adds_no_flush_refl s
      · exact adds_no_flush_trans ⟨[.undo], rfl, by simp⟩ (ih _)
    · exact adds_no_flush_refl s

theorem adds_no_flush_switch_forks (s : fill_rdb_session) (block_num : Nat) :
    adds_no_flush s (switch_forks s block_num).2 := by
  unfold switch_forks
  split_ifs
  · exact adds_no_flush_refl s
  · simp only []
    have h1 : adds_no_flush s s.wipe_cache := ⟨[.wipe_cache], rfl, by simp⟩
    have h2 := adds_no_flush_undo_loop block_num
      (s.wipe_cache.undo_stack.revision - block_num + 1).toNat s.wipe_cache
    rcases hl : undo_loop s.wipe_cache block_num
        (s.wipe_cache.undo_stack.revision - block_num + 1).toNat with ⟨r, s2⟩
    rw [hl] at h2
    cases r with
    | error e => exact adds_no_flush_trans h1 h2
    | ok u =>
      refine adds_no_flush_trans h1 (adds_no_flush_trans h2 ?_)
      exact ⟨[.wipe_cache], (load_fill_status_keeps s2).1, by simp⟩

theorem end_write_true_events (s : fill_rdb_session) :
    (s.end_write true).events = s.events ++ [.write_fill_status, .write_changes] ∧
    ((s.end_write true).flush).events =
      s.events ++ [.write_fill_status, .write_changes, .flush] := by
  simp [end_write, write_changes, write_fill_status, flush]

theorem finish_block_events (s2 : fill_rdb_session) (result : get_blocks_result_v0)
    (this_block : block_position) :
    ∃ pre, session_event.flush ∉ pre ∧
      (finish_block s2 result this_block).events =
        s2.events ++ pre ++
          (if (this_block.block_num + 4) % 4294967296 ≥ result.last_irreversible.block_num then
            [.write_fill_status, .write_changes, .flush]
          else if this_block.block_num % 200 = 0 then [.write_fill_status, .write_changes]
          else []) := by
  obtain ⟨pre, hpre, hno⟩ := adds_no_flush_block_applied s2 result this_block
  refine ⟨pre, hno, ?_⟩
  rw [finish_block_eq]
  split_ifs
  · rw [(end_write_true_events _).2, hpre]
  · rw [(end_write_true_events _).1, hpre]
  · rw [hpre]; simp

theorem received_events (s : fill_rdb_session) (result : get_blocks_result_v0) :
    ∃ pre, session_event.flush ∉ pre ∧
      match result.this_block with
      | none => (received s result).2.events = s.events ++ pre
      | some this_block =>
        if s.config.stop_before ≠ 0 ∧ this_block.block_num ≥ s.config.stop_before then
          pre = [] ∧ (received s result).2.events =
            s.events ++ [.write_fill_status, .write_changes, .flush]
        else
          ((received s result).1 ≠ .ok true ∧ (received s result).2.events = s.events ++ pre) ∨
          ((received s result).1 = .ok true ∧
            (received s result).2.events =
              s.events ++ pre ++
                (if (this_block.block_num + 4) % 4294967296 ≥
                    result.last_irreversible.block_num then
                  [.write_fill_status, .write_changes, .flush]
                else if this_block.block_num % 200 = 0 then
                  [.write_fill_status, .write_changes]
                else [])) := by
  have hrec := received_steps s result
  cases hthis : result.this_block with
  | none =>
    rw [hthis] at hrec
    simp only [] at hrec
    exact ⟨[], by simp, by rw [hrec]; simp⟩
  | some this_block =>
    rw [hthis] at hrec
    simp only [] at hrec ⊢
    by_cases hstop : s.config.stop_before ≠ 0 ∧ this_block.block_num ≥ s.config.stop_before
    · rw [if_pos hstop] at hrec
      simp only [if_pos hstop]
      rw [hrec]
      exact ⟨[], by simp, rfl, (end_write_true_events s).2⟩
    rw [if_neg hstop] at hrec
    simp only [if_neg hstop]
    by_cases hgap : s.head ≠ 0 ∧ this_block.block_num > (s.head + 1) % 4294967296
    · rw [if_pos hgap] at hrec
      rw [hrec]
      exact ⟨[], by simp, Or.inl ⟨by simp, by simp⟩⟩
    rw [if_neg hgap] at hrec
    have hsw : adds_no_flush s
        (if this_block.block_num ≤ s.head then switch_forks s this_block.block_num
          else (Except.ok (), s)).2 := by
      split_ifs
      · exact adds_no_flush_switch_forks s _
      · exact adds_no_flush_refl s
    rcases hs : (if this_block.block_num ≤ s.head then switch_forks s this_block.block_num
        else (Except.ok (), s)) with ⟨r, s1⟩
    rw [hs] at hrec hsw
    obtain ⟨ev1, hev1, hno1⟩ := hsw
    simp only [] at hev1
    cases r with
    | error e =>
      simp only [] at hrec
      rw [hrec]
      exact ⟨ev1, hno1, Or.inl ⟨by simp, hev1⟩⟩
    | ok u =>
      simp only [] at hrec
      by_cases hm : s1.head_id ≠ 0 ∧
          (match result.prev_block with
            | none => true
            | some prev_block => decide (prev_block.block_id ≠ s1.head_id)) = true
      · rw [if_pos hm] at hrec
        rw [hrec]
        exact ⟨ev1, hno1, Or.inl ⟨by simp, hev1⟩⟩
      · rw [if_neg hm] at hrec
        rw [hrec]
        obtain ⟨ev2, hno2, hev2⟩ :=
          finish_block_events { s1 with reported_block := true } result this_block
        refine ⟨ev1 ++ ev2, ?_, Or.inr ⟨rfl, ?_⟩⟩
        · simp only [List.mem_append, not_or]; exact ⟨hno1, hno2⟩
        · simp only []
          rw [hev2]
          simp only []
          rw [hev1]
          simp only [List.append_assoc]

/-- C17: in every handling of a block-result by `received`, the durable flush is made
only if the stop condition holds or the block is near-head
(`block_num + 4 >= last_irreversible.block_num`), it is made at most once, as the last
action, and Fill-Status has been persisted and the write session committed right before
it; conversely an applied block whose number is a multiple of 200 and that is not
near-head is checkpointed as the last action, without a durable flush. -/
theorem flush_only_after_checkpoint (s : fill_rdb_session) (result : get_blocks_result_v0) :
    (received s result).2.events = s.events ++ handling_events s result ∧
    (session_event.flush ∈ handling_events s result →
      ∃ this_block, result.this_block = some this_block ∧
        ((s.config.stop_before ≠ 0 ∧ this_block.block_num ≥ s.config.stop_before) ∨
          this_block.block_num + 4 ≥ result.last_irreversible.block_num) ∧
        ∃ pre, handling_events s result =
          pre ++ [.write_fill_status, .write_changes, .flush] ∧ session_event.flush ∉ pre) ∧
    (∀ this_block, result.this_block = some this_block →
      ¬ (s.config.stop_before ≠ 0 ∧ this_block.block_num ≥ s.config.stop_before) →
      this_block.block_num % 200 = 0 →
      this_block.block_num + 4 < result.last_irreversible.block_num →
      (received s result).1 = .ok true →
      (∃ pre, handling_events s result = pre ++ [.write_fill_status, .write_changes]) ∧
        session_event.flush ∉ handling_events s result) := by
  obtain ⟨pre, hno, hcase⟩ := received_events s result
  have hdrop : ∀ ev, (received s result).2.events = s.events ++ ev →
      handling_events s result = ev := by
    intro ev h
    unfold handling_events
    rw [h, List.drop_left]
  have hmodle : ∀ n : Nat, n % 4294967296 ≤ n := fun n => Nat.mod_le _ _
  cases hthis : result.this_block with
  | none =>
    rw [hthis] at hcase
    simp only [] at hcase
    have hh := hdrop _ hcase
    refine ⟨by rw [hh]; exact hcase, ?_, ?_⟩
    · intro hf; rw [hh] at hf; exact absurd hf hno
    · intro tb htb; cases htb
  | some this_block =>
    rw [hthis] at hcase
    simp only [] at hcase
    by_cases hstop : s.config.stop_before ≠ 0 ∧ this_block.block_num ≥ s.config.stop_before
    · rw [if_pos hstop] at hcase
      have hh := hdrop _ hcase.2
      refine ⟨by rw [hh]; exact hcase.2, ?_, ?_⟩
      · intro _
        exact ⟨this_block, rfl, Or.inl hstop, [], by rw [hh]; rfl, by simp⟩
      · intro tb htb hns
        cases htb
        exact absurd hstop hns
    · rw [if_neg hstop] at hcase
      rcases hcase with ⟨hne, hev⟩ | ⟨hok, hev⟩
      · have hh := hdrop _ hev
        refine ⟨by rw [hh]; exact hev, ?_, ?_⟩
        · intro hf; rw [hh] at hf; exact absurd hf hno
        · intro tb _ _ _ _ hok
          exact absurd hok hne
      · rw [List.append_assoc] at hev
        have hh := hdrop _ hev
        refine ⟨by rw [hh]; exact hev, ?_, ?_⟩
        · intro hf
          rw [hh] at hf
          by_cases hnear : (this_block.block_num + 4) % 4294967296 ≥
              result.last_irreversible.block_num
          · rw [if_pos hnear] at hh
            have := hmodle (this_block.block_num + 4)
            exact ⟨this_block, rfl, Or.inr (by omega), pre, hh, hno⟩
          · rw [if_neg hnear] at hf
            simp only [List.mem_append] at hf
            rcases hf with hf | hf
            · exact absurd hf hno
            · split_ifs at hf <;> simp at hf
        · intro tb htb _ h200 hfar _
          cases htb
          have hnear : ¬ ((this_block.block_num + 4) % 4294967296 ≥
              result.last_irreversible.block_num) := by
            have := hmodle (this_block.block_num + 4)
            omega
          rw [if_neg hnear, if_pos h200] at hh
          refine ⟨⟨pre, hh⟩, ?_⟩
          rw [hh]
          simp only [List.mem_append, not_or]
          exact ⟨hno, by simp⟩

/-! ## The retained positions -/

theorem get_positions_loop_ok (st : kv_state) (head : Nat) (hhead : head + 1 < 4294967296)
    (n : Nat) (i : Nat) (acc : List block_position) (fuel : Nat) (hn : i + n = head + 1)
    (hfuel : n + 1 ≤ fuel) (hrows : ∀ j, i ≤ j → j ≤ head → st.block_info_at j ≠ none) :
    get_positions_loop st head fuel i acc =
      some (.ok (acc ++ (List.range' i n).filterMap (fun j =>
        (st.block_info_at j).map (fun info0 =>
          ({ block_num := info0.num, block_id := info0.id } : block_position))))) := by
  induction n generalizing i acc fuel with
  | zero =>
    cases fuel with
    | zero => omega
    | succ fuel =>
      rw [get_positions_loop, if_neg (by omega)]
      simp
  | succ n ih =>
    cases fuel with
    | zero => omega
    | succ fuel =>
      cases hrow : st.block_info_at i with
      | none => exact absurd hrow (hrows i (le_refl _) (by omega))
      | some info0 =>
        rw [get_positions_loop, if_pos (by omega)]
        simp only [hrow]
        rw [Nat.mod_eq_of_lt (by omega),
          ih (i + 1) _ fuel (by omega) (by omega) (fun j h1 h2 => hrows j (by omega) h2)]
        simp [List.range'_succ, hrow]

theorem get_positions_loop_missing (st : kv_state) (head : Nat) (hhead : head + 1 < 4294967296)
    (n : Nat) (i : Nat) (acc : List block_position) (fuel : Nat) (hn : i + n = head + 1)
    (hfuel : n + 1 ≤ fuel) (hmiss : ∃ j, i ≤ j ∧ j ≤ head ∧ st.block_info_at j = none) :
    ∃ j, i ≤ j ∧ j ≤ head ∧ st.block_info_at j = none ∧
      get_positions_loop st head fuel i acc = some (.error (.missing_block_info j)) := by
  induction n generalizing i acc fuel with
  | zero =>
    obtain ⟨j, h1, h2, _⟩ := hmiss
    omega
  | succ n ih =>
    cases fuel with
    | zero => omega
    | succ fuel =>
      cases hrow : st.block_info_at i with
      | none =>
        refine ⟨i, le_refl _, by omega, hrow, ?_⟩
        rw [get_positions_loop, if_pos (by omega)]
        simp only [hrow]
      | some info0 =>
        obtain ⟨j, h1, h2, h3⟩ := hmiss
        have hne : j ≠ i := by
          intro e; subst e; rw [hrow] at h3; cases h3
        obtain ⟨j', g1, g2, g3, g4⟩ := ih (i + 1)
          (acc ++ [{ block_num := info0.num, block_id := info0.id }]) fuel (by omega) (by omega)
          ⟨j, by omega, h2, h3⟩
        refine ⟨j', by omega, g2, g3, ?_⟩
        rw [get_positions_loop, if_pos (by omega)]
        simp only [hrow]
        rw [Nat.mod_eq_of_lt (by omega), g4]

theorem filterMap_length_of_ne_none {α β : Type} (f : α → Option β) (l : List α)
    (h : ∀ a ∈ l, f a ≠ none) : (l.filterMap f).length = l.length := by
  induction l with
  | nil => rfl
  | cons a l ih =>
    cases ha : f a with
    | none => exact absurd ha (h a (List.mem_cons_self _ _))
    | some b =>
      rw [List.filterMap_cons_some ha]
      simp only [List.length_cons]
      rw [ih (fun x hx => h x (List.mem_cons_of_mem _ hx))]

/-- C19: `get_positions` returns the empty list when `head = 0`; when
`irreversible <= head < 2^32 - 1` and every block number in `irreversible..head` has a
stored `block.info` row, it returns, for every sufficient fuel, exactly
`head - irreversible + 1` pairs, the `(num, id)` of those rows in increasing order of the
block number; and with `0 < head < 2^32 - 1` it fails with the missing-`block.info` error
iff some block number in `irreversible..head` has no stored row. -/
theorem get_positions_result (s : fill_rdb_session) :
    (s.head = 0 → ∀ fuel, get_positions s fuel = some (.ok [])) ∧
    (s.head ≠ 0 → s.irreversible ≤ s.head → s.head < 4294967295 →
      (∀ i, s.irreversible ≤ i → i ≤ s.head → s.store.block_info_at i ≠ none) →
      ∀ fuel, s.head - s.irreversible + 2 ≤ fuel →
        get_positions s fuel =
          some (.ok ((List.range' s.irreversible (s.head - s.irreversible + 1)).filterMap
            (fun i => (s.store.block_info_at i).map (fun info0 =>
              ({ block_num := info0.num, block_id := info0.id } : block_position))))) ∧
        ((List.range' s.irreversible (s.head - s.irreversible + 1)).filterMap
            (fun i => (s.store.block_info_at i).map (fun info0 =>
              ({ block_num := info0.num, block_id := info0.id } : block_position)))).length =
          s.head - s.irreversible + 1) ∧
    (s.head ≠ 0 → s.head < 4294967295 → ∀ fuel, s.head + 2 - s.irreversible ≤ fuel →
      ((∃ i, get_positions s fuel = some (.error (.missing_block_info i))) ↔
        ∃ i, s.irreversible ≤ i ∧ i ≤ s.head ∧ s.store.block_info_at i = none)) := by
  refine ⟨?_, ?_, ?_⟩
  · intro h0 fuel
    unfold get_positions
    rw [if_neg (by simp [h0])]
  · intro h0 hle hlt hrows fuel hfuel
    constructor
    · unfold get_positions
      rw [if_pos h0, get_positions_loop_ok s.store s.head (by omega)
        (s.head - s.irreversible + 1) s.irreversible [] fuel (by omega) (by omega) hrows]
      simp
    · rw [filterMap_length_of_ne_none, List.length_range']
      intro i hi
      rw [List.mem_range'_1] at hi
      intro hnone
      cases hrow : s.store.block_info_at i with
      | none => exact hrows i hi.1 (by omega) hrow
      | some info0 => rw [hrow] at hnone; simp at hnone
  · intro h0 hlt fuel hfuel
    constructor
    · rintro ⟨i, hi⟩
      by_contra hnone
      have hrows : ∀ i, s.irreversible ≤ i → i ≤ s.head → s.store.block_info_at i ≠ none := by
        intro j h1 h2 hj
        exact hnone ⟨j, h1, h2, hj⟩
      unfold get_positions at hi
      rw [if_pos h0] at hi
      by_cases hle : s.irreversible ≤ s.head
      · rw [get_positions_loop_ok s.store s.head (by omega)
          (s.head - s.irreversible + 1) s.irreversible [] fuel (by omega) (by omega) hrows] at hi
        simp at hi
      · cases fuel with
        | zero => simp [get_positions_loop] at hi
        | succ fuel =>
          rw [get_positions_loop, if_neg hle] at hi
          simp at hi
    · rintro ⟨i, h1, h2, h3⟩
      obtain ⟨j, _, _, _, hj⟩ := get_positions_loop_missing s.store s.head (by omega)
        (s.head - s.irreversible + 1) s.irreversible [] fuel (by omega) (by omega)
        ⟨i, h1, h2, h3⟩
      exact ⟨j, by unfold get_positions; rw [if_pos h0, hj]⟩

/-! ## Applying a block: what is kept -/

theorem store_write_changes (s : fill_rdb_session) : s.write_changes.store = s.store := by
  simp [store, write_changes, write_session.view]

theorem store_end_write_false (s : fill_rdb_session) : (s.end_write false).store = s.store := by
  simp [end_write, store_write_changes]

theorem end_write_keeps (s : fill_rdb_session) (b : Bool) :
    (s.end_write b).undo_stack = s.undo_stack ∧ (s.end_write b).head = s.head ∧
    (s.store.fill_status ≠ none → (s.end_write b).store.fill_status ≠ none) := by
  cases b with
  | false => exact ⟨rfl, rfl, by rw [store_end_write_false]; exact id⟩
  | true =>
    refine ⟨rfl, rfl, fun _ => ?_⟩
    have := (end_write_status s).1
    simp only [store, (end_write_status s).2, write_session.view, List.foldl_nil]
    rw [this]; simp

theorem receive_block_keeps (s : fill_rdb_session) (num id : Nat) (block : signed_block) :
    (s.receive_block num id block).undo_stack = s.undo_stack ∧
    (s.receive_block num id block).head = s.head ∧
    (s.store.fill_status ≠ none → (s.receive_block num id block).store.fill_status ≠ none) := by
  refine ⟨rfl, rfl, fun h => ?_⟩
  simp only [store, receive_block]
  rw [view_snoc]
  exact apply_keeps_status _ h

theorem store_delta_keeps (name total : Nat) (rows : List delta_row) (s : fill_rdb_session)
    (n : Nat) :
    (store_delta s name total rows n).undo_stack = s.undo_stack ∧
    (store_delta s name total rows n).head = s.head ∧
    (s.store.fill_status ≠ none → (store_delta s name total rows n).store.fill_status ≠ none) := by
  induction rows generalizing s n with
  | nil => exact ⟨rfl, rfl, id⟩
  | cons row rows ih =>
    have h1 : (if total > 10000 ∧ n % 10000 = 0 ∧ s.head = 0 then s.end_write false
          else s).undo_stack = s.undo_stack ∧
        (if total > 10000 ∧ n % 10000 = 0 ∧ s.head = 0 then s.end_write false else s).head =
          s.head ∧
        (s.store.fill_status ≠ none →
          (if total > 10000 ∧ n % 10000 = 0 ∧ s.head = 0 then s.end_write false
            else s).store.fill_status ≠ none) := by
      split_ifs
      · exact end_write_keeps s false
      · exact ⟨rfl, rfl, id⟩
    unfold store_delta
    simp only []
    obtain ⟨g1, g2, g3⟩ := ih
      { (if total > 10000 ∧ n % 10000 = 0 ∧ s.head = 0 then s.end_write false else s) with
        write_session := { cache :=
          (if total > 10000 ∧ n % 10000 = 0 ∧ s.head = 0 then s.end_write false
            else s).write_session.cache ++
            [if row.present then kv_change.put_row name row.key row.data
              else kv_change.erase_row name row.key] } } (n + 1)
    refine ⟨g1.trans h1.1, g2.trans h1.2.1, fun h => g3 ?_⟩
    simp only [store]
    rw [view_snoc]
    exact apply_keeps_status _ (h1.2.2 h)

theorem receive_deltas_keeps (deltas : List table_delta_v0) (s : fill_rdb_session) :
    (s.receive_deltas deltas).undo_stack = s.undo_stack ∧
    (s.receive_deltas deltas).head = s.head ∧
    (s.store.fill_status ≠ none → (s.receive_deltas deltas).store.fill_status ≠ none) := by
  induction deltas generalizing s with
  | nil => exact ⟨rfl, rfl, id⟩
  | cons delta deltas ih =>
    unfold receive_deltas
    obtain ⟨g1, g2, g3⟩ := ih (store_delta s delta.name delta.rows.length delta.rows 0)
    obtain ⟨h1, h2, h3⟩ := store_delta_keeps delta.name delta.rows.length delta.rows s 0
    exact ⟨g1.trans h1, g2.trans h2, fun h => g3 (h3 h)⟩

theorem bookkeeping_store (s : fill_rdb_session) (result : get_blocks_result_v0)
    (this_block : block_position) :
    (bookkeeping s result this_block).store = s.store := by
  unfold bookkeeping
  simp only []
  split_ifs
  · rfl
  · exact store_end_write_false s

theorem block_applied_keeps (s : fill_rdb_session) (result : get_blocks_result_v0)
    (this_block : block_position) :
    (block_applied s result this_block).undo_stack =
      (bookkeeping s result this_block).undo_stack ∧
    (block_applied s result this_block).head = this_block.block_num ∧
    (s.store.fill_status ≠ none →
      (block_applied s result this_block).store.fill_status ≠ none) := by
  have h3 : (bookkeeping s result this_block).store.fill_status ≠ none ↔
      s.store.fill_status ≠ none := by rw [bookkeeping_store]
  have h4 : (match result.block with
        | some block =>
          (bookkeeping s result this_block).receive_block this_block.block_num
            this_block.block_id block
        | none => bookkeeping s result this_block).undo_stack =
          (bookkeeping s result this_block).undo_stack ∧
      (s.store.fill_status ≠ none →
        (match result.block with
          | some block =>
            (bookkeeping s result this_block).receive_block this_block.block_num
              this_block.block_id block
          | none => bookkeeping s result this_block).store.fill_status ≠ none) := by
    cases result.block with
    | none => exact ⟨rfl, h3.mpr⟩
    | some block =>
      obtain ⟨g1, _, g3⟩ := receive_block_keeps (bookkeeping s result this_block)
        this_block.block_num this_block.block_id block
      exact ⟨g1, fun h => g3 (h3.mpr h)⟩
  have h5 : (match result.deltas with
        | some deltas =>
          (match result.block with
            | some block =>
              (bookkeeping s result this_block).receive_block this_block.block_num
                this_block.block_id block
            | none => bookkeeping s result this_block).receive_deltas deltas
        | none =>
          match result.block with
          | some block =>
            (bookkeeping s result this_block).receive_block this_block.block_num
              this_block.block_id block
          | none => bookkeeping s result this_block).undo_stack =
          (bookkeeping s result this_block).undo_stack ∧
      (s.store.fill_status ≠ none →
        (match result.deltas with
          | some deltas =>
            (match result.block with
              | some block =>
                (bookkeeping s result this_block).receive_block this_block.block_num
                  this_block.block_id block
              | none => bookkeeping s result this_block).receive_deltas deltas
          | none =>
            match result.block with
            | some block =>
              (bookkeeping s result this_block).receive_block this_block.block_num
                this_block.block_id block
            | none => bookkeeping s result this_block).store.fill_status ≠ none) := by
    cases result.deltas with
    | none => exact h4
    | some deltas =>
      obtain ⟨g1, _, g3⟩ := receive_deltas_keeps deltas
        (match result.block with
          | some block =>
            (bookkeeping s result this_block).receive_block this_block.block_num
              this_block.block_id block
          | none => bookkeeping s result this_block)
      exact ⟨g1.trans h4.1, fun h => g3 (h4.2 h)⟩
  unfold block_applied
  simp only []
  split_ifs
  · exact ⟨h5.1, rfl, h5.2⟩
  · exact ⟨h5.1, rfl, h5.2⟩

theorem finish_block_keeps (s : fill_rdb_session) (result : get_blocks_result_v0)
    (this_block : block_position) :
    (finish_block s result this_block).undo_stack =
      (bookkeeping s result this_block).undo_stack ∧
    (finish_block s result this_block).head = this_block.block_num ∧
    (s.store.fill_status ≠ none →
      (finish_block s result this_block).store.fill_status ≠ none) := by
  obtain ⟨h1, h2, h3⟩ := block_applied_keeps s result this_block
  obtain ⟨e1, e2, e3⟩ := end_write_keeps (block_applied s result this_block) true
  rw [finish_block_eq]
  split_ifs
  · exact ⟨e1.trans h1, e2.trans h2, fun h => e3 (h3 h)⟩
  · exact ⟨e1.trans h1, e2.trans h2, fun h => e3 (h3 h)⟩
  · exact ⟨h1, h2, h3⟩

/-! ## Consecutive blocks and the frames of the undo stack -/

theorem received_applied (s s' : fill_rdb_session) (result : get_blocks_result_v0)
    (this_block : block_position) (hthis : result.this_block = some this_block)
    (hnew : ¬ this_block.block_num ≤ s.head) (hrec : received s result = (.ok true, s')) :
    s' = finish_block { s with reported_block := true } result this_block := by
  rw [received_steps, hthis] at hrec
  simp only [] at hrec
  by_cases h1 : s.config.stop_before ≠ 0 ∧ this_block.block_num ≥ s.config.stop_before
  · rw [if_pos h1] at hrec
    simp at hrec
  rw [if_neg h1] at hrec
  by_cases h2 : s.head ≠ 0 ∧ this_block.block_num > (s.head + 1) % 4294967296
  · rw [if_pos h2] at hrec
    simp at hrec
  rw [if_neg h2, if_neg hnew] at hrec
  simp only [] at hrec
  by_cases h3 : s.head_id ≠ 0 ∧
      (match result.prev_block with
        | none => true
        | some prev_block => decide (prev_block.block_id ≠ s.head_id)) = true
  · rw [if_pos h3] at hrec
    simp at hrec
  · rw [if_neg h3] at hrec
    simp only [Prod.mk.injEq, true_and] at hrec
    exact hrec.symm

theorem bookkeeping_next (s : fill_rdb_session) (result : get_blocks_result_v0)
    (this_block : block_position) (hnum : this_block.block_num = s.head + 1)
    (hrev : s.undo_stack.revision = s.head) :
    (bookkeeping s result this_block).undo_stack.revision = (s.head : Int) + 1 ∧
    ((bookkeeping s result this_block).undo_stack.frames = [] ∨
      ∃ m, (bookkeeping s result this_block).undo_stack.frames =
        s.store :: s.undo_stack.frames.take m) := by
  unfold bookkeeping
  simp only []
  split_ifs with hirr
  · constructor
    · simp [undo_stack.set_revision, hnum]
    · left
      have h0 : (s.undo_stack.revision -
          min ((min result.last_irreversible.block_num s.head : Nat) : Int)
            s.undo_stack.revision).toNat = 0 := by
        rw [hrev]
        have : min result.last_irreversible.block_num s.head = s.head := by omega
        rw [this]
        simp
      simp only [undo_stack.set_revision, undo_stack.commit, h0, List.take_zero]
  · constructor
    · simp [undo_stack.push, undo_stack.commit, end_write, write_changes, hrev]
    · right
      exact ⟨_, rfl⟩

theorem received_next_block (s s' : fill_rdb_session) (result : get_blocks_result_v0)
    (this_block : block_position) (hthis : result.this_block = some this_block)
    (hnum : this_block.block_num = s.head + 1) (hrev : s.undo_stack.revision = s.head)
    (hrec : received s result = (.ok true, s')) :
    s'.head = s.head + 1 ∧ s'.undo_stack.revision = (s.head : Int) + 1 ∧
    (s.store.fill_status ≠ none → s'.store.fill_status ≠ none) ∧
    (s'.undo_stack.frames = [] ∨
      ∃ m, s'.undo_stack.frames = s.store :: s.undo_stack.frames.take m) := by
  have hs := received_applied s s' result this_block hthis (by omega) hrec
  obtain ⟨h1, h2, h3⟩ := finish_block_keeps { s with reported_block := true } result this_block
  obtain ⟨b1, b2⟩ := bookkeeping_next { s with reported_block := true } result this_block
    hnum hrev
  rw [hs]
  refine ⟨by rw [h2, hnum], by rw [h1]; exact b1, h3, ?_⟩
  rw [h1]
  exact b2

theorem apply_blocks_append (s : fill_rdb_session) (l1 l2 : List get_blocks_result_v0) :
    apply_blocks s (l1 ++ l2) = (apply_blocks s l1).bind (fun s1 => apply_blocks s1 l2) := by
  induction l1 generalizing s with
  | nil => rfl
  | cons r l1 ih =>
    simp only [List.cons_append, apply_blocks]
    rcases hr : received s r with ⟨res, s1⟩
    cases res with
    | error e => rfl
    | ok b =>
      cases b with
      | false => rfl
      | true => exact ih s1

theorem apply_blocks_single (s : fill_rdb_session) (r : get_blocks_result_v0)
    (s' : fill_rdb_session) (h : apply_blocks s [r] = some s') :
    received s r = (.ok true, s') := by
  simp only [apply_blocks] at h
  rcases hr : received s r with ⟨res, s1⟩
  rw [hr] at h
  cases res with
  | error e => simp at h
  | ok b =>
    cases b with
    | false => simp at h
    | true =>
      simp only [Option.some.injEq] at h
      rw [h]

theorem numbered_from_get (first : Nat) (rs : List get_blocks_result_v0)
    (h : numbered_from first rs) (j : Nat) (r : get_blocks_result_v0) (hj : rs[j]? = some r) :
    ∃ tb, r.this_block = some tb ∧ tb.block_num = first + j := by
  induction rs generalizing first j with
  | nil => simp at hj
  | cons r0 rs ih =>
    obtain ⟨h0, hrest⟩ := h
    cases j with
    | zero =>
      simp only [List.getElem?_cons_zero, Option.some.injEq] at hj
      subst hj
      simpa using h0
    | succ j =>
      simp only [List.getElem?_cons_succ] at hj
      obtain ⟨tb, e1, e2⟩ := ih (first + 1) hrest j hj
      exact ⟨tb, e1, by omega⟩

theorem connect_fresh (cfg : fill_rocksdb_config) :
    (connect { config := cfg }).head = 0 ∧ (connect { config := cfg }).undo_stack = {} ∧
    (connect { config := cfg }).store.fill_status ≠ none ∧
    (connect { config := cfg }).db.fill_status ≠ none := by
  refine ⟨rfl, rfl, ?_, ?_⟩ <;> simp [connect, store, flush, end_write, write_changes,
    write_fill_status, load_fill_status, wipe_cache, write_session.view, kv_state.apply]

theorem consecutive_blocks (cfg : fill_rocksdb_config) (rs : List get_blocks_result_v0)
    (hnum : numbered_from 1 rs) (s_n : fill_rdb_session)
    (hall : apply_blocks (connect { config := cfg }) rs = some s_n) (j : Nat)
    (hj : j ≤ rs.length) :
    ∃ sj, apply_blocks (connect { config := cfg }) (rs.take j) = some sj ∧
      sj.head = j ∧ sj.undo_stack.revision = (j : Int) ∧ sj.store.fill_status ≠ none ∧
      ∀ t f, sj.undo_stack.frames[t]? = some f →
        ∃ sp, apply_blocks (connect { config := cfg }) (rs.take (j - 1 - t)) = some sp ∧
          f = sp.store ∧ sp.store.fill_status ≠ none ∧ t < j := by
  induction j with
  | zero =>
    obtain ⟨h1, h2, h3, _⟩ := connect_fresh cfg
    refine ⟨connect { config := cfg }, rfl, h1, by rw [h2]; rfl, h3, ?_⟩
    intro t f hf
    rw [h2] at hf
    simp at hf
  | succ j ih =>
    obtain ⟨sj, hsj, hhead, hrev, hst, hfr⟩ := ih (by omega)
    have hjlt : j < rs.length := by omega
    have htake : rs.take (j + 1) = rs.take j ++ [rs[j]] := by
      rw [List.take_succ, List.getElem?_eq_getElem hjlt]
      rfl
    have hsplit : rs = rs.take (j + 1) ++ rs.drop (j + 1) := (List.take_append_drop _ _).symm
    have hsome : ∃ s', apply_blocks (connect { config := cfg }) (rs.take (j + 1)) = some s' := by
      rw [hsplit, apply_blocks_append] at hall
      cases hx : apply_blocks (connect { config := cfg }) (rs.take (j + 1)) with
      | none => rw [hx] at hall; simp at hall
      | some s' => exact ⟨s', rfl⟩
    obtain ⟨s', hs'⟩ := hsome
    have hstep : apply_blocks sj [rs[j]] = some s' := by
      rw [htake, apply_blocks_append, hsj] at hs'
      exact hs'
    have hrec := apply_blocks_single sj rs[j] s' hstep
    obtain ⟨tb, htb, htbn⟩ := numbered_from_get 1 rs hnum j rs[j]
      (List.getElem?_eq_getElem hjlt)
    obtain ⟨g1, g2, g3, g4⟩ := received_next_block sj s' rs[j] tb htb
      (by rw [htbn, hhead]; omega) (by rw [hrev, hhead]) hrec
    refine ⟨s', hs', by rw [g1, hhead], by rw [g2, hhead]; push_cast; ring, g3 hst, ?_⟩
    intro t f hf
    rcases g4 with hnil | ⟨m, hm⟩
    · rw [hnil] at hf
      simp at hf
    · rw [hm] at hf
      cases t with
      | zero =>
        simp only [List.getElem?_cons_zero, Option.some.injEq] at hf
        exact ⟨sj, by simpa using hsj, hf.symm, hst, by omega⟩
      | succ t =>
        simp only [List.getElem?_cons_succ] at hf
        have hf' : sj.undo_stack.frames[t]? = some f := by
          rw [List.getElem?_take] at hf
          split_ifs at hf
          exact hf
        obtain ⟨sp, e1, e2, e3, e4⟩ := hfr t f hf'
        refine ⟨sp, ?_, e2, e3, by omega⟩
        have : j + 1 - 1 - (t + 1) = j - 1 - t := by omega
        rw [this]
        exact e1

theorem getLast?_take_of_get {α : Type} (l : List α) (m : Nat) (x : α)
    (h : l[m]? = some x) : (l.take (m + 1)).getLast? = some x := by
  have hlt : m < l.length := (List.getElem?_eq_some_iff.mp h).1
  rw [List.getLast?_eq_getElem?, List.length_take, List.getElem?_take]
  have : min (m + 1) l.length - 1 = m := by omega
  rw [this, if_pos (by omega)]
  exact h

/-- C11: for every sequence of block-results numbered 1..n that `received` applies from
an empty store, and every block number `k` with `1 <= k <= n` such that the undo stack
still retains revision `k - 1` (`first_revision() <= k - 1`), the rollback step of a fork
switch to block `k` succeeds and leaves the store equal to the store as the session read
it right after applying block `k - 1`, with an empty write session, revision `k - 1`, and
the session's `head`, `head_id`, `irreversible`, `irreversible_id` and `first` equal to
the Fill-Status record of that store. -/
theorem fork_rollback_restores (cfg : fill_rocksdb_config) (rs : List get_blocks_result_v0)
    (k : Nat) (s_prev s_n : fill_rdb_session) (hnum : numbered_from 1 rs) (hk1 : 1 ≤ k)
    (hk2 : k ≤ rs.length)
    (hprev : apply_blocks (connect { config := cfg }) (rs.take (k - 1)) = some s_prev)
    (hall : apply_blocks (connect { config := cfg }) rs = some s_n)
    (hret : s_n.undo_stack.first_revision ≤ (k : Int) - 1) :
    s_n.head = rs.length ∧
    (switch_forks s_n k).1 = .ok () ∧
    (switch_forks s_n k).2.db = s_prev.store ∧
    (switch_forks s_n k).2.store = s_prev.store ∧
    (switch_forks s_n k).2.undo_stack.revision = (k : Int) - 1 ∧
    ∃ st, s_prev.store.fill_status = some st ∧
      (switch_forks s_n k).2.head = st.head ∧ (switch_forks s_n k).2.head_id = st.head_id ∧
      (switch_forks s_n k).2.irreversible = st.irreversible ∧
      (switch_forks s_n k).2.irreversible_id = st.irreversible_id ∧
      (switch_forks s_n k).2.first = st.first := by
  obtain ⟨sn, hsn, hhead, hrev, _, hfr⟩ :=
    consecutive_blocks cfg rs hnum s_n hall rs.length (le_refl _)
  rw [List.take_length, hall] at hsn
  simp only [Option.some.injEq] at hsn
  subst hsn
  have hfirst : s_n.undo_stack.first_revision < (k : Int) := by omega
  have hk : (k : Int) ≤ s_n.undo_stack.revision := by rw [hrev]; omega
  have hm : (s_n.undo_stack.revision - k + 1).toNat = (rs.length - k) + 1 := by
    rw [hrev]; omega
  have hlen : rs.length - k < s_n.undo_stack.frames.length := by
    unfold undo_stack.first_revision at hret
    rw [hrev] at hret
    omega
  obtain ⟨sp, hsp, hf, hst, _⟩ := hfr (rs.length - k) _ (List.getElem?_eq_getElem hlen)
  have hidx : rs.length - 1 - (rs.length - k) = k - 1 := by omega
  rw [hidx, hprev] at hsp
  simp only [Option.some.injEq] at hsp
  subst hsp
  have hlast := getLast?_take_of_get _ _ _ (List.getElem?_eq_getElem hlen)
  rw [hf] at hlast
  obtain ⟨st, hstat⟩ := Option.ne_none_iff_exists'.mp hst
  have hsw := switch_forks_rolls_back s_n k hfirst hk
  rw [hm, hlast] at hsw
  simp only [Option.getD_some] at hsw
  rw [@load_fill_status_some _ st hstat] at hsw
  rw [hsw]
  refine ⟨hhead, rfl, rfl, ?_, ?_, st, hstat, rfl, rfl, rfl, rfl, rfl⟩
  · simp [store, wipe_cache, write_session.view]
  · simp only [wipe_cache, List.length_take, hrev]
    omega

/-- Witness of C11: the blocks 1, 2 and 3 from an empty store, then a fork switch to
block 2: the store is again the store as it stood after block 1. -/
theorem fork_rollback_restores_witness :
    apply_blocks (connect {})
      [reversible_block 1 11 0, reversible_block 2 12 11, reversible_block 3 13 12] =
        some three_block_session ∧
    three_block_session.undo_stack.first_revision ≤ ((2 : Nat) : Int) - 1 ∧
    (switch_forks three_block_session 2).2.db =
      (received (connect {}) (reversible_block 1 11 0)).2.store ∧
    (switch_forks three_block_session 2).2.undo_stack.revision = ((2 : Nat) : Int) - 1 :=
  ⟨by decide, by decide,
    (fork_rollback_restores {}
      [reversible_block 1 11 0, reversible_block 2 12 11, reversible_block 3 13 12] 2
      (received (connect {}) (reversible_block 1 11 0)).2 three_block_session
      ⟨⟨⟨1, 11⟩, rfl, rfl⟩, ⟨⟨2, 12⟩, rfl, rfl⟩, ⟨⟨3, 13⟩, rfl, rfl⟩, trivial⟩
      (by decide) (by decide) (by decide) (by decide) (by decide)).2.2.1,
    (fork_rollback_restores {}
      [reversible_block 1 11 0, reversible_block 2 12 11, reversible_block 3 13 12] 2
      (received (connect {}) (reversible_block 1 11 0)).2 three_block_session
      ⟨⟨⟨1, 11⟩, rfl, rfl⟩, ⟨⟨2, 12⟩, rfl, rfl⟩, ⟨⟨3, 13⟩, rfl, rfl⟩, trivial⟩
      (by decide) (by decide) (by decide) (by decide) (by decide)).2.2.2.2.1⟩

/-- Supporting fact for C14: when the block-results are numbered 1, 2, 3, ... from an
empty store, the revision of the undo stack is the block number after every block. -/
theorem revision_tracks_consecutive_blocks (cfg : fill_rocksdb_config)
    (rs : List get_blocks_result_v0) (hnum : numbered_from 1 rs) (s_n : fill_rdb_session)
    (hall : apply_blocks (connect { config := cfg }) rs = some s_n) :
    s_n.head = rs.length ∧ s_n.undo_stack.revision = (rs.length : Int) := by
  obtain ⟨sn, hsn, hhead, hrev, _, _⟩ :=
    consecutive_blocks cfg rs hnum s_n hall rs.length (le_refl _)
  rw [List.take_length, hall] at hsn
  simp only [Option.some.injEq] at hsn
  subst hsn
  exact ⟨hhead, hrev⟩

/-- C14, evaluated at the failing input: a session over an empty store (revision 0,
head 0) receives block 5, above the last irreversible block 0, as its first block; it is
applied without error, and right after the revision bookkeeping the revision is 1, not
5, as it is for block 6 in the same state: `push` is not given the block number. When
block 6 has followed and a second block 6 arrives (a fork switch), the revision 2 is
below the block number, no `undo()` is made and the block is refused. -/
theorem push_does_not_tag_revision :
    (connect {}).head = 0 ∧ (connect {}).undo_stack.revision = 0 ∧
    (received (connect {}) (reversible_block 5 15 0)).1 = .ok true ∧
    (bookkeeping { connect {} with reported_block := true } (reversible_block 5 15 0)
      ⟨5, 15⟩).undo_stack.revision = 1 ∧
    (bookkeeping { connect {} with reported_block := true } (reversible_block 6 16 0)
      ⟨6, 16⟩).undo_stack.revision = 1 ∧
    (received (connect {}) (reversible_block 5 15 0)).2.undo_stack.revision = 1 ∧
    (received (received (connect {}) (reversible_block 5 15 0)).2
      (reversible_block 6 16 15)).2.undo_stack.revision = 2 ∧
    (received
      (received (received (connect {}) (reversible_block 5 15 0)).2
        (reversible_block 6 16 15)).2
      (reversible_block 6 26 15)).1 = .error .prev_block_does_not_match ∧
    (handling_events
      (received (received (connect {}) (reversible_block 5 15 0)).2
        (reversible_block 6 16 15)).2
      (reversible_block 6 26 15)).count .undo = 0 := by
  decide

/-- Supporting fact for C19: after the blocks 1, 2 and 3, with `irreversible` 1, the
retained positions are those of the three blocks. -/
theorem get_positions_three_blocks :
    get_positions { three_block_session with irreversible := 1 } 4 =
      some (.ok [⟨1, 11⟩, ⟨2, 12⟩, ⟨3, 13⟩]) ∧
    get_positions { three_block_session with irreversible := 1 } 3 = none ∧
    get_positions three_block_session 5 = some (.error (.missing_block_info 0)) := by
  decide

/-! ## A connected session always holds a Fill-Status record -/

theorem view_keeps_status (cache : List kv_change) (db : kv_state)
    (h : db.fill_status ≠ none) :
    (write_session.view { cache := cache } db).fill_status ≠ none := by
  induction cache generalizing db with
  | nil => exact h
  | cons c cache ih =>
    simp only [write_session.view, List.foldl_cons]
    exact ih _ (apply_keeps_status c h)

theorem has_status_of_eq {s s' : fill_rdb_session} (h : has_status s)
    (hdb : s'.db = s.db) (hu : s'.undo_stack = s.undo_stack) : has_status s' := by
  unfold has_status
  rw [hdb, hu]
  exact h

theorem has_status_write_changes {s : fill_rdb_session} (h : has_status s) :
    has_status s.write_changes :=
  ⟨view_keeps_status _ _ h.1, h.2⟩

theorem has_status_end_write {s : fill_rdb_session} (b : Bool) (h : has_status s) :
    has_status (s.end_write b) := by
  unfold end_write
  cases b with
  | false => exact has_status_write_changes h
  | true => exact has_status_write_changes (has_status_of_eq h rfl rfl)

theorem has_status_load_fill_status {s : fill_rdb_session} (h : has_status s) :
    has_status s.load_fill_status := by
  have hk := load_fill_status_keeps s
  exact has_status_of_eq h hk.2.1 hk.2.2.1

theorem has_status_store_delta (name total : Nat) (rows : List delta_row)
    (s : fill_rdb_session) (n : Nat) (h : has_status s) :
    has_status (store_delta s name total rows n) := by
  induction rows generalizing s n with
  | nil => exact h
  | cons row rows ih =>
    unfold store_delta
    apply ih
    have h1 : has_status (if total > 10000 ∧ n % 10000 = 0 ∧ s.head = 0 then s.end_write false
        else s) := by
      split_ifs
      · exact has_status_end_write false h
      · exact h
    exact has_status_of_eq h1 rfl rfl

theorem has_status_receive_deltas (deltas : List table_delta_v0) (s : fill_rdb_session)
    (h : has_status s) : has_status (s.receive_deltas deltas) := by
  induction deltas generalizing s with
  | nil => exact h
  | cons delta deltas ih =>
    unfold receive_deltas
    exact ih _ (has_status_store_delta _ _ _ _ _ h)

theorem has_status_bookkeeping (s : fill_rdb_session) (result : get_blocks_result_v0)
    (this_block : block_position) (h : has_status s) :
    has_status (bookkeeping s result this_block) := by
  unfold bookkeeping
  simp only []
  split_ifs
  · exact ⟨h.1, fun f hf => h.2 f (List.mem_of_mem_take hf)⟩
  · have h1 := has_status_end_write false h
    refine ⟨h1.1, fun f hf => ?_⟩
    simp only [undo_stack.push, undo_stack.commit, List.mem_cons] at hf
    rcases hf with hf | hf
    · rw [hf]; exact h1.1
    · exact h1.2 f (List.mem_of_mem_take hf)

theorem has_status_block_applied (s : fill_rdb_session) (result : get_blocks_result_v0)
    (this_block : block_position) (h : has_status s) :
    has_status (block_applied s result this_block) := by
  have h3 := has_status_bookkeeping s result this_block h
  have h4 : has_status (match result.block with
      | some block =>
        (bookkeeping s result this_block).receive_block this_block.block_num
          this_block.block_id block
      | none => bookkeeping s result this_block) := by
    cases result.block with
    | none => exact h3
    | some block => exact has_status_of_eq h3 rfl rfl
  have h5 : has_status (match result.deltas with
      | some deltas =>
        (match result.block with
          | some block =>
            (bookkeeping s result this_block).receive_block this_block.block_num
              this_block.block_id block
          | none => bookkeeping s result this_block).receive_deltas deltas
      | none =>
        (match result.block with
          | some block =>
            (bookkeeping s result this_block).receive_block this_block.block_num
              this_block.block_id block
          | none => bookkeeping s result this_block)) := by
    cases result.deltas with
    | none => exact h4
    | some deltas => exact has_status_receive_deltas _ _ h4
  unfold block_applied
  simp only []
  split_ifs
  · exact has_status_of_eq h5 rfl rfl
  · exact has_status_of_eq h5 rfl rfl

theorem has_status_finish_block (s : fill_rdb_session) (result : get_blocks_result_v0)
    (this_block : block_position) (h : has_status s) :
    has_status (finish_block s result this_block) := by
  have ha := has_status_block_applied s result this_block h
  rw [finish_block_eq]
  split_ifs
  · exact has_status_of_eq (has_status_end_write true ha) rfl rfl
  · exact has_status_end_write true ha
  · exact ha

theorem has_status_undo_loop (block_num fuel : Nat) (s : fill_rdb_session)
    (h : has_status s) : has_status (undo_loop s block_num fuel).2 := by
  induction fuel generalizing s with
  | zero => exact h
  | succ fuel ih =>
    unfold undo_loop
    split_ifs
    · cases hf : s.undo_stack.frames with
      | nil =>
        have hu : s.undo_stack.undo = none := by simp [undo_stack.undo, hf]
        rw [hu]
        exact h
      | cons d fs =>
        have hu : s.undo_stack.undo =
            some (d, { revision := s.undo_stack.revision - 1, frames := fs }) := by
          simp [undo_stack.undo, hf]
        rw [hu]
        apply ih
        refine ⟨h.2 d (by rw [hf]; exact List.mem_cons_self _ _), fun f hf1 => ?_⟩
        exact h.2 f (by rw [hf]; exact List.mem_cons_of_mem _ hf1)
    · exact h

theorem has_status_switch_forks (s : fill_rdb_session) (block_num : Nat)
    (h : has_status s) : has_status (switch_forks s block_num).2 := by
  unfold switch_forks
  split_ifs
  · exact h
  · simp only []
    have hl := has_status_undo_loop block_num
      (s.wipe_cache.undo_stack.revision - block_num + 1).toNat s.wipe_cache
      (has_status_of_eq h rfl rfl)
    rcases hu : undo_loop s.wipe_cache block_num
      (s.wipe_cache.undo_stack.revision - block_num + 1).toNat with ⟨r, s2⟩
    rw [hu] at hl
    cases r with
    | error e => exact hl
    | ok u => exact has_status_of_eq (has_status_load_fill_status hl) rfl rfl

theorem has_status_received (s : fill_rdb_session) (result : get_blocks_result_v0)
    (h : has_status s) : has_status (received s result).2 := by
  rw [received_steps]
  cases result.this_block with
  | none => exact h
  | some this_block =>
    simp only []
    split_ifs with hstop hgap hle
    · exact has_status_of_eq (has_status_end_write true h) rfl rfl
    · exact h
    · have hs := has_status_switch_forks s this_block.block_num h
      rcases hsw : switch_forks s this_block.block_num with ⟨r, s1⟩
      rw [hsw] at hs
      cases r with
      | error e => exact hs
      | ok u =>
        simp only []
        split_ifs
        · exact has_status_of_eq hs rfl rfl
        · exact has_status_finish_block _ _ _ (has_status_of_eq hs rfl rfl)
    · simp only []
      split_ifs
      · exact has_status_of_eq h rfl rfl
      · exact has_status_finish_block _ _ _ (has_status_of_eq h rfl rfl)

theorem has_status_connect (s : fill_rdb_session)
    (h : ∀ f ∈ s.undo_stack.frames, f.fill_status ≠ none) : has_status (connect s) := by
  have h1 : (s.load_fill_status.end_write true).db.fill_status ≠ none := by
    rw [(end_write_status s.load_fill_status).1]
    simp
  refine ⟨h1, ?_⟩
  have hk := load_fill_status_keeps s
  show ∀ f ∈ s.load_fill_status.undo_stack.frames, f.fill_status ≠ none
  rw [hk.2.2.1]
  exact h

/-- Supporting fact for C16: a session that was started by `connect` (over any store,
with no revision open) holds a Fill-Status record in its store and in every undo frame
after every sequence of block-results, so the reload after a fork rollback always finds
a record; the case without a record arises only at startup. -/
theorem connected_session_has_status (cfg : fill_rocksdb_config) (db : kv_state)
    (rs : List get_blocks_result_v0) (block_num fuel : Nat) :
    has_status (receive_all (connect { config := cfg, db := db }) rs) ∧
    (undo_loop (receive_all (connect { config := cfg, db := db }) rs).wipe_cache block_num
      fuel).2.db.fill_status ≠ none := by
  have h : ∀ (rs : List get_blocks_result_v0) (s : fill_rdb_session), has_status s →
      has_status (receive_all s rs) := by
    intro rs
    induction rs with
    | nil => intro s hs; exact hs
    | cons r rs ih =>
      intro s hs
      exact ih _ (has_status_received s r hs)
  have h0 : has_status (connect { config := cfg, db := db }) :=
    has_status_connect _ (by intro f hf; cases hf)
  have hw : has_status (receive_all (connect { config := cfg, db := db }) rs).wipe_cache :=
    has_status_of_eq (h _ _ h0) rfl rfl
  exact ⟨h _ _ h0, (has_status_undo_loop block_num fuel _ hw).1⟩

/-- Witness of C17: block 400, far below the last irreversible block 1000, is
checkpointed without a durable flush. -/
theorem flush_only_after_checkpoint_witness :
    session_event.flush ∉
      handling_events (connect {})
        { this_block := some ⟨400, 1⟩, last_irreversible := ⟨1000, 2⟩ } :=
  ((flush_only_after_checkpoint (connect {})
    { this_block := some ⟨400, 1⟩, last_irreversible := ⟨1000, 2⟩ }).2.2 ⟨400, 1⟩ rfl
    (by decide) (by decide) (by decide) (by decide)).2

/-- Witness of C19: after the blocks 1, 2 and 3, with `irreversible` 1, three positions
are returned. -/
theorem get_positions_result_witness :
    get_positions { three_block_session with irreversible := 1 } 4 =
      some (.ok [⟨1, 11⟩, ⟨2, 12⟩, ⟨3, 13⟩]) :=
  (((get_positions_result { three_block_session with irreversible := 1 }).2.1 (by decide)
    (by decide) (by decide)
    (fun i h1 h2 => by
      have h1' : 1 ≤ i := h1
      have h2' : i ≤ 3 := h2
      interval_cases i <;> decide)
    4 (by decide)).1).trans (by decide)

/-- Supporting fact for C19, outside the bound `head < 2^32 - 1`: at head 4294967295 the
loop counter wraps to 0 after the last block, and the loop goes on below
`irreversible`. -/
theorem get_positions_wraps_at_last_block_number :
    (received (connect {})
      { this_block := some ⟨4294967295, 1⟩, last_irreversible := ⟨4294967295, 1⟩,
        block := some {} }).2.head = 4294967295 ∧
    (received (connect {})
      { this_block := some ⟨4294967295, 1⟩, last_irreversible := ⟨4294967295, 1⟩,
        block := some {} }).2.store.block_info_at 4294967295 ≠ none ∧
    get_positions
      (received (connect {})
        { this_block := some ⟨4294967295, 1⟩, last_irreversible := ⟨4294967295, 1⟩,
          block := some {} }).2 3 = some (.error (.missing_block_info 0)) := by
  decide

end fill_rdb_session

namespace history_tools

/-! ## The table registry -/

theorem vec_at_append_singleton {α : Type} {l : List α} {x y : α} {i : Int}
    (h : vec_at (l ++ [x]) i = some y) :
    vec_at l i = some y ∨ (i = (l.length : Int) ∧ y = x) := by
  obtain ⟨h0, h1⟩ := vec_at_eq_some.mp h
  by_cases hlt : i.toNat < l.length
  · rw [List.getElem?_append_left hlt] at h1
    exact Or.inl (vec_at_eq_some.mpr ⟨h0, h1⟩)
  · rw [List.getElem?_append_right (by omega)] at h1
    have hb := (List.getElem?_eq_some_iff.mp h1).1
    simp only [List.length_singleton, Nat.lt_one_iff] at hb
    rw [hb] at h1
    simp only [List.getElem?_cons_zero, Option.some.injEq] at h1
    exact Or.inr ⟨by omega, h1.symm⟩

theorem vec_at_vec_update_inv {α : Type} {l : List α} {i j : Int} {f : α → α} {y : α}
    (h : vec_at (vec_update l j f) i = some y) :
    ∃ x, vec_at l i = some x ∧ (y = x ∨ (j = i ∧ y = f x)) := by
  by_cases hij : j = i
  · subst hij
    cases hx : vec_at l j with
    | none =>
      unfold vec_update at h
      rw [hx] at h
      simp only [] at h
      rw [hx] at h
      cases h
    | some x =>
      rw [vec_at_vec_update_same f hx] at h
      exact ⟨x, rfl, Or.inr ⟨rfl, (Option.some.inj h).symm⟩⟩
  · rw [vec_at_vec_update_ne l f hij] at h
    exact ⟨y, h, Or.inl rfl⟩

theorem table_registry_inv_init : table_registry_inv {} :=
  ⟨rfl, rfl, by intro i tk h; simp [vec_at] at h, by intro tk i h; simp [map_find] at h,
    by intro i e h; simp [vec_at] at h⟩

theorem table_registry_inv_of_same {c c' : iterator_cache} (hc : table_registry_inv c)
    (h2 : c'.tables = c.tables) (h3 : c'.table_to_index = c.table_to_index)
    (h4 : c'.end_iterators = c.end_iterators) : table_registry_inv c' :=
  ⟨by rw [h2, h3]; exact hc.sizes_index, by rw [h2, h4]; exact hc.sizes_end,
    by rw [h2, h3]; exact hc.index_of_table, by rw [h2, h3]; exact hc.table_of_index,
    by rw [h4]; exact hc.end_index⟩

theorem get_table_index_registry (v : view) {c : iterator_cache} (key : table_key)
    (hc : table_registry_inv c) : table_registry_inv (get_table_index v c key).2 := by
  unfold get_table_index
  split
  · exact hc
  · rename_i hfind
    split_ifs with h1 h2 h3
    · exact hc
    · exact hc
    · exact hc
    · refine ⟨?_, ?_, ?_, ?_, ?_⟩
      · simp [map_assign_length _ _ _ hfind, hc.sizes_index]
      · simp [hc.sizes_end]
      · intro i tk hi
        rcases vec_at_append_singleton hi with h | ⟨hi', hk⟩
        · have := hc.index_of_table i tk h
          have hne : key ≠ tk := by
            intro e
            subst e
            rw [hfind] at this
            cases this
          rw [map_find_map_assign_ne _ _ hne]
          exact this
        · subst hk
          rw [hi']
          exact map_find_map_assign_same _ _ _
      · intro tk i hi
        by_cases hkk : key = tk
        · subst hkk
          rw [map_find_map_assign_same] at hi
          simp only [Option.some.injEq] at hi
          subst hi
          exact vec_at_append_length _ _
        · rw [map_find_map_assign_ne _ _ hkk] at hi
          exact vec_at_append_left _ (hc.table_of_index tk i hi)
      · intro i e hi
        rcases vec_at_append_singleton hi with h | ⟨hi', he⟩
        · exact hc.end_index i e h
        · subst he
          rw [hi', ← hc.sizes_end]

theorem keep_view_it_table_index (vi : view_iterator) (x : iterator) :
    (keep_view_it vi x).table_index = x.table_index :=
  (same_row_keep_view_it vi x).1

theorem get_iterator_registry {c : iterator_cache} {rk : row_key} {vi : view_iterator}
    (hc : table_registry_inv c) : table_registry_inv (get_iterator c rk vi).2 := by
  unfold get_iterator
  split
  · split
    · exact hc
    · refine ⟨hc.sizes_index, by simp [vec_update_length, hc.sizes_end], hc.index_of_table,
        hc.table_of_index, ?_⟩
      intro i e hi
      obtain ⟨x, hx, hy | ⟨_, hy⟩⟩ := vec_at_vec_update_inv hi
      · rw [hy]; exact hc.end_index i x hx
      · rw [hy, keep_view_it_table_index]; exact hc.end_index i x hx
  · split
    · split
      · exact hc
      · exact table_registry_inv_of_same hc rfl rfl rfl
    · split_ifs
      · exact hc
      · exact table_registry_inv_of_same hc rfl rfl rfl

theorem lower_bound_registry {v : view} {c : iterator_cache} {code scope table key : Nat}
    (hc : table_registry_inv c) :
    table_registry_inv (lower_bound v c code scope table key).2 := by
  unfold lower_bound
  have h1 := get_table_index_registry v ⟨code, table, scope⟩ hc
  rcases hg : get_table_index v c ⟨code, table, scope⟩ with ⟨r, c1⟩
  rw [hg] at h1
  cases r with
  | error e => exact h1
  | ok ti =>
    simp only []
    split_ifs
    · exact h1
    · split
      · exact h1
      · exact get_iterator_registry h1

theorem get_iterator_row_tables {c : iterator_cache} {rk : row_key} {vi : view_iterator}
    {row : contract_row} (hrow : vi.kv = some row) :
    (get_iterator c rk vi).2.tables = c.tables ∧
    (get_iterator c rk vi).2.table_to_index = c.table_to_index ∧
    (get_iterator c rk vi).2.end_iterators = c.end_iterators ∧
    (get_iterator c rk vi).2.key_to_iterator_index = c.key_to_iterator_index := by
  unfold get_iterator
  rw [hrow]
  simp only []
  split
  · split <;> exact ⟨rfl, rfl, rfl, rfl⟩
  · split_ifs <;> exact ⟨rfl, rfl, rfl, rfl⟩

theorem db_next_i64_tables (v : view) (c : iterator_cache) (itr : Int) :
    (db_next_i64 v c itr).2.2.tables = c.tables ∧
    (db_next_i64 v c itr).2.2.table_to_index = c.table_to_index ∧
    (db_next_i64 v c itr).2.2.end_iterators = c.end_iterators ∧
    (db_next_i64 v c itr).2.2.key_to_iterator_index = c.key_to_iterator_index := by
  have hrefl : c.tables = c.tables ∧ c.table_to_index = c.table_to_index ∧
      c.end_iterators = c.end_iterators ∧ c.key_to_iterator_index = c.key_to_iterator_index :=
    ⟨rfl, rfl, rfl, rfl⟩
  unfold db_next_i64
  split_ifs
  · exact hrefl
  · exact hrefl
  · exact hrefl
  · split
    · exact hrefl
    · split_ifs
      · split <;> exact hrefl
      · exact hrefl
      · simp only []
        split
        · exact hrefl
        · split
          · exact hrefl
          · rename_i row hkv
            split
            · rename_i x e c2 hg
              have e2 := congrArg Prod.snd hg
              simp only [] at e2
              rw [← e2]
              exact get_iterator_row_tables hkv
            · rename_i x nxt c2 hg
              have e2 := congrArg Prod.snd hg
              simp only [] at e2
              have h : c2.tables = c.tables ∧ c2.table_to_index = c.table_to_index ∧
                  c2.end_iterators = c.end_iterators ∧
                  c2.key_to_iterator_index = c.key_to_iterator_index := by
                rw [← e2]
                exact get_iterator_row_tables hkv
              split_ifs <;> exact h

theorem db_next_i64_registry {v : view} {c : iterator_cache} {itr : Int}
    (hc : table_registry_inv c) : table_registry_inv (db_next_i64 v c itr).2.2 := by
  obtain ⟨h1, h2, h3, _⟩ := db_next_i64_tables v c itr
  exact table_registry_inv_of_same hc h1 h2 h3

theorem cache_call_run_registry {v : view} {c : iterator_cache} (call : cache_call)
    (hc : table_registry_inv c) : table_registry_inv (call.run v c) := by
  cases call with
  | lower_bound code scope table key => exact lower_bound_registry hc
  | db_next_i64 itr => exact db_next_i64_registry hc
  | db_get_i64 itr =>
    have := (db_get_i64_split c itr).2.2.2.2
    show table_registry_inv (db_get_i64 c itr).2
    rw [this]; exact hc

theorem run_calls_registry {v : view} (calls : List cache_call) {c : iterator_cache}
    (hc : table_registry_inv c) : table_registry_inv (run_calls v c calls) := by
  induction calls generalizing c with
  | nil => exact hc
  | cons call calls ih => exact ih (cache_call_run_registry call hc)

theorem reachable_registry {v : view} {c : iterator_cache} (h : reachable v c) :
    table_registry_inv c := by
  obtain ⟨calls, rfl⟩ := h
  exact run_calls_registry calls table_registry_inv_init

/-! ## Registered tables are kept -/

theorem registry_kept_refl (c : iterator_cache) : registry_kept c c :=
  ⟨fun _ _ h => h, fun _ _ h => h, fun _ e h => ⟨e, h, rfl⟩⟩

theorem registry_kept_trans {a b c : iterator_cache} (h1 : registry_kept a b)
    (h2 : registry_kept b c) : registry_kept a c := by
  refine ⟨fun i tk h => h2.1 i tk (h1.1 i tk h), fun tk i h => h2.2.1 tk i (h1.2.1 tk i h), ?_⟩
  intro i e h
  obtain ⟨e1, he1, ht1⟩ := h1.2.2 i e h
  obtain ⟨e2, he2, ht2⟩ := h2.2.2 i e1 he1
  exact ⟨e2, he2, ht2.trans ht1⟩

theorem registry_kept_of_same {c c' : iterator_cache} (h2 : c'.tables = c.tables)
    (h3 : c'.table_to_index = c.table_to_index) (h4 : c'.end_iterators = c.end_iterators) :
    registry_kept c c' := by
  unfold registry_kept
  rw [h2, h3, h4]
  exact registry_kept_refl c

theorem get_table_index_registry_kept (v : view) (c : iterator_cache) (key : table_key) :
    registry_kept c (get_table_index v c key).2 := by
  unfold get_table_index
  split
  · exact registry_kept_refl c
  · rename_i hfind
    split_ifs
    · exact registry_kept_refl c
    · exact registry_kept_refl c
    · exact registry_kept_refl c
    · refine ⟨fun i tk h => vec_at_append_left _ h, ?_, fun i e h => ⟨e, vec_at_append_left _ h, rfl⟩⟩
      intro tk i h
      have hne : key ≠ tk := by
        intro e
        subst e
        rw [hfind] at h
        cases h
      rw [map_find_map_assign_ne _ _ hne]
      exact h

theorem get_iterator_registry_kept (c : iterator_cache) (rk : row_key) (vi : view_iterator) :
    registry_kept c (get_iterator c rk vi).2 := by
  unfold get_iterator
  split
  · split
    · exact registry_kept_refl c
    · refine ⟨fun _ _ h => h, fun _ _ h => h, ?_⟩
      exact cursors_rel_update (R := fun e e' => e'.table_index = e.table_index) (fun _ => rfl)
        _ _ _ (fun x _ => keep_view_it_table_index vi x)
  · split
    · split
      · exact registry_kept_refl c
      · exact registry_kept_of_same rfl rfl rfl
    · split_ifs
      · exact registry_kept_refl c
      · exact registry_kept_of_same rfl rfl rfl

theorem lower_bound_registry_kept (v : view) (c : iterator_cache) (code scope table key : Nat) :
    registry_kept c (lower_bound v c code scope table key).2 := by
  unfold lower_bound
  have h1 := get_table_index_registry_kept v c ⟨code, table, scope⟩
  rcases hg : get_table_index v c ⟨code, table, scope⟩ with ⟨r, c1⟩
  rw [hg] at h1
  cases r with
  | error e => exact h1
  | ok ti =>
    simp only []
    split_ifs
    · exact h1
    · split
      · exact h1
      · exact registry_kept_trans h1 (get_iterator_registry_kept _ _ _)

theorem cache_call_run_registry_kept (v : view) (c : iterator_cache) (call : cache_call) :
    registry_kept c (call.run v c) := by
  cases call with
  | lower_bound code scope table key => exact lower_bound_registry_kept v c code scope table key
  | db_next_i64 itr =>
    obtain ⟨h1, h2, h3, _⟩ := db_next_i64_tables v c itr
    exact registry_kept_of_same h1 h2 h3
  | db_get_i64 itr =>
    have := (db_get_i64_split c itr).2.2.2.2
    show registry_kept c (db_get_i64 c itr).2
    rw [this]; exact registry_kept_refl c

theorem run_calls_registry_kept (v : view) (calls : List cache_call) (c : iterator_cache) :
    registry_kept c (run_calls v c calls) := by
  induction calls generalizing c with
  | nil => exact registry_kept_refl c
  | cons call calls ih =>
    exact registry_kept_trans (cache_call_run_registry_kept v c call) (ih (call.run v c))

theorem get_iterator_error {c : iterator_cache} {rk : row_key} {vi : view_iterator}
    {e : cache_error} (h : (get_iterator c rk vi).1 = .error e) :
    e = .subscript_out_of_range ∨ e = .too_many_iterators := by
  unfold get_iterator at h
  split at h
  · split at h
    · simp only [Except.error.injEq] at h
      exact Or.inl h.symm
    · cases h
  · split at h
    · split at h
      · simp only [Except.error.injEq] at h
        exact Or.inl h.symm
      · cases h
    · split_ifs at h
      simp only [Except.error.injEq] at h
      exact Or.inr h.symm

theorem get_table_index_no_mismatch (v : view) {c : iterator_cache} (key : table_key)
    (hc : table_registry_inv c) :
    (get_table_index v c key).1 ≠ .error .tables_size_mismatch := by
  have h2 : ¬ (c.tables.length ≠ c.table_to_index.length ∨
      c.tables.length ≠ c.end_iterators.length) := by
    simp [hc.sizes_index.symm, hc.sizes_end.symm]
  unfold get_table_index
  split
  · simp
  · rw [if_neg h2]
    split_ifs <;> simp

theorem lower_bound_no_mismatch (v : view) {c : iterator_cache} (code scope table key : Nat)
    (hc : table_registry_inv c) :
    (lower_bound v c code scope table key).1 ≠ .error .tables_size_mismatch := by
  have h1 := get_table_index_no_mismatch v ⟨code, table, scope⟩ hc
  unfold lower_bound
  rcases hg : get_table_index v c ⟨code, table, scope⟩ with ⟨r, c1⟩
  rw [hg] at h1
  cases r with
  | error e => exact h1
  | ok ti =>
    simp only []
    split_ifs
    · simp
    · split
      · simp
      · intro h
        rcases get_iterator_error h with h | h <;> cases h

theorem db_next_i64_no_mismatch (v : view) (c : iterator_cache) (itr : Int) :
    (db_next_i64 v c itr).1 ≠ .error .tables_size_mismatch := by
  unfold db_next_i64
  split_ifs
  · simp
  · simp
  · simp
  · split
    · simp
    · split_ifs
      · split <;> simp
      · simp
      · simp only []
        split
        · simp
        · split
          · simp
          · split
            · rename_i x e c2 hg
              have e1 := congrArg Prod.fst hg
              simp only [] at e1
              intro h
              simp only [Except.error.injEq] at h
              rw [h] at e1
              rcases get_iterator_error e1 with h | h <;> cases h
            · split_ifs <;> simp

theorem db_get_i64_ok_iff (c : iterator_cache) (h : Int) (bytes : List Nat) :
    (db_get_i64 c h).1 = .ok bytes ↔ ∃ it, vec_at c.iterators h = some it ∧ it.value = bytes := by
  unfold db_get_i64
  by_cases h1 : h = -1
  · subst h1
    simp [vec_at]
  by_cases h2 : h < 0
  · rw [if_neg h1, if_pos h2]
    simp only [false_iff, not_exists, not_and, reduceCtorEq]
    intro it hit
    have := (vec_at_lt hit).1
    omega
  by_cases h3 : h ≥ (c.iterators.length : Int)
  · rw [if_neg h1, if_neg h2, if_pos h3]
    simp only [false_iff, not_exists, not_and, reduceCtorEq]
    intro it hit
    have := (vec_at_lt hit).2
    omega
  · rw [if_neg h1, if_neg h2, if_neg h3]
    cases hx : vec_at c.iterators h with
    | none => simp
    | some it => simp

theorem cursors_rel_length {R : iterator → iterator → Prop} {l l' : List iterator}
    (h : cursors_rel R l l') : l.length ≤ l'.length := by
  by_contra hlt
  obtain ⟨x, hx⟩ := vec_at_of_lt (l := l) (i := (l'.length : Int)) (by omega) (by omega)
  obtain ⟨x', hx', _⟩ := h _ x hx
  have := (vec_at_lt hx').2
  omega

/-! ## Properties of the registries -/

/-- C22: in every cache state reachable from the empty cache, `tables`, `table_to_index`
and `end_iterators` have the same size; `table_to_index[tables[i]] = i`; every key of
`table_to_index` has an index in `0..size-1` and is the element of `tables` there, so
that every index in `0..size-1` belongs to exactly one registered key;
`end_iterators[i].table_index = i`; a table that `get_table_index` newly registers gets
the number of previously registered tables as its index; a registered key resolves to its
index, leaving the cache unchanged, after any further calls and whatever the view holds;
and no call raises the "tables.size() mismatch" error. -/
theorem table_registry_invariant (v : view) (c : iterator_cache) (hr : reachable v c) :
    c.tables.length = c.table_to_index.length ∧
    c.tables.length = c.end_iterators.length ∧
    (∀ i tk, vec_at c.tables i = some tk → map_find c.table_to_index tk = some i) ∧
    (∀ tk i, map_find c.table_to_index tk = some i →
      0 ≤ i ∧ i < (c.tables.length : Int) ∧ vec_at c.tables i = some tk) ∧
    (∀ i : Int, 0 ≤ i → i < (c.tables.length : Int) →
      ∃ tk, map_find c.table_to_index tk = some i ∧
        ∀ tk', map_find c.table_to_index tk' = some i → tk' = tk) ∧
    (∀ i e, vec_at c.end_iterators i = some e → e.table_index = i) ∧
    (∀ (v' : view) (key : table_key) (ti : Int) (c1 : iterator_cache),
      map_find c.table_to_index key = none → get_table_index v' c key = (.ok ti, c1) →
      0 ≤ ti →
        ti = (c.tables.length : Int) ∧ c1.tables = c.tables ++ [key] ∧
        map_find c1.table_to_index key = some ti ∧
        vec_at c1.end_iterators ti = some { table_index := ti }) ∧
    (∀ key i, map_find c.table_to_index key = some i →
      ∀ (calls : List cache_call) (v' : view),
        get_table_index v' (run_calls v c calls) key = (.ok i, run_calls v c calls)) ∧
    (∀ (v' : view) (key : table_key),
      (get_table_index v' c key).1 ≠ .error .tables_size_mismatch) ∧
    (∀ (v' : view) (code scope table key : Nat),
      (lower_bound v' c code scope table key).1 ≠ .error .tables_size_mismatch) ∧
    (∀ (v' : view) (itr : Int), (db_next_i64 v' c itr).1 ≠ .error .tables_size_mismatch) ∧
    (∀ itr : Int, (db_get_i64 c itr).1 ≠ .error .tables_size_mismatch) := by
  have hc := reachable_registry hr
  refine ⟨hc.sizes_index, hc.sizes_end, hc.index_of_table, ?_, ?_, hc.end_index, ?_, ?_,
    fun v' key => get_table_index_no_mismatch v' key hc,
    fun v' code scope table key => lower_bound_no_mismatch v' code scope table key hc,
    fun v' itr => db_next_i64_no_mismatch v' c itr, ?_⟩
  · intro tk i h
    have ht := hc.table_of_index tk i h
    exact ⟨(vec_at_lt ht).1, (vec_at_lt ht).2, ht⟩
  · intro i h0 h1
    obtain ⟨tk, htk⟩ := vec_at_of_lt (l := c.tables) h0 h1
    refine ⟨tk, hc.index_of_table i tk htk, ?_⟩
    intro tk' h'
    have := hc.table_of_index tk' i h'
    rw [htk] at this
    exact (Option.some.inj this).symm
  · intro v' key ti c1 hfind hg h0
    unfold get_table_index at hg
    rw [hfind] at hg
    simp only [] at hg
    split_ifs at hg with h1 h2 h3
    · simp only [Prod.mk.injEq, Except.ok.injEq] at hg
      omega
    · simp at hg
    · simp at hg
    · simp only [Prod.mk.injEq, Except.ok.injEq] at hg
      obtain ⟨e1, e2⟩ := hg
      subst e1 e2
      refine ⟨rfl, rfl, map_find_map_assign_same _ _ _, ?_⟩
      rw [hc.sizes_end]
      exact vec_at_append_length _ _
  · intro key i h calls v'
    have hk := (run_calls_registry_kept v calls c).2.1 key i h
    unfold get_table_index
    rw [hk]
  · intro itr h
    unfold db_get_i64 at h
    split_ifs at h
    · cases h
    · cases h
    · cases h
    · split at h <;> cases h

/-- Witness of C22: the cache over the two-row store after a seek and a step. -/
theorem table_registry_invariant_witness :
    reachable two_row_view (run_calls two_row_view {} [.lower_bound 1 0 2 0, .db_next_i64 0]) ∧
    (run_calls two_row_view {} [.lower_bound 1 0 2 0, .db_next_i64 0]).tables.length =
      (run_calls two_row_view {} [.lower_bound 1 0 2 0, .db_next_i64 0]).end_iterators.length ∧
    (run_calls two_row_view {} [.lower_bound 1 0 2 0, .db_next_i64 0]).tables = [⟨1, 2, 0⟩] :=
  ⟨⟨_, rfl⟩,
    (table_registry_invariant two_row_view
      (run_calls two_row_view {} [.lower_bound 1 0 2 0, .db_next_i64 0]) ⟨_, rfl⟩).2.1,
    by decide⟩

/-- C23: every cache operation (`lower_bound`, `db_next_i64`, `db_get_i64`), whether it
returns or throws, leaves every registered cursor registered under its handle with the
same `table_index`, primary key and cached value (and the memoized next link it has),
removes no cursor, and leaves every registered table under its index with its End
sentinel; so `db_get_i64(h)` returns after the operation the bytes it returned before. -/
theorem registered_cursors_are_kept (v : view) (c : iterator_cache) (call : cache_call) :
    cursors_kept c (call.run v c) ∧
    c.iterators.length ≤ (call.run v c).iterators.length ∧
    registry_kept c (call.run v c) ∧
    c.tables.length ≤ (call.run v c).tables.length ∧
    ∀ h bytes, (db_get_i64 c h).1 = .ok bytes →
      (db_get_i64 (call.run v c) h).1 = .ok bytes := by
  have hk := cache_call_run_kept v c call
  have hr := cache_call_run_registry_kept v c call
  refine ⟨hk, cursors_rel_length hk, hr, ?_, ?_⟩
  · by_contra hlt
    obtain ⟨x, hx⟩ := vec_at_of_lt (l := c.tables)
      (i := ((call.run v c).tables.length : Int)) (by omega) (by omega)
    have := (vec_at_lt (hr.1 _ x hx)).2
    omega
  · intro h bytes hb
    obtain ⟨it, hit, hv⟩ := (db_get_i64_ok_iff c h bytes).mp hb
    obtain ⟨it', hit', hkept⟩ := hk h it hit
    exact (db_get_i64_ok_iff _ h bytes).mpr ⟨it', hit', by rw [hkept.2.2.1, hv]⟩

/-- Witness of C23: over the two-row store, cursor 0 (row 5) yields the same bytes before
and after `db_next_i64(0)` registers cursor 1. -/
theorem registered_cursors_are_kept_witness :
    (db_get_i64 (run_calls two_row_view {} [.lower_bound 1 0 2 0]) 0).1 = .ok [97] ∧
    (db_get_i64
      ((cache_call.db_next_i64 0).run two_row_view
        (run_calls two_row_view {} [.lower_bound 1 0 2 0])) 0).1 = .ok [97] :=
  ⟨by decide,
    (registered_cursors_are_kept two_row_view (run_calls two_row_view {} [.lower_bound 1 0 2 0])
      (.db_next_i64 0)).2.2.2.2 0 [97] (by decide)⟩

/-! ## Registered cursors are on rows of the view -/

/-- Supporting fact for C21: a reachable state in which a cursor has lost both its view
iterator and its link: over the two-row store, after a seek to row 5 and one
`db_next_i64(0)`, cursor 0 has `next = -1` and holds no view iterator, so the next
`db_next_i64(0)` seeks its row again in the view. -/
theorem reseek_state_is_reachable :
    reachable two_row_view
      (run_calls two_row_view {} [.lower_bound 1 0 2 0, .db_next_i64 0]) ∧
    vec_at (run_calls two_row_view {} [.lower_bound 1 0 2 0, .db_next_i64 0]).iterators 0 =
      some { table_index := 0, primary := 5, value := [97], next := -1, view_it := none } :=
  ⟨⟨_, rfl⟩, by decide⟩

/-- Supporting fact for C21: the same step from a cursor that still holds its view
iterator: right after the seek to row 5, `db_next_i64(0)` returns the new handle 1 on
row 7. -/
theorem db_next_i64_first_step :
    vec_at (run_calls two_row_view {} [.lower_bound 1 0 2 0]).iterators 0 =
      some two_row_cursor ∧
    db_next_i64 two_row_view (run_calls two_row_view {} [.lower_bound 1 0 2 0]) 0 =
      (.ok 1, some 7, run_calls two_row_view {} [.lower_bound 1 0 2 0, .db_next_i64 0]) ∧
    db_get_i64 (run_calls two_row_view {} [.lower_bound 1 0 2 0, .db_next_i64 0]) 1 =
      (.ok [98], run_calls two_row_view {} [.lower_bound 1 0 2 0, .db_next_i64 0]) := by
  decide

end history_tools

namespace fill_rdb_session

/-! ## The persisted Fill-Status record -/

/-- C24: for every session state, the Fill-Status record that `write_fill_status` puts
into the write session (and that a checkpoint flush leaves in the store) satisfies
`irreversible <= head`; its `head`, `head_id`, `chain_id` and `first` are the session's,
its `irreversible` is `min(irreversible, head)` of the session, its `irreversible_id` is
`head_id` whenever the session's `irreversible >= head`, and the session's
`irreversible_id` otherwise. -/
theorem write_fill_status_record (s : fill_rdb_session) :
    ∃ st : fill_status_v0,
      s.write_fill_status.write_session.cache =
        s.write_session.cache ++ [.put_fill_status st] ∧
      s.write_fill_status.events = s.events ++ [.write_fill_status] ∧
      s.write_fill_status.store.fill_status = some st ∧
      (s.end_write true).db.fill_status = some st ∧
      st.irreversible ≤ st.head ∧
      st.head = s.head ∧ st.head_id = s.head_id ∧ st.chain_id = s.chain_id ∧
      st.first = s.first ∧
      st.irreversible = min s.irreversible s.head ∧
      (s.irreversible ≥ s.head → st.irreversible_id = s.head_id) ∧
      (s.irreversible < s.head → st.irreversible_id = s.irreversible_id) := by
  have hstore : ∀ st : fill_status_v0,
      s.write_fill_status.write_session.cache =
        s.write_session.cache ++ [.put_fill_status st] →
      s.write_fill_status.store.fill_status = some st := by
    intro st h
    unfold store
    have hdb : s.write_fill_status.db = s.db := rfl
    have hws : s.write_fill_status.write_session =
        { cache := s.write_session.cache ++ [.put_fill_status st] } := by
      rw [← h]
    rw [hws, hdb, view_snoc, apply_fill_status]
  by_cases h : s.irreversible < s.head
  · refine ⟨{ chain_id := s.chain_id, head := s.head, head_id := s.head_id,
              irreversible := s.irreversible, irreversible_id := s.irreversible_id,
              first := s.first }, ?_, rfl, ?_, ?_, le_of_lt h, rfl, rfl, rfl, rfl, ?_, ?_, ?_⟩
    · simp only [write_fill_status, if_pos h]
    · exact hstore _ (by simp only [write_fill_status, if_pos h])
    · rw [(end_write_status s).1, if_pos h]
    · exact (min_eq_left (le_of_lt h)).symm
    · intro hge
      exact absurd h (not_lt.mpr hge)
    · intro _
      rfl
  · refine ⟨{ chain_id := s.chain_id, head := s.head, head_id := s.head_id,
              irreversible := s.head, irreversible_id := s.head_id,
              first := s.first }, ?_, rfl, ?_, ?_, le_refl _, rfl, rfl, rfl, rfl, ?_, ?_, ?_⟩
    · simp only [write_fill_status, if_neg h]
    · exact hstore _ (by simp only [write_fill_status, if_neg h])
    · rw [(end_write_status s).1, if_neg h]
    · exact (min_eq_right (not_lt.mp h)).symm
    · intro _
      rfl
    · intro hlt
      exact absurd hlt h

/-- Witness of C24: a session with head 10 and irreversible 12 persists irreversible 10
with the head's id. -/
theorem write_fill_status_record_witness :
    ∃ st : fill_status_v0,
      ({ head := 10, head_id := 1, irreversible := 12, irreversible_id := 2 } :
        fill_rdb_session).write_fill_status.write_session.cache = [.put_fill_status st] ∧
      st.irreversible = 10 ∧ st.irreversible_id = 1 ∧ st.irreversible ≤ st.head := by
  obtain ⟨st, h1, _, _, _, h5, _, _, _, _, h10, h11, _⟩ :=
    write_fill_status_record
      { head := 10, head_id := 1, irreversible := 12, irreversible_id := 2 }
  exact ⟨st, h1, h10, h11 (by decide), h5⟩

/-! ## The gap check -/

/-- C10 (amended): for every block-result that is not caught by the stop condition: when
`head` is not 0 and `block_num > head + 1`, `received` fails with the missing-block error
for block `head + 1` and applies nothing: the session, its undo stack, write session and
store are unchanged. When `head` is 0 no gap check is made: `received` never fails with
the missing-block error; a block with `block_num >= 1` goes straight to the continuity
check, fails there with the prev-block-mismatch error iff `head_id` is set and
`prev_block` is absent or carries another id, and is applied otherwise, whatever its
number (the head becomes `block_num`); block number 0 enters the fork-switch step, which
refuses it when the undo stack retains no revision below 0. -/
theorem received_gap_is_fatal (s : fill_rdb_session) (result : get_blocks_result_v0)
    (this_block : block_position) (hthis : result.this_block = some this_block)
    (hstop : ¬ (s.config.stop_before ≠ 0 ∧ this_block.block_num ≥ s.config.stop_before))
    (hnum : this_block.block_num < 4294967296) :
    (s.head ≠ 0 → this_block.block_num > s.head + 1 →
      received s result = (.error (.missing_block (s.head + 1)), s)) ∧
    (s.head = 0 →
      (∀ n, (received s result).1 ≠ .error (.missing_block n)) ∧
      (1 ≤ this_block.block_num →
        ((received s result).1 = .error .prev_block_does_not_match ↔
          s.head_id ≠ 0 ∧
            (result.prev_block = none ∨
              ∃ prev_block, result.prev_block = some prev_block ∧
                prev_block.block_id ≠ s.head_id)) ∧
        ((received s result).1 ≠ .error .prev_block_does_not_match →
          (received s result).1 = .ok true ∧
          (received s result).2.head = this_block.block_num)) ∧
      (this_block.block_num = 0 → s.undo_stack.first_revision ≥ 0 →
        received s result = (.error (.cannot_switch_forks 4294967295), s))) := by
  have hrec := received_steps s result
  rw [hthis] at hrec
  simp only [] at hrec
  rw [if_neg hstop] at hrec
  constructor
  · intro hhead hgap
    have hmod : (s.head + 1) % 4294967296 = s.head + 1 := Nat.mod_eq_of_lt (by omega)
    rw [if_pos ⟨hhead, by omega⟩, hmod] at hrec
    exact hrec
  · intro h0
    have hgap : ¬ (s.head ≠ 0 ∧ this_block.block_num > (s.head + 1) % 4294967296) :=
      fun h => h.1 h0
    rw [if_neg hgap] at hrec
    have hm : ((match result.prev_block with
        | none => true
        | some prev_block => decide (prev_block.block_id ≠ s.head_id)) = true) ↔
        (result.prev_block = none ∨
          ∃ prev_block, result.prev_block = some prev_block ∧
            prev_block.block_id ≠ s.head_id) := by
      cases result.prev_block with
      | none => simp
      | some pb => simp
    have hone : 1 ≤ this_block.block_num →
        received s result =
          if s.head_id ≠ 0 ∧
              (match result.prev_block with
                | none => true
                | some prev_block => decide (prev_block.block_id ≠ s.head_id)) = true then
            (.error .prev_block_does_not_match, { s with reported_block := true })
          else (.ok true, finish_block { s with reported_block := true } result this_block) := by
      intro h1
      rw [if_neg (by omega)] at hrec
      exact hrec
    have hzero : this_block.block_num = 0 →
        received s result =
          match switch_forks s 0 with
          | (.error e, s1) => (.error e, s1)
          | (.ok _, s1) =>
            if s1.head_id ≠ 0 ∧
                (match result.prev_block with
                  | none => true
                  | some prev_block => decide (prev_block.block_id ≠ s1.head_id)) = true then
              (.error .prev_block_does_not_match, { s1 with reported_block := true })
            else
              (.ok true, finish_block { s1 with reported_block := true } result this_block) := by
      intro hz
      rw [if_pos (by omega), hz] at hrec
      exact hrec
    refine ⟨?_, ?_, ?_⟩
    · intro n hn
      by_cases h1 : 1 ≤ this_block.block_num
      · rw [hone h1] at hn
        split_ifs at hn
        cases hn
      · rw [hzero (by omega)] at hn
        rcases hsw : switch_forks s 0 with ⟨r, s1⟩
        rw [hsw] at hn
        cases r with
        | error e =>
          simp only [Except.error.injEq] at hn
          by_cases hfirst : s.undo_stack.first_revision ≥ ((0 : Nat) : Int)
          · unfold switch_forks at hsw
            rw [if_pos hfirst] at hsw
            simp only [Prod.mk.injEq, Except.error.injEq] at hsw
            rw [← hsw.1] at hn
            cases hn
          · have := switch_forks_error s 0 e hfirst (by rw [hsw])
            rw [this] at hn
            cases hn
        | ok u =>
          simp only [] at hn
          split_ifs at hn
          cases hn
    · intro h1
      rw [hone h1]
      by_cases hc : s.head_id ≠ 0 ∧
          (match result.prev_block with
            | none => true
            | some prev_block => decide (prev_block.block_id ≠ s.head_id)) = true
      · rw [if_pos hc]
        exact ⟨⟨fun _ => ⟨hc.1, hm.mp hc.2⟩, fun _ => rfl⟩, fun h => absurd rfl h⟩
      · rw [if_neg hc]
        refine ⟨⟨fun h => by simp at h, fun h => absurd ⟨h.1, hm.mpr h.2⟩ hc⟩, fun _ => ⟨rfl, ?_⟩⟩
        exact (finish_block_keeps _ result this_block).2.1
    · intro hz hfirst
      rw [hzero hz]
      have hfirst' : s.undo_stack.first_revision ≥ ((0 : Nat) : Int) := by
        simpa using hfirst
      have hsw : switch_forks s 0 = (.error (.cannot_switch_forks 4294967295), s) := by
        unfold switch_forks
        rw [if_pos hfirst']
      rw [hsw]

/-- Witness of C10 (amended): head 3 and block 5; head 0 and block 5; head 0 and
block 0. -/
theorem received_gap_is_fatal_witness :
    received { head := 3 } { this_block := some ⟨5, 1⟩ } =
      (.error (.missing_block (3 + 1)), { head := 3 }) ∧
    (received {} { this_block := some ⟨5, 1⟩ }).1 = .ok true ∧
    (received {} { this_block := some ⟨5, 1⟩ }).2.head = 5 ∧
    received {} { this_block := some ⟨0, 1⟩ } = (.error (.cannot_switch_forks 4294967295), {}) :=
  ⟨(received_gap_is_fatal { head := 3 } { this_block := some ⟨5, 1⟩ } ⟨5, 1⟩ rfl (by decide)
      (by decide)).1 (by decide) (by decide),
    ((((received_gap_is_fatal {} { this_block := some ⟨5, 1⟩ } ⟨5, 1⟩ rfl (by decide)
      (by decide)).2 rfl).2.1 (by decide)).2 (by decide)).1,
    ((((received_gap_is_fatal {} { this_block := some ⟨5, 1⟩ } ⟨5, 1⟩ rfl (by decide)
      (by decide)).2 rfl).2.1 (by decide)).2 (by decide)).2,
    ((received_gap_is_fatal {} { this_block := some ⟨0, 1⟩ } ⟨0, 1⟩ rfl (by decide)
      (by decide)).2 rfl).2.2 rfl (by decide)⟩

/-! ## Fill-Status at the two calls of `load_fill_status` -/

theorem receive_all_has_status (rs : List get_blocks_result_v0) (s : fill_rdb_session)
    (hs : has_status s) : has_status (receive_all s rs) := by
  induction rs generalizing s with
  | nil => exact hs
  | cons r rs ih => exact ih _ (has_status_received s r hs)

theorem switch_forks_reloads (s : fill_rdb_session) (block_num : Nat) (hs : has_status s)
    (hok : (switch_forks s block_num).1 = .ok ()) :
    ∃ st, (switch_forks s block_num).2.db.fill_status = some st ∧
      (switch_forks s block_num).2.chain_id = st.chain_id ∧
      (switch_forks s block_num).2.head = st.head ∧
      (switch_forks s block_num).2.head_id = st.head_id ∧
      (switch_forks s block_num).2.irreversible = st.irreversible ∧
      (switch_forks s block_num).2.irreversible_id = st.irreversible_id ∧
      (switch_forks s block_num).2.first = st.first := by
  unfold switch_forks at hok ⊢
  split_ifs at hok ⊢ with hfirst
  simp only [] at hok ⊢
  have hl := has_status_undo_loop block_num
    (s.wipe_cache.undo_stack.revision - block_num + 1).toNat s.wipe_cache
    (has_status_of_eq hs rfl rfl)
  rcases hu : undo_loop s.wipe_cache block_num
    (s.wipe_cache.undo_stack.revision - block_num + 1).toNat with ⟨r, s2⟩
  rw [hu] at hl hok
  cases r with
  | error e => simp at hok
  | ok u =>
    simp only []
    obtain ⟨st, hst⟩ := Option.ne_none_iff_exists'.mp hl.1
    refine ⟨st, ?_, ?_⟩
    · show s2.load_fill_status.db.fill_status = some st
      rw [(load_fill_status_keeps s2).2.1]
      exact hst
    · rw [load_fill_status_some hst]
      exact ⟨rfl, rfl, rfl, rfl, rfl, rfl⟩

/-- C16: at both calls of `load_fill_status` the session's `chain_id`, `head`, `head_id`,
`irreversible`, `irreversible_id` and `first` afterwards equal the fields of the
persisted Fill-Status record when one is present in the store, and are all zero when
none is present. At startup (`connect` on a freshly constructed session over the store
`db` and the undo stack `u`) both cases arise. At the reload after a fork rollback, in a
session that was started by `connect` and has received any block-results, a record is
always present in the rewound store (when the frames that `u` held at startup hold
one), and the fields equal it. With a record present the fields equal it for every
prior session state. -/
theorem load_fill_status_at_call_sites (cfg : fill_rocksdb_config) (db : kv_state)
    (u : chain_kv.undo_stack) :
    (∀ st, db.fill_status = some st →
      ({ config := cfg, db := db, undo_stack := u } :
        fill_rdb_session).load_fill_status.chain_id = st.chain_id ∧
      ({ config := cfg, db := db, undo_stack := u } :
        fill_rdb_session).load_fill_status.head = st.head ∧
      ({ config := cfg, db := db, undo_stack := u } :
        fill_rdb_session).load_fill_status.head_id = st.head_id ∧
      ({ config := cfg, db := db, undo_stack := u } :
        fill_rdb_session).load_fill_status.irreversible = st.irreversible ∧
      ({ config := cfg, db := db, undo_stack := u } :
        fill_rdb_session).load_fill_status.irreversible_id = st.irreversible_id ∧
      ({ config := cfg, db := db, undo_stack := u } :
        fill_rdb_session).load_fill_status.first = st.first) ∧
    (db.fill_status = none →
      ({ config := cfg, db := db, undo_stack := u } :
        fill_rdb_session).load_fill_status.chain_id = 0 ∧
      ({ config := cfg, db := db, undo_stack := u } :
        fill_rdb_session).load_fill_status.head = 0 ∧
      ({ config := cfg, db := db, undo_stack := u } :
        fill_rdb_session).load_fill_status.head_id = 0 ∧
      ({ config := cfg, db := db, undo_stack := u } :
        fill_rdb_session).load_fill_status.irreversible = 0 ∧
      ({ config := cfg, db := db, undo_stack := u } :
        fill_rdb_session).load_fill_status.irreversible_id = 0 ∧
      ({ config := cfg, db := db, undo_stack := u } :
        fill_rdb_session).load_fill_status.first = 0) ∧
    ((∀ f ∈ u.frames, f.fill_status ≠ none) →
      ∀ (rs : List get_blocks_result_v0) (block_num : Nat),
        (switch_forks
          (receive_all (connect { config := cfg, db := db, undo_stack := u }) rs)
          block_num).1 = .ok () →
        ∃ st,
          (switch_forks
            (receive_all (connect { config := cfg, db := db, undo_stack := u }) rs)
            block_num).2.db.fill_status = some st ∧
          (switch_forks
            (receive_all (connect { config := cfg, db := db, undo_stack := u }) rs)
            block_num).2.chain_id = st.chain_id ∧
          (switch_forks
            (receive_all (connect { config := cfg, db := db, undo_stack := u }) rs)
            block_num).2.head = st.head ∧
          (switch_forks
            (receive_all (connect { config := cfg, db := db, undo_stack := u }) rs)
            block_num).2.head_id = st.head_id ∧
          (switch_forks
            (receive_all (connect { config := cfg, db := db, undo_stack := u }) rs)
            block_num).2.irreversible = st.irreversible ∧
          (switch_forks
            (receive_all (connect { config := cfg, db := db, undo_stack := u }) rs)
            block_num).2.irreversible_id = st.irreversible_id ∧
          (switch_forks
            (receive_all (connect { config := cfg, db := db, undo_stack := u }) rs)
            block_num).2.first = st.first) ∧
    (∀ (s : fill_rdb_session) (st : fill_status_v0), s.db.fill_status = some st →
      s.load_fill_status.chain_id = st.chain_id ∧ s.load_fill_status.head = st.head ∧
      s.load_fill_status.head_id = st.head_id ∧
      s.load_fill_status.irreversible = st.irreversible ∧
      s.load_fill_status.irreversible_id = st.irreversible_id ∧
      s.load_fill_status.first = st.first) := by
  have hgen : ∀ (s : fill_rdb_session) (st : fill_status_v0), s.db.fill_status = some st →
      s.load_fill_status.chain_id = st.chain_id ∧ s.load_fill_status.head = st.head ∧
      s.load_fill_status.head_id = st.head_id ∧
      s.load_fill_status.irreversible = st.irreversible ∧
      s.load_fill_status.irreversible_id = st.irreversible_id ∧
      s.load_fill_status.first = st.first := by
    intro s st h
    rw [load_fill_status_some h]
    exact ⟨rfl, rfl, rfl, rfl, rfl, rfl⟩
  refine ⟨fun st h => hgen _ st h, ?_, ?_, hgen⟩
  · intro h
    have h' : ({ config := cfg, db := db, undo_stack := u } : fill_rdb_session).db.fill_status =
        none := h
    rw [load_fill_status_none h']
    exact ⟨rfl, rfl, rfl, rfl, rfl, rfl⟩
  · intro hu rs block_num hok
    exact switch_forks_reloads _ block_num
      (receive_all_has_status rs _ (has_status_connect _ hu)) hok

/-- Witness of C16: a fresh session over an empty store has head 0 after
`load_fill_status`; after `connect` and the blocks 1, 2 and 3, the fork switch to block 2
reloads the record of the rewound store. -/
theorem load_fill_status_at_call_sites_witness :
    ({} : fill_rdb_session).load_fill_status.head = 0 ∧
    (switch_forks
      (receive_all (connect {})
        [reversible_block 1 11 0, reversible_block 2 12 11, reversible_block 3 13 12])
      2).1 = .ok () ∧
    ∃ st,
      (switch_forks
        (receive_all (connect {})
          [reversible_block 1 11 0, reversible_block 2 12 11, reversible_block 3 13 12])
        2).2.db.fill_status = some st ∧
      (switch_forks
        (receive_all (connect {})
          [reversible_block 1 11 0, reversible_block 2 12 11, reversible_block 3 13 12])
        2).2.head = st.head :=
  ⟨((load_fill_status_at_call_sites {} {} {}).2.1 rfl).2.1, by decide,
    (((load_fill_status_at_call_sites {} {} {}).2.2.1 (by intro f hf; cases hf)
      [reversible_block 1 11 0, reversible_block 2 12 11, reversible_block 3 13 12] 2
      (by decide)).imp fun _ h => ⟨h.1, h.2.2.1⟩)⟩

end fill_rdb_session
